import Mathlib

/-!
Verification of the annotation-timeline core of the `anonymize-langdoc`
repository (`anonymize_doc.py`, `export_saymore.py`): the markup redactor,
the ffmpeg filter-program compiler, the in-place setters for the
annotation store, the SayMore timeline merger and its EAF template.

Strings are modelled as `List Char`.  The Python regular expressions used
by the redactor all have the shape
`LIT1 (.*?) LIT2`  or  `LIT1 .*? LIT2 (.*?) LIT3`
(literal pieces, lazy dot-groups; `.` does not match a newline), and
`re.sub` replaces every non-overlapping, leftmost-shortest match.  This
is embedded by the executable scanner `reSub2` below.
-/

namespace AnonLangdoc

/-- Boolean test that the first list is a prefix of the second. -/
def isPre : List Char → List Char → Bool
  | [], _ => true
  | _ :: _, [] => false
  | a :: as, b :: bs => a == b && isPre as bs

/-- Scanner for the tail of a pattern `...(.*?)CLS`: starting from the
current position, consume arbitrary non-newline characters lazily until
the literal `cls` matches, and return the remainder of the input after
`cls`.  Returns `none` if a newline or the end of input is reached first.
This is exactly how the lazy group of the Python patterns behaves. -/
def findClose (cls : List Char) : List Char → Option (List Char)
  | [] => if isPre cls [] then some [] else none
  | c :: rest =>
    if isPre cls (c :: rest) then some ((c :: rest).drop cls.length)
    else if c = '\n' then none else findClose cls rest

/-- Scanner for the tail of a two-group pattern `... .*? MID (.*?) CLS`:
lazily extend the first group until `mid` matches at the current position
and `findClose cls` succeeds after it; on failure of the continuation the
first group is extended by one (non-newline) character, exactly like the
backtracking of the Python engine. -/
def findMid (mid cls : List Char) : List Char → Option (List Char)
  | [] => if isPre mid [] then findClose cls [] else none
  | c :: rest =>
    match (if isPre mid (c :: rest) then
        findClose cls ((c :: rest).drop mid.length) else none) with
    | some u => some u
    | none => if c = '\n' then none else findMid mid cls rest

/-- Fuelled scanner behind `reSub2`; the fuel only serves to make the
recursion structural, `reSub2` always supplies enough of it. -/
def reSub2Go (o : Char) (opn mid fin repl : List Char) :
    Nat → List Char → List Char
  | _, [] => []
  | 0, s => s
  | fuel + 1, c :: rest =>
    match (if isPre (o :: opn) (c :: rest) then
        findMid mid fin (rest.drop opn.length) else none) with
    | some after => repl ++ reSub2Go o opn mid fin repl fuel after
    | none => c :: reSub2Go o opn mid fin repl fuel rest

/-- Embedding of Python `re.sub(pat, repl, s)` for a pattern of shape
`(o :: opn) .*? mid (.*?) fin` (single-group patterns take `mid = []`):
scan left to right; at each position, if the literal opening `o :: opn`
matches and the lazy continuation `findMid` succeeds, emit `repl` and
continue after the match, otherwise keep the character and move on. -/
def reSub2 (o : Char) (opn mid fin repl : List Char) (s : List Char) :
    List Char :=
  reSub2Go o opn mid fin repl s.length s

/-- The four substitutions of `anonymize_text` (`anonymize_doc.py`),
in source order.  Pattern literals are written as character lists. -/
def nameTagOpn : List Char := ['n', 'a', 'm', 'e', ']']

def nameTagFin : List Char := ['[', '/', 'n', 'a', 'm', 'e', ']']

def anonNameOpn : List Char :=
  ['a', 'n', 'o', 'n', ' ', 't', 'y', 'p', 'e', '=', '"',
   'n', 'a', 'm', 'e', '"', ']']

def anonAnyOpn : List Char :=
  ['a', 'n', 'o', 'n', ' ', 't', 'y', 'p', 'e', '=', '"']

def anonMid : List Char := ['"', ']']

def anonFin : List Char := ['[', '/', 'a', 'n', 'o', 'n', ']']

def sensTagOpn : List Char :=
  ['s', 'e', 'n', 's', 'i', 't', 'i', 'v', 'e', ']']

def sensTagFin : List Char :=
  ['[', '/', 's', 'e', 'n', 's', 'i', 't', 'i', 'v', 'e', ']']

def nameRepl : List Char := ['(', 'N', 'A', 'M', 'E', ')']

def sensRepl : List Char :=
  ['(', 'S', 'E', 'N', 'S', 'I', 'T', 'I', 'V', 'E', ')']

/-- First substitution: `[anon type="name"](.*?)[/anon]` → `(NAME)`. -/
def sub1 (s : List Char) : List Char :=
  reSub2 '[' anonNameOpn [] anonFin nameRepl s

/-- Second substitution: `[name](.*?)[/name]` → `(NAME)`. -/
def sub2 (s : List Char) : List Char :=
  reSub2 '[' nameTagOpn [] nameTagFin nameRepl s

/-- Third substitution: `[anon type=".*?"](.*?)[/anon]` → `(SENSITIVE)`. -/
def sub3 (s : List Char) : List Char :=
  reSub2 '[' anonAnyOpn anonMid anonFin sensRepl s

/-- Fourth substitution: `[sensitive](.*?)[/sensitive]` → `(SENSITIVE)`. -/
def sub4 (s : List Char) : List Char :=
  reSub2 '[' sensTagOpn [] sensTagFin sensRepl s

/-- Embedding of `anonymize_text` from `anonymize_doc.py` (the function
`_anonymize_text` in `export_saymore.py` is textually identical): the
four `re.sub` calls applied in source order. -/
def anonymize_text (s : List Char) : List Char :=
  sub4 (sub3 (sub2 (sub1 s)))

/-- Embedding of `anonymize` from `export_saymore.py`: returns the
redacted string together with the flag `anon_s != s`. -/
def anonymize (s : List Char) : List Char × Bool :=
  let anon_s := anonymize_text s
  (anon_s, anon_s != s)

/-- Tail of the closing tag `[/name]` after its bracket. -/
def nameTagFin' : List Char := ['/', 'n', 'a', 'm', 'e', ']']

/-- Tail of the closing tag `[/anon]` after its bracket. -/
def anonFin' : List Char := ['/', 'a', 'n', 'o', 'n', ']']

/-- The concrete type text `topic` used in the claims about the generic
`[anon type="..."]` rule. -/
def topicTy : List Char := ['t', 'o', 'p', 'i', 'c']

/-- `NoOpen s`: the string `s` contains no `[`, so no pattern of the
redactor can start a match inside it. -/
def NoOpen (s : List Char) : Prop := ∀ c ∈ s, c ≠ '['

/-- `Clean s`: no `[` and no newline, so `s` can be the enclosed content
of a well-formed tagged span. -/
def Clean (s : List Char) : Prop := ∀ c ∈ s, c ≠ '[' ∧ c ≠ '\n'

instance (s : List Char) : Decidable (NoOpen s) :=
  List.decidableBAll _ s

instance (s : List Char) : Decidable (Clean s) :=
  List.decidableBAll _ s

/-- Embedding of the pre-compiled pre-check regular expression
`anonymous_text_re = re.compile('\[\/?(anon|name|sensitive)')` from
`anonymize_doc.py`: one of the three tag words, preceded by `[` and an
optional slash. -/
def wordAfter (s : List Char) : Bool :=
  isPre ['a', 'n', 'o', 'n'] s || isPre ['n', 'a', 'm', 'e'] s ||
    isPre ['s', 'e', 'n', 's', 'i', 't', 'i', 'v', 'e'] s

/-- `precheck s = true` iff `anonymous_text_re.search` finds a match in
`s`: scan for a `[`, optionally followed by `/`, followed by one of the
tag words. -/
def precheck : List Char → Bool
  | [] => false
  | c :: rest =>
    (c == '[' && (wordAfter rest ||
      (match rest with
       | '/' :: r => wordAfter r
       | _ => false))) || precheck rest

/-- First-match association-list lookup, modelling Python dict access
(`d[k]`) combined with the possibility of a `KeyError` (`none`). -/
def look {α : Type} (k : String) : List (String × α) → Option α
  | [] => none
  | (k', v) :: rest => if k' = k then some v else look k rest

/-- An aligned (time-alignable) item of a pympi tier dictionary:
`tiers[tier][0][aid] = (begin_ts, end_ts, value, svg_ref)`. -/
structure AlignedAnn where
  ts1 : String
  ts2 : String
  value : List Char
  svg : Option String
deriving DecidableEq

/-- A referential item of a pympi tier dictionary:
`tiers[tier][1][aid] = (reference, value, previous, svg_ref)`. -/
structure RefAnn where
  parentAnn : String
  value : List Char
  previous : Option String
  svg : Option String
deriving DecidableEq

/-- A pympi tier: the aligned dictionary, the reference dictionary and
the `PARENT_REF` attribute (`none` when the attribute is absent). -/
structure Tier where
  aligned : List (String × AlignedAnn)
  refs : List (String × RefAnn)
  parentRef : Option String
deriving DecidableEq

/-- The in-memory annotation store: pympi's `tiers` and `timeslots`
dictionaries (insertion-ordered, so modelled as association lists). -/
structure Transcript where
  tiers : List (String × Tier)
  timeslots : List (String × Nat)
deriving DecidableEq

/-- Replace the value stored under a key, keeping the position — the
effect of a Python dict assignment to an existing key. -/
def updTier (k : String) (t : Tier) : List (String × Tier) → List (String × Tier)
  | [] => []
  | (k', t') :: rest =>
    if k' = k then (k', t) :: rest else (k', t') :: updTier k t rest

/-- Body of `set_aligned_annotation` (anonymize_doc.py): walk the
aligned items in order and, at the first one whose two timeslots resolve
to `s` and `e`, replace its value and stop (`break`).  The second
timeslot is consulted only when the first already matched, mirroring the
short-circuit `and`; a missing timeslot id is a `KeyError` (`none`). -/
def updAligned (ts : List (String × Nat)) (s e : Nat) (v : List Char) :
    List (String × AlignedAnn) → Option (List (String × AlignedAnn))
  | [] => some []
  | (aid, a) :: rest =>
    match look a.ts1 ts with
    | none => none
    | some m1 =>
      if m1 = s then
        match look a.ts2 ts with
        | none => none
        | some m2 =>
          if m2 = e then some ((aid, { a with value := v }) :: rest)
          else (updAligned ts s e v rest).map (fun l => (aid, a) :: l)
      else (updAligned ts s e v rest).map (fun l => (aid, a) :: l)

/-- Embedding of `set_aligned_annotation` from `anonymize_doc.py`.
`none` models the `KeyError` raised on a missing tier or timeslot. -/
def setAlignedValue (tr : Transcript) (tier : String) (s e : Nat)
    (v : List Char) : Option Transcript :=
  match look tier tr.tiers with
  | none => none
  | some T =>
    match updAligned tr.timeslots s e v T.aligned with
    | none => none
    | some al =>
      some { tr with tiers := updTier tier { T with aligned := al } tr.tiers }

/-- Body of `set_ref_annotation` (anonymize_doc.py): walk the reference
items in order; for each, fetch its parent aligned item from the parent
tier and compare the parent's resolved span with `(s, e)` (short-circuit
as above); at the first match replace the value and stop.  The parent
tier and parent item are looked up inside the loop, so an empty
reference dictionary never touches them. -/
def updRef (tiers : List (String × Tier)) (ts : List (String × Nat))
    (pt : String) (s e : Nat) (v : List Char) :
    List (String × RefAnn) → Option (List (String × RefAnn))
  | [] => some []
  | (rid, r) :: rest =>
    match look pt tiers with
    | none => none
    | some PT =>
      match look r.parentAnn PT.aligned with
      | none => none
      | some pa =>
        match look pa.ts1 ts with
        | none => none
        | some m1 =>
          if m1 = s then
            match look pa.ts2 ts with
            | none => none
            | some m2 =>
              if m2 = e then some ((rid, { r with value := v }) :: rest)
              else (updRef tiers ts pt s e v rest).map
                (fun l => (rid, r) :: l)
          else (updRef tiers ts pt s e v rest).map (fun l => (rid, r) :: l)

/-- One `updRef` iteration with the parent tier's aligned dictionary
already fetched — `updRef` on a cons reduces to this once
`look pt tiers` is known. -/
def updRefStep (al : List (String × AlignedAnn)) (ts : List (String × Nat))
    (s e : Nat) (v : List Char) (rid : String) (r : RefAnn)
    (rest : List (String × RefAnn)) (rec : Option (List (String × RefAnn))) :
    Option (List (String × RefAnn)) :=
  match look r.parentAnn al with
  | none => none
  | some pa =>
    match look pa.ts1 ts with
    | none => none
    | some m1 =>
      if m1 = s then
        match look pa.ts2 ts with
        | none => none
        | some m2 =>
          if m2 = e then some ((rid, { r with value := v }) :: rest)
          else rec.map (fun l => (rid, r) :: l)
      else rec.map (fun l => (rid, r) :: l)

/-- Embedding of `set_ref_annotation` from `anonymize_doc.py`: the
parent tier name is read from the tier's `PARENT_REF` attribute before
the loop; `none` models the `KeyError` on a missing tier, attribute,
parent item or timeslot. -/
def setRefValue (tr : Transcript) (tier : String) (s e : Nat)
    (v : List Char) : Option Transcript :=
  match look tier tr.tiers with
  | none => none
  | some T =>
    match T.parentRef with
    | none => none
    | some pt =>
      match updRef tr.tiers tr.timeslots pt s e v T.refs with
      | none => none
      | some rl =>
        some { tr with tiers := updTier tier { T with refs := rl } tr.tiers }

/-- The effective span of an aligned item resolves to `(s, e)`. -/
def spanIs (ts : List (String × Nat)) (a : AlignedAnn) (s e : Nat) : Prop :=
  look a.ts1 ts = some s ∧ look a.ts2 ts = some e

/-- The effective span of a referential item — the resolved span of its
parent aligned item on the parent tier — is `(s, e)`. -/
def refSpanIs (tiers : List (String × Tier)) (ts : List (String × Nat))
    (pt : String) (r : RefAnn) (s e : Nat) : Prop :=
  ∃ PT pa, look pt tiers = some PT ∧
    look r.parentAnn PT.aligned = some pa ∧ spanIs ts pa s e

/-- A small concrete store: one time-aligned tier `T` holding annotation
`a1` over `[0 ms, 5 ms]`, and one referential tier `R` (parent `T`)
holding `r1`, which points at `a1`. -/
def demoTr : Transcript :=
  { tiers :=
      [("T", { aligned := [("a1", { ts1 := "t1", ts2 := "t2",
                                    value := "old".toList, svg := none })],
               refs := [], parentRef := none }),
       ("R", { aligned := [],
               refs := [("r1", { parentAnn := "a1", value := "rold".toList,
                                 previous := none, svg := none })],
               parentRef := some "T" })],
    timeslots := [("t1", 0), ("t2", 5)] }

/-- `demoTr` after `set_aligned_annotation(demoTr, "T", 0, 5, "new")`. -/
def demoTrA : Transcript :=
  { tiers :=
      [("T", { aligned := [("a1", { ts1 := "t1", ts2 := "t2",
                                    value := "new".toList, svg := none })],
               refs := [], parentRef := none }),
       ("R", { aligned := [],
               refs := [("r1", { parentAnn := "a1", value := "rold".toList,
                                 previous := none, svg := none })],
               parentRef := some "T" })],
    timeslots := [("t1", 0), ("t2", 5)] }

/-- pympi's `get_annotation_data_for_tier` on a time-alignable tier: each
annotation's `(timeslots[ts1], timeslots[ts2], value)`, raising
(`none`) on a missing timeslot. -/
def resolveAligned (ts : List (String × Nat)) :
    List (String × AlignedAnn) → Option (List (Nat × Nat × List Char))
  | [] => some []
  | (_, a) :: rest =>
    match look a.ts1 ts, look a.ts2 ts with
    | some s, some e =>
      (resolveAligned ts rest).map fun l => (s, e, a.value) :: l
    | _, _ => none

/-- pympi's `get_annotation_data_for_tier` on a referential tier: each
annotation's parent-resolved `(start_ms, end_ms, value)` (the fourth
tuple component is unused by the orchestrator loop). -/
def resolveRef (tiers : List (String × Tier)) (ts : List (String × Nat))
    (pt : String) :
    List (String × RefAnn) → Option (List (Nat × Nat × List Char))
  | [] => some []
  | (_, r) :: rest =>
    match look pt tiers with
    | none => none
    | some PT =>
      match look r.parentAnn PT.aligned with
      | none => none
      | some pa =>
        match look pa.ts1 ts, look pa.ts2 ts with
        | some s, some e =>
          (resolveRef tiers ts pt rest).map fun l => (s, e, r.value) :: l
        | _, _ => none

/-- The orchestrator's inner loop over a snapshot of a time-alignable
tier's annotation data.  With `guarded = true` this is the source loop
(`if anonymous_text_re.search(value): set_aligned_annotation(...)`);
with `guarded = false` it is the unconditional variant the claim compares
against. -/
def runAligned (guarded : Bool) (tier : String) :
    Transcript → List (Nat × Nat × List Char) → Option Transcript
  | tr, [] => some tr
  | tr, (s, e, v) :: rest =>
    if guarded && !(precheck v) then runAligned guarded tier tr rest
    else
      match setAlignedValue tr tier s e (anonymize_text v) with
      | none => none
      | some tr2 => runAligned guarded tier tr2 rest

/-- The inner loop over a referential tier's snapshot, calling
`set_ref_annotation`. -/
def runRef (guarded : Bool) (tier : String) :
    Transcript → List (Nat × Nat × List Char) → Option Transcript
  | tr, [] => some tr
  | tr, (s, e, v) :: rest =>
    if guarded && !(precheck v) then runRef guarded tier tr rest
    else
      match setRefValue tr tier s e (anonymize_text v) with
      | none => none
      | some tr2 => runRef guarded tier tr2 rest

/-- One tier of the orchestrator: snapshot the tier's annotation data
(aligned data when the tier has aligned annotations, referential data
otherwise — the arity test on the snapshot tuples), then run the loop
with the matching setter. -/
def processTier (guarded : Bool) (tr : Transcript) (tier : String) :
    Option Transcript :=
  match look tier tr.tiers with
  | none => none
  | some T =>
    if T.aligned.isEmpty then
      match T.parentRef with
      | none => if T.refs.isEmpty then some tr else none
      | some pt =>
        match resolveRef tr.tiers tr.timeslots pt T.refs with
        | none => none
        | some anns => runRef guarded tier tr anns
    else
      match resolveAligned tr.timeslots T.aligned with
      | none => none
      | some anns => runAligned guarded tier tr anns

/-- The orchestrator's outer loop over the document's tier names. -/
def runTiers (guarded : Bool) : List String → Transcript → Option Transcript
  | [], tr => some tr
  | t :: rest, tr =>
    match processTier guarded tr t with
    | none => none
    | some tr2 => runTiers guarded rest tr2

/-- The whole redaction orchestrator over a document (`for tier in
transcript.tiers`). -/
def redactDoc (guarded : Bool) (tr : Transcript) : Option Transcript :=
  runTiers guarded (tr.tiers.map Prod.fst) tr

/-- Everything of an aligned annotation except its value. -/
def alShape (l : List (String × AlignedAnn)) :
    List (String × String × String × Option String) :=
  l.map fun p => (p.1, p.2.ts1, p.2.ts2, p.2.svg)

/-- Everything of a referential annotation except its value. -/
def refShape (l : List (String × RefAnn)) :
    List (String × String × Option String × Option String) :=
  l.map fun p => (p.1, p.2.parentAnn, p.2.previous, p.2.svg)

/-- Everything of a tier except its annotation values. -/
def tierShape (T : Tier) :
    List (String × String × String × Option String) ×
      List (String × String × Option String × Option String) ×
      Option String :=
  (alShape T.aligned, refShape T.refs, T.parentRef)

/-- Everything of a document except its annotation values: redaction only
rewrites values, so this is invariant under the orchestrator. -/
def docShape (tr : Transcript) :
    List (String ×
      (List (String × String × String × Option String) ×
        List (String × String × Option String × Option String) ×
        Option String)) × List (String × Nat) :=
  (tr.tiers.map fun p => (p.1, tierShape p.2), tr.timeslots)

/-- One tier's side condition: whenever its annotation data resolves, the
resolved effective spans are pairwise distinct. -/
def tierSpansOK (tiers : List (String × Tier)) (ts : List (String × Nat))
    (T : Tier) : Bool :=
  (match resolveAligned ts T.aligned with
   | none => true
   | some anns => decide (anns.map fun q => (q.1, q.2.1)).Nodup) &&
  (match T.parentRef with
   | none => true
   | some pt =>
     match resolveRef tiers ts pt T.refs with
     | none => true
     | some anns => decide (anns.map fun q => (q.1, q.2.1)).Nodup)

/-- Every tier of the document satisfies `tierSpansOK`. -/
def spansDistinctB (tr : Transcript) : Bool :=
  tr.tiers.all fun p => tierSpansOK tr.tiers tr.timeslots p.2

/-- A one-tier store whose two annotations share the effective span
`[0 ms, 5 ms]` and carry no markup. -/
def trDup : Transcript :=
  { tiers :=
      [("T", { aligned :=
                 [("a1", { ts1 := "t1", ts2 := "t2",
                           value := "w".toList, svg := none }),
                  ("a2", { ts1 := "t1", ts2 := "t2",
                           value := "v".toList, svg := none })],
               refs := [], parentRef := none })],
    timeslots := [("t1", 0), ("t2", 5)] }

/-- The `TIER` elements of `EAF_TEMPLATE`, in document order:
`(TIER_ID, PARENT_REF, LINGUISTIC_TYPE_REF)` (a top-level tier has no
`PARENT_REF`). -/
def templateTiers : List (String × Option String × String) :=
  [("Original", none, "oral-annotation-text"),
   ("Original-ID", some "Original", "oral-annotation-id"),
   ("Original-Source", some "Original", "oral-annotation-source"),
   ("Repetition", none, "oral-annotation-text"),
   ("Repetition-ID", some "Repetition", "oral-annotation-id"),
   ("Translation", none, "oral-annotation-text"),
   ("Translation-ID", some "Translation", "oral-annotation-id"),
   ("Postprocess", none, "event")]

/-- `REVIEW_CONTEXT` (ms of context added around each review clip). -/
def reviewCtx : Int := 1000

/-- `get_duration_ms`: the probe either yields `(samples, rate)` parsed
from the ffmpeg output, or fails (`none`: nonzero exit, unparsable output,
or a zero rate dividing by zero — all caught by the `except` arms), in
which case `clip_duration_ms` keeps its initial value `-1`.  The success
value is `round(samples / (rate / 1000.0))`, modelled as rounding
half-up (Python's `round` differs only on exact halves). -/
def get_duration_ms (probe : Option (Nat × Nat)) : Int :=
  match probe with
  | none => -1
  | some (samples, rate) =>
    if rate = 0 then -1
    else Int.ofNat ((samples * 2000 + rate) / (2 * rate))

/-- The context window `review_anonymization` computes for one segment:
`start_ms = max(start_ms - REVIEW_CONTEXT, 0)` and
`end_ms = min(end_ms + REVIEW_CONTEXT, media_dur_ms)`. -/
def reviewClipBounds (start_ms end_ms : Nat) (media_dur_ms : Int) :
    Int × Int :=
  (max ((start_ms : Int) - reviewCtx) 0,
    min ((end_ms : Int) + reviewCtx) media_dur_ms)

/-- The decimal digit character of `n % 10`. -/
def digitChar (n : Nat) : Char :=
  match n % 10 with
  | 0 => '0'
  | 1 => '1'
  | 2 => '2'
  | 3 => '3'
  | 4 => '4'
  | 5 => '5'
  | 6 => '6'
  | 7 => '7'
  | 8 => '8'
  | _ => '9'

/-- Decimal digits of `n`, most significant first (fuel-driven; the fuel
`n + 1` always suffices since `n / 10 < n` for `n ≥ 10`). -/
def natCharsGo : Nat → Nat → List Char
  | 0, _ => []
  | f + 1, n => if n < 10 then [digitChar n] else natCharsGo f (n / 10) ++ [digitChar n]

def natChars (n : Nat) : List Char := natCharsGo (n + 1) n

/-- The last three digits of `k`, zero-padded. -/
def pad3 (k : Nat) : List Char := [digitChar (k / 100), digitChar (k / 10), digitChar k]

/-- The text Python's `'%.3f' % (ms / 1000.0)` produces for a millisecond
count `ms`: the integer seconds, a dot, and exactly three fractional
digits.  (For any realistic media duration — `ms` far below 2^40 — the
rounding error of the double `ms / 1000.0` is orders of magnitude below
half of the 0.001 rounding step, so `%.3f` prints exactly this.) -/
def fmt3 (ms : Nat) : List Char := natChars (ms / 1000) ++ '.' :: pad3 (ms % 1000)

/-- The ASCII apostrophe (39). -/
def apos : Char := Char.ofNat 39

def volLit1 : List Char := "volume=enable=".toList ++ apos :: "between(t\\,".toList

def volLit3 : List Char := ")".toList ++ apos :: ":volume=0".toList

def escComma : List Char := "\\,".toList

/-- One element of the list comprehension in `anonymize_audio`
(also the audio half of `anonymize_video`):
`"volume=enable='between(t\,%.3f\,%.3f)':volume=0" % (start_ms / 1000.0, end_ms / 1000.0)`. -/
def volumeClause (s e : Nat) : List Char :=
  volLit1 ++ fmt3 s ++ escComma ++ fmt3 e ++ volLit3

def blurLit1 : List Char := "boxblur=10:enable=".toList ++ apos :: "between(t\\,".toList

def blurLit3 : List Char := ")".toList ++ [apos]

/-- One element of the video list comprehension in `anonymize_video`:
`"boxblur=10:enable='between(t\,%.3f\,%.3f)'" % (start_ms / 1000.0, end_ms / 1000.0)`. -/
def blurClause (s e : Nat) : List Char :=
  blurLit1 ++ fmt3 s ++ escComma ++ fmt3 e ++ blurLit3

/-- Python's `sep.join(xs)`. -/
def joinSep (sep : List Char) : List (List Char) → List Char
  | [] => []
  | [x] => x
  | x :: xs => x ++ sep ++ joinSep sep xs

def sepCS : List Char := ", ".toList

def sepSemi : List Char := "; ".toList

def fmtHdr : List Char := "format=yuv420p, ".toList

/-- The characters `fmt3` can produce: a dot or a decimal digit. -/
def digitSet : List Char := ['.', '0', '1', '2', '3', '4', '5', '6', '7', '8', '9']

/-- The filter script built by `anonymize_audio` from the segment list
(elements are `(start_ms, end_ms, value)`; the value is unused). -/
def volume_filter (segs : List (Nat × Nat × List Char)) : List Char :=
  joinSep sepCS (segs.map fun p => volumeClause p.1 p.2.1)

/-- The filter script built by `anonymize_video`: `format=yuv420p, `, the
joined boxblur clauses, `; `, then the joined volume clauses. -/
def video_filter (segs : List (Nat × Nat × List Char)) : List Char :=
  fmtHdr ++
    (joinSep sepCS (segs.map fun p => blurClause p.1 p.2.1) ++
      (sepSemi ++ joinSep sepCS (segs.map fun p => volumeClause p.1 p.2.1)))

/-- The head literal of a mute clause, `volume=enable='between(t`: counting
its occurrences counts the mute enable-clauses of a filter script. -/
def muteHead : List Char := "volume=enable=".toList ++ apos :: "between(t".toList

/-- The head literal of a blur clause, `boxblur=10:enable='between(t`. -/
def blurHead : List Char := "boxblur=10:enable=".toList ++ apos :: "between(t".toList

/-- The number of positions of `t` at which the pattern `p` starts. -/
def countOcc (p : List Char) : List Char → Nat
  | [] => 0
  | c :: t => (if isPre p (c :: t) = true then 1 else 0) + countOcc p t

/-- `p` occurs as a contiguous substring of `t`. -/
def hasSub (p : List Char) : List Char → Bool
  | [] => isPre p []
  | c :: t => isPre p (c :: t) || hasSub p t

/-- `demoTr` after `set_ref_annotation(demoTr, "R", 0, 5, "new")`. -/
def demoTrR : Transcript :=
  { tiers :=
      [("T", { aligned := [("a1", { ts1 := "t1", ts2 := "t2",
                                    value := "old".toList, svg := none })],
               refs := [], parentRef := none }),
       ("R", { aligned := [],
               refs := [("r1", { parentAnn := "a1", value := "new".toList,
                                 previous := none, svg := none })],
               parentRef := some "T" })],
    timeslots := [("t1", 0), ("t2", 5)] }

/-- One non-ignored utterance of the SayMore transcript, as the merge loop
sees it: the original audio clip, and the careful-repetition and
free-translation clips when their oral-annotation files exist (audio is a
millisecond-indexed sample list, so a clip's duration is its length). -/
structure Utt where
  origClip : List Int
  rep : Option (List Int)
  trans : Option (List Int)
deriving DecidableEq

/-- What the loop records for one placed clip: the two timeslot values and
ids (`audio_*_ts1`/`ts1id`/`ts2`/`ts2id`, numbers behind the `ts%d`
labels), the aligned annotation id (the number behind `a%d`), and the
clip. -/
structure ClipOut where
  ts1 : Nat
  ts1id : Nat
  ts2 : Nat
  ts2id : Nat
  aid : Nat
  clip : List Int
deriving DecidableEq

/-- One merged annotation: the original clip's placement and the optional
repetition/translation placements. -/
structure UttOut where
  orig : ClipOut
  rep : Option ClipOut
  trans : Option ClipOut
deriving DecidableEq

/-- One iteration of the merge loop, threading
`(offset, annotation_id, timeslot_id)`: the original clip always consumes
one annotation id and two timeslot ids and advances the offset by its
length; a present repetition, then a present translation, do the same in
order. -/
def processUtt (st : Nat × Nat × Nat) (u : Utt) :
    (Nat × Nat × Nat) × UttOut :=
  let off := st.1
  let aid := st.2.1
  let ts := st.2.2
  let oLen := u.origClip.length
  let o : ClipOut := ⟨off, ts, off + oLen, ts + 1, aid, u.origClip⟩
  let off1 := off + oLen
  let aid1 := aid + 1
  let ts1 := ts + 2
  match u.rep, u.trans with
  | none, none => ((off1, aid1, ts1), ⟨o, none, none⟩)
  | some rc, none =>
    ((off1 + rc.length, aid1 + 1, ts1 + 2),
      ⟨o, some ⟨off1, ts1, off1 + rc.length, ts1 + 1, aid1, rc⟩, none⟩)
  | none, some tc =>
    ((off1 + tc.length, aid1 + 1, ts1 + 2),
      ⟨o, none, some ⟨off1, ts1, off1 + tc.length, ts1 + 1, aid1, tc⟩⟩)
  | some rc, some tc =>
    ((off1 + rc.length + tc.length, aid1 + 2, ts1 + 4),
      ⟨o, some ⟨off1, ts1, off1 + rc.length, ts1 + 1, aid1, rc⟩,
        some ⟨off1 + rc.length, ts1 + 2, off1 + rc.length + tc.length,
          ts1 + 3, aid1 + 1, tc⟩⟩)

/-- The merge loop over a list of utterances. -/
def processUtts : (Nat × Nat × Nat) → List Utt → (Nat × Nat × Nat) × List UttOut
  | st, [] => (st, [])
  | st, u :: us =>
    let p := processUtt st u
    let q := processUtts p.1 us
    (q.1, p.2 :: q.2)

/-- The whole merge run: `offset = 0`, `annotation_id = 1`,
`timeslot_id = 1`. -/
def mergeOut (us : List Utt) : (Nat × Nat × Nat) × List UttOut :=
  processUtts (0, 1, 1) us

/-- `pydub.AudioSegment.silent(duration = n)`. -/
def silentClip (n : Nat) : List Int := List.replicate n 0

/-- The `generate_audio` concatenation: per utterance, the original track
gets the original clip then silence for the repetition and translation,
and the other two tracks get the complementary padding. -/
def genAudio : List Utt → List Int × List Int × List Int
  | [] => ([], [], [])
  | u :: us =>
    let r := genAudio us
    let co := u.origClip
    let so := silentClip co.length
    let cr := match u.rep with | none => [] | some c => c
    let sr := silentClip cr.length
    let ct := match u.trans with | none => [] | some c => c
    let sil := silentClip ct.length
    (co ++ sr ++ sil ++ r.1, so ++ cr ++ sil ++ r.2.1, so ++ sr ++ ct ++ r.2.2)

/-- Number of utterances with a repetition clip. -/
def cntR (us : List Utt) : Nat := (us.filter fun u => u.rep.isSome).length

/-- Number of utterances with a translation clip. -/
def cntT (us : List Utt) : Nat := (us.filter fun u => u.trans.isSome).length

/-- How many clips one utterance places (original, plus repetition and
translation when present). -/
def uttCnt (u : Utt) : Nat :=
  1 + (if u.rep.isSome then 1 else 0) + (if u.trans.isSome then 1 else 0)

/-- The contiguous run `[s, s+1, …, s+n-1]`. -/
def natRun (s : Nat) : Nat → List Nat
  | 0 => []
  | n + 1 => s :: natRun (s + 1) n

/-- The timeslot ids one merged annotation contributes to `TIME_ORDER`,
in template order. -/
def uttTsIds (o : UttOut) : List Nat :=
  [o.orig.ts1id, o.orig.ts2id] ++
    ((match o.rep with | none => [] | some r => [r.ts1id, r.ts2id]) ++
      (match o.trans with | none => [] | some t => [t.ts1id, t.ts2id]))

/-- All timeslot ids of the document's `TIME_ORDER`, in template order. -/
def tsIds (outs : List UttOut) : List Nat := (outs.map uttTsIds).flatten

/-- The aligned annotation ids one merged annotation contributes. -/
def uttAids (o : UttOut) : List Nat :=
  [o.orig.aid] ++
    ((match o.rep with | none => [] | some r => [r.aid]) ++
      (match o.trans with | none => [] | some t => [t.aid]))

/-- All aligned annotation ids, in merge order. -/
def allAids (outs : List UttOut) : List Nat := (outs.map uttAids).flatten

/-- The timeslot references made by the `Original` tier's aligned
annotations (`TIME_SLOT_REF1`/`TIME_SLOT_REF2`). -/
def origTsRefs (outs : List UttOut) : List Nat :=
  (outs.map fun o => [o.orig.ts1id, o.orig.ts2id]).flatten

/-- The timeslot references made by the `Repetition` tier. -/
def repTsRefs (outs : List UttOut) : List Nat :=
  (outs.map fun o =>
    match o.rep with | none => [] | some r => [r.ts1id, r.ts2id]).flatten

/-- The timeslot references made by the `Translation` tier. -/
def transTsRefs (outs : List UttOut) : List Nat :=
  (outs.map fun o =>
    match o.trans with | none => [] | some t => [t.ts1id, t.ts2id]).flatten

/-- Every timeslot reference of the document, tier by tier. -/
def tierTsRefs (outs : List UttOut) : List Nat :=
  origTsRefs outs ++ repTsRefs outs ++ transTsRefs outs

/-- The `Original` tier's annotation ids, in tier order. -/
def origAids (outs : List UttOut) : List Nat := outs.map fun o => o.orig.aid

/-- The `Repetition` tier's annotation ids, in tier order. -/
def repAids (outs : List UttOut) : List Nat :=
  outs.filterMap fun o => o.rep.map fun r => r.aid

/-- The `Translation` tier's annotation ids, in tier order. -/
def transAids (outs : List UttOut) : List Nat :=
  outs.filterMap fun o => o.trans.map fun t => t.aid

/-- Every aligned annotation id, grouped by tier as the template emits the
tiers. -/
def tierAids (outs : List UttOut) : List Nat :=
  origAids outs ++ repAids outs ++ transAids outs

/-- The `ANNOTATION_REF` targets of the four referential tiers, in template
order: `Original-ID` and `Original-Source` both target every original
aligned annotation; `Repetition-ID` and `Translation-ID` target the
present repetition/translation annotations. -/
def annRefs (outs : List UttOut) : List Nat :=
  origAids outs ++ (origAids outs ++ (repAids outs ++ transAids outs))

/-- `REF_ANNOTATION` rows numbered by the template's `last_ann` counter:
`(a<id>, target)` pairs with the id incrementing per emitted row. -/
def numberRefs (start : Nat) : List Nat → List (Nat × Nat)
  | [] => []
  | a :: as => (start, a) :: numberRefs (start + 1) as

/-- All referential-tier rows of the document: `Original-ID`,
`Original-Source`, `Repetition-ID`, `Translation-ID`, with `last_ann`
starting from the `last_annotation_id` template variable. -/
def refTiers (outs : List UttOut) (lastAnn : Nat) : List (Nat × Nat) :=
  numberRefs lastAnn (origAids outs) ++
    (numberRefs (lastAnn + (origAids outs).length) (origAids outs) ++
      (numberRefs (lastAnn + 2 * (origAids outs).length) (repAids outs) ++
        numberRefs
          (lastAnn + 2 * (origAids outs).length + (repAids outs).length)
          (transAids outs)))

/-- `GOcc t Ts` says the chunks of `Ts` occur in `t`, in order, with
arbitrary gaps between them; a chunk flagged `true` requires the gap
right before it to be newline-free.  A lazy-regex match of a pattern
`OPN .*? MID (.*?) FIN` exists in `t` exactly when
`GOcc t ((false, OPN) :: tailChunks MID FIN)` holds. -/
def GOcc : List Char → List (Bool × List Char) → Prop
  | _, [] => True
  | t, (b, T) :: Ts => ∃ u r, t = u ++ (T ++ r) ∧ (b = true → '\n' ∉ u) ∧ GOcc r Ts

/-- Chunk list describing what must follow the opening literal of a
pattern: the mid literal (when there is one) and the closing literal,
each preceded by a newline-free lazy gap. -/
def tailChunks (mid fin : List Char) : List (Bool × List Char) :=
  if mid = [] then [(true, fin)] else [(true, mid), (true, fin)]

/-- A match of the pattern `(o :: opn) .*? mid (.*?) fin` exists
somewhere in `s`. -/
def patOcc (o : Char) (opn mid fin : List Char) (s : List Char) : Prop :=
  GOcc s ((false, o :: opn) :: tailChunks mid fin)

@[simp] theorem isPre_nil (s : List Char) : isPre [] s = true := by
  cases s <;> rfl

@[simp] theorem isPre_cons_nil (a : Char) (as : List Char) :
    isPre (a :: as) [] = false := rfl

@[simp] theorem isPre_cons_cons (a b : Char) (as bs : List Char) :
    isPre (a :: as) (b :: bs) = (a == b && isPre as bs) := rfl

theorem isPre_iff_append (p : List Char) :
    ∀ s : List Char, (isPre p s = true ↔ ∃ r, s = p ++ r) := by
  induction p with
  | nil =>
    intro s
    simp
  | cons a as ih =>
    intro s
    cases s with
    | nil => simp
    | cons b bs =>
      constructor
      · intro h
        rw [isPre_cons_cons, Bool.and_eq_true, beq_iff_eq] at h
        obtain ⟨rfl, h2⟩ := h
        obtain ⟨r, rfl⟩ := (ih bs).mp h2
        exact ⟨r, rfl⟩
      · rintro ⟨r, hr⟩
        rw [List.cons_append, List.cons.injEq] at hr
        obtain ⟨rfl, h2⟩ := hr
        rw [isPre_cons_cons, Bool.and_eq_true, beq_iff_eq]
        exact ⟨rfl, (ih bs).mpr ⟨r, h2⟩⟩

theorem isPre_append_self (p r : List Char) : isPre p (p ++ r) = true :=
  (isPre_iff_append p _).2 ⟨r, rfl⟩

theorem findClose_length {cls : List Char} :
    ∀ {s u : List Char}, findClose cls s = some u → u.length ≤ s.length := by
  intro s
  induction s with
  | nil =>
    intro u h
    rw [findClose] at h
    split at h
    · cases h
      exact Nat.le_refl _
    · cases h
  | cons c rest ih =>
    intro u h
    rw [findClose] at h
    split at h
    · cases h
      rw [List.length_drop]
      exact Nat.sub_le _ _
    · split at h
      · cases h
      · exact le_trans (ih h) (Nat.le_succ _)

theorem findMid_length {mid cls : List Char} :
    ∀ {s u : List Char}, findMid mid cls s = some u → u.length ≤ s.length := by
  intro s
  induction s with
  | nil =>
    intro u h
    rw [findMid] at h
    split at h
    · exact findClose_length h
    · cases h
  | cons c rest ih =>
    intro u h
    rw [findMid] at h
    split at h
    next heq =>
      cases h
      split at heq
      · exact le_trans (findClose_length heq)
          (by rw [List.length_drop]; exact Nat.sub_le _ _)
      · cases heq
    next =>
      split at h
      · cases h
      · exact le_trans (ih h) (Nat.le_succ _)

theorem reSub2Go_nil (o : Char) (opn mid fin repl : List Char) :
    ∀ fuel : Nat, reSub2Go o opn mid fin repl fuel [] = [] := by
  intro fuel
  cases fuel <;> rfl

theorem reSub2Go_eq_of_le {o : Char} {opn mid fin repl : List Char} :
    ∀ fuel : Nat, ∀ s : List Char, s.length ≤ fuel →
      reSub2Go o opn mid fin repl fuel s =
        reSub2Go o opn mid fin repl s.length s := by
  intro fuel
  induction fuel using Nat.strong_induction_on with
  | _ fuel ih =>
    intro s hs
    cases s with
    | nil => rw [reSub2Go_nil, reSub2Go_nil]
    | cons c rest =>
      cases fuel with
      | zero =>
        rw [List.length_cons] at hs
        omega
      | succ n =>
        have hrest : rest.length ≤ n := by
          rw [List.length_cons] at hs
          omega
        rw [reSub2Go]
        rw [show (c :: rest).length = rest.length + 1 from rfl, reSub2Go]
        split
        next after heq =>
          have hafter : after.length ≤ rest.length := by
            split at heq
            · exact le_trans (findMid_length heq)
                (by rw [List.length_drop]; exact Nat.sub_le _ _)
            · cases heq
          rw [ih n (Nat.lt_succ_self _) after (le_trans hafter hrest),
            ih rest.length (Nat.lt_succ_of_le hrest) after hafter]
        next _heq =>
          rw [ih n (Nat.lt_succ_self _) rest hrest]

theorem reSub2_nil (o : Char) (opn mid fin repl : List Char) :
    reSub2 o opn mid fin repl [] = [] := rfl

theorem reSub2_cons_match {o : Char} {opn mid fin repl : List Char}
    {c : Char} {rest after : List Char}
    (h1 : isPre (o :: opn) (c :: rest) = true)
    (h2 : findMid mid fin (rest.drop opn.length) = some after) :
    reSub2 o opn mid fin repl (c :: rest) =
      repl ++ reSub2 o opn mid fin repl after := by
  have hafter : after.length ≤ rest.length :=
    le_trans (findMid_length h2)
      (by rw [List.length_drop]; exact Nat.sub_le _ _)
  show reSub2Go o opn mid fin repl (rest.length + 1) (c :: rest) = _
  rw [reSub2Go, if_pos h1, h2]
  show repl ++ reSub2Go o opn mid fin repl rest.length after = _
  rw [reSub2Go_eq_of_le rest.length after hafter]
  rfl

theorem reSub2_cons_noPre {o : Char} {opn mid fin repl : List Char}
    {c : Char} {rest : List Char}
    (h1 : isPre (o :: opn) (c :: rest) = false) :
    reSub2 o opn mid fin repl (c :: rest) =
      c :: reSub2 o opn mid fin repl rest := by
  show reSub2Go o opn mid fin repl (rest.length + 1) (c :: rest) = _
  rw [reSub2Go, if_neg (by rw [h1]; exact Bool.false_ne_true)]
  rfl

theorem reSub2_cons_noMid {o : Char} {opn mid fin repl : List Char}
    {c : Char} {rest : List Char}
    (h2 : findMid mid fin (rest.drop opn.length) = none) :
    reSub2 o opn mid fin repl (c :: rest) =
      c :: reSub2 o opn mid fin repl rest := by
  show reSub2Go o opn mid fin repl (rest.length + 1) (c :: rest) = _
  rw [reSub2Go]
  split
  next heq =>
    split at heq
    · rw [h2] at heq
      cases heq
    · cases heq
  next => rfl

example : anonymize_text ("[name]x[/name]".toList) = "(NAME)".toList := by
  decide

example :
    anonymize_text ("[anon type=\"name\"]xy[/anon]".toList) =
      "(NAME)".toList := by decide

example :
    anonymize_text ("[anon type=\"topic\"]z w[/anon]".toList) =
      "(SENSITIVE)".toList := by decide

example :
    anonymize_text ("a [sensitive]b[/sensitive] c".toList) =
      "a (SENSITIVE) c".toList := by decide

example : anonymize_text ("[name]x".toList) = "[name]x".toList := by decide

example :
    anonymize_text ("[name]a[/name][name]b[/name]".toList) =
      "(NAME)(NAME)".toList := by decide

example :
    anonymize_text ("[anon type=\"name\"]x[/name]".toList) =
      "[anon type=\"name\"]x[/name]".toList := by decide

/-! Lemmas about the scanner on strings that are built around one
well-formed tagged span. -/
theorem Clean.noOpen {s : List Char} (h : Clean s) : NoOpen s :=
  fun c hc => (h c hc).1

theorem reSub2_skip {opn mid fin repl : List Char} :
    ∀ s t : List Char, NoOpen s →
      reSub2 '[' opn mid fin repl (s ++ t) =
        s ++ reSub2 '[' opn mid fin repl t := by
  intro s
  induction s with
  | nil => intro t _; rfl
  | cons c s' ih =>
    intro t h
    have hc : ('[' == c) = false := by
      have := h c (List.mem_cons_self _ _)
      simp [beq_iff_eq]
      intro hh
      exact this hh.symm
    rw [List.cons_append, reSub2_cons_noPre (by rw [isPre_cons_cons, hc]; rfl)]
    rw [ih t (fun d hd => h d (List.mem_cons_of_mem _ hd))]
    rfl

theorem reSub2_fix {opn mid fin repl : List Char} (s : List Char)
    (h : NoOpen s) : reSub2 '[' opn mid fin repl s = s := by
  have h2 := @reSub2_skip opn mid fin repl s [] h
  rw [List.append_nil] at h2
  rw [h2, reSub2_nil, List.append_nil]

theorem findClose_clean {fin' t : List Char} :
    ∀ X : List Char, Clean X →
      findClose ('[' :: fin') (X ++ ('[' :: (fin' ++ t))) = some t := by
  intro X
  induction X with
  | nil =>
    intro _
    rw [List.nil_append, findClose,
      if_pos (by
        have := isPre_append_self ('[' :: fin') t
        rw [List.cons_append] at this
        exact this)]
    rw [List.length_cons, List.drop_succ_cons, List.drop_left]
  | cons c X' ih =>
    intro h
    have hc := h c (List.mem_cons_self _ _)
    rw [List.cons_append, findClose,
      if_neg (by
        rw [isPre_cons_cons]
        have : ('[' == c) = false := by
          simp [beq_iff_eq]
          intro hh
          exact hc.1 hh.symm
        rw [this]
        simp),
      if_neg hc.2]
    exact ih (fun d hd => h d (List.mem_cons_of_mem _ hd))

theorem findMid_nil_of_findClose {cls s u : List Char}
    (h : findClose cls s = some u) : findMid [] cls s = some u := by
  cases s with
  | nil =>
    rw [findMid, if_pos (isPre_nil [])]
    exact h
  | cons c rest =>
    rw [findMid]
    have : (if isPre [] (c :: rest) = true then
        findClose cls ((c :: rest).drop ([] : List Char).length) else none) =
        some u := by
      rw [if_pos (by simp)]
      simpa using h
    rw [this]

theorem findMid_clean {m₀ : Char} {mid' cls t u : List Char}
    (hcls : findClose cls t = some u) :
    ∀ T : List Char, (∀ c ∈ T, c ≠ m₀ ∧ c ≠ '\n') →
      findMid (m₀ :: mid') cls (T ++ (m₀ :: (mid' ++ t))) = some u := by
  intro T
  induction T with
  | nil =>
    intro _
    rw [List.nil_append, findMid]
    have : (if isPre (m₀ :: mid') (m₀ :: (mid' ++ t)) = true then
        findClose cls ((m₀ :: (mid' ++ t)).drop (m₀ :: mid').length)
        else none) = some u := by
      rw [if_pos (by
        have := isPre_append_self (m₀ :: mid') t
        rw [List.cons_append] at this
        exact this)]
      rw [List.length_cons, List.drop_succ_cons, List.drop_left]
      exact hcls
    rw [this]
  | cons c T' ih =>
    intro h
    have hc := h c (List.mem_cons_self _ _)
    rw [List.cons_append, findMid]
    have hpre : isPre (m₀ :: mid')
        (c :: (T' ++ (m₀ :: (mid' ++ t)))) = false := by
      rw [isPre_cons_cons]
      have : (m₀ == c) = false := by
        simp [beq_iff_eq]
        intro hh
        exact hc.1 hh.symm
      rw [this]
      simp
    have hnone : (if isPre (m₀ :: mid')
          (c :: (T' ++ (m₀ :: (mid' ++ t)))) = true
        then findClose cls
          ((c :: (T' ++ (m₀ :: (mid' ++ t)))).drop (m₀ :: mid').length)
        else none) = none := by
      rw [if_neg (by rw [hpre]; exact Bool.false_ne_true)]
    rw [hnone]
    show (if c = '\n' then none
      else findMid (m₀ :: mid') cls (T' ++ (m₀ :: (mid' ++ t)))) = some u
    rw [if_neg hc.2]
    exact ih (fun d hd => h d (List.mem_cons_of_mem _ hd))

theorem NoOpen.append {a b : List Char} (ha : NoOpen a) (hb : NoOpen b) :
    NoOpen (a ++ b) := by
  intro c hc
  rcases List.mem_append.1 hc with h | h
  · exact ha c h
  · exact hb c h

theorem NoOpen.of_cons {c : Char} {s : List Char} (h : NoOpen (c :: s)) :
    NoOpen s :=
  fun d hd => h d (List.mem_cons_of_mem _ hd)

/-- A substitution pass walks over a region `[T1...]X[T2...]` whose two
tags both fail to start a match of the pass's own pattern, leaving it
unchanged. -/
theorem reSub2_passSpan {opn mid fin repl : List Char}
    (pre X post T1 T2 : List Char)
    (hpre : NoOpen pre) (hX : NoOpen X) (hpost : NoOpen post)
    (hT1 : NoOpen T1) (hT2 : NoOpen T2)
    (hm1 : isPre ('[' :: opn)
      ('[' :: (T1 ++ (X ++ ('[' :: (T2 ++ post))))) = false)
    (hm2 : isPre ('[' :: opn) ('[' :: (T2 ++ post)) = false) :
    reSub2 '[' opn mid fin repl
        (pre ++ ('[' :: (T1 ++ (X ++ ('[' :: (T2 ++ post)))))) =
      pre ++ ('[' :: (T1 ++ (X ++ ('[' :: (T2 ++ post))))) := by
  rw [reSub2_skip pre _ hpre]
  rw [reSub2_cons_noPre hm1]
  rw [reSub2_skip T1 _ hT1, reSub2_skip X _ hX]
  rw [reSub2_cons_noPre hm2]
  rw [reSub2_skip T2 _ hT2, reSub2_fix post hpost]

/-- A single-group substitution pass replaces a well-formed span of its
own pattern, with clean surroundings, by its replacement text. -/
theorem reSub2_matchSpan1 {opn fin' repl : List Char}
    (pre X post : List Char)
    (hpre : NoOpen pre) (hX : Clean X) (hpost : NoOpen post) :
    reSub2 '[' opn [] ('[' :: fin') repl
        (pre ++ ('[' :: (opn ++ (X ++ ('[' :: (fin' ++ post)))))) =
      pre ++ (repl ++ post) := by
  rw [reSub2_skip pre _ hpre]
  rw [reSub2_cons_match
    (by
      have := isPre_append_self ('[' :: opn) (X ++ ('[' :: (fin' ++ post)))
      rw [List.cons_append] at this
      exact this)
    (by
      rw [List.drop_left]
      exact findMid_nil_of_findClose (findClose_clean X hX))]
  rw [reSub2_fix post hpost]

/-- The generic `[anon type="..."]` pass replaces a well-formed span with
any double-quote-free type text by its replacement. -/
theorem reSub2_matchSpan2 {repl : List Char} (pre Ty Y post : List Char)
    (hpre : NoOpen pre) (hTy : ∀ c ∈ Ty, c ≠ '"' ∧ c ≠ '\n')
    (hY : Clean Y) (hpost : NoOpen post) :
    reSub2 '[' anonAnyOpn anonMid anonFin repl
        (pre ++ ('[' :: (anonAnyOpn ++
          (Ty ++ (anonMid ++ (Y ++ ('[' :: (anonFin' ++ post)))))))) =
      pre ++ (repl ++ post) := by
  rw [reSub2_skip pre _ hpre]
  rw [reSub2_cons_match
    (by
      have := isPre_append_self ('[' :: anonAnyOpn)
        (Ty ++ (anonMid ++ (Y ++ ('[' :: (anonFin' ++ post)))))
      rw [List.cons_append] at this
      exact this)
    (by
      rw [List.drop_left]
      show findMid ('"' :: [']']) anonFin
        (Ty ++ ('"' :: ([']'] ++ (Y ++ ('[' :: (anonFin' ++ post)))))) =
          some post
      exact findMid_clean (findClose_clean Y hY) Ty hTy)]
  rw [reSub2_fix post hpost]

/-- Full redactor on a string around one `[name]...[/name]` span with
clean content and bracket-free surroundings. -/
theorem anonymize_nameSpan (pre X post : List Char)
    (hpre : NoOpen pre) (hX : Clean X) (hpost : NoOpen post) :
    anonymize_text
        (pre ++ ('[' :: (nameTagOpn ++ (X ++ ('[' :: (nameTagFin' ++ post)))))) =
      pre ++ (nameRepl ++ post) := by
  have hres : NoOpen (pre ++ (nameRepl ++ post)) :=
    hpre.append (NoOpen.append (by decide) hpost)
  have h1 : sub1
      (pre ++ ('[' :: (nameTagOpn ++ (X ++ ('[' :: (nameTagFin' ++ post)))))) =
      pre ++ ('[' :: (nameTagOpn ++ (X ++ ('[' :: (nameTagFin' ++ post))))) :=
    reSub2_passSpan pre X post nameTagOpn nameTagFin' hpre hX.noOpen hpost
      (by decide) (by decide)
      (by simp [isPre, anonNameOpn, nameTagOpn])
      (by simp [isPre, anonNameOpn, nameTagFin'])
  have h2 : sub2
      (pre ++ ('[' :: (nameTagOpn ++ (X ++ ('[' :: (nameTagFin' ++ post)))))) =
      pre ++ (nameRepl ++ post) :=
    reSub2_matchSpan1 pre X post hpre hX hpost
  show sub4 (sub3 (sub2 (sub1 _))) = _
  rw [h1, h2]
  show sub4 (reSub2 '[' anonAnyOpn anonMid anonFin sensRepl
    (pre ++ (nameRepl ++ post))) = _
  rw [reSub2_fix _ hres]
  show reSub2 '[' sensTagOpn [] sensTagFin sensRepl
    (pre ++ (nameRepl ++ post)) = _
  rw [reSub2_fix _ hres]

/-- Full redactor on a string around one `[anon type="topic"]...[/anon]`
span with clean content and bracket-free surroundings. -/
theorem anonymize_topicSpan (pre Y post : List Char)
    (hpre : NoOpen pre) (hY : Clean Y) (hpost : NoOpen post) :
    anonymize_text (pre ++ ('[' :: (anonAnyOpn ++
        (topicTy ++ (anonMid ++ (Y ++ ('[' :: (anonFin' ++ post)))))))) =
      pre ++ (sensRepl ++ post) := by
  have hres : NoOpen (pre ++ (sensRepl ++ post)) :=
    hpre.append (NoOpen.append (by decide) hpost)
  have h1 : sub1 (pre ++ ('[' :: (anonAnyOpn ++
      (topicTy ++ (anonMid ++ (Y ++ ('[' :: (anonFin' ++ post)))))))) =
      pre ++ ('[' :: (anonAnyOpn ++
        (topicTy ++ (anonMid ++ (Y ++ ('[' :: (anonFin' ++ post))))))) := by
    have hp := @reSub2_passSpan anonNameOpn [] anonFin nameRepl pre Y post
      (anonAnyOpn ++ (topicTy ++ anonMid)) anonFin' hpre hY.noOpen hpost
      (by decide) (by decide)
      (by simp [isPre, anonNameOpn, anonAnyOpn, topicTy, anonMid])
      (by simp [isPre, anonNameOpn, anonFin'])
    simpa only [List.append_assoc] using hp
  have h2 : sub2 (pre ++ ('[' :: (anonAnyOpn ++
      (topicTy ++ (anonMid ++ (Y ++ ('[' :: (anonFin' ++ post)))))))) =
      pre ++ ('[' :: (anonAnyOpn ++
        (topicTy ++ (anonMid ++ (Y ++ ('[' :: (anonFin' ++ post))))))) := by
    have hp := @reSub2_passSpan nameTagOpn [] nameTagFin nameRepl pre Y post
      (anonAnyOpn ++ (topicTy ++ anonMid)) anonFin' hpre hY.noOpen hpost
      (by decide) (by decide)
      (by simp [isPre, nameTagOpn, anonAnyOpn, topicTy, anonMid])
      (by simp [isPre, nameTagOpn, anonFin'])
    simpa only [List.append_assoc] using hp
  have h3 : sub3 (pre ++ ('[' :: (anonAnyOpn ++
      (topicTy ++ (anonMid ++ (Y ++ ('[' :: (anonFin' ++ post)))))))) =
      pre ++ (sensRepl ++ post) :=
    reSub2_matchSpan2 pre topicTy Y post hpre (by decide) hY hpost
  show sub4 (sub3 (sub2 (sub1 _))) = _
  rw [h1, h2, h3]
  show reSub2 '[' sensTagOpn [] sensTagFin sensRepl
    (pre ++ (sensRepl ++ post)) = _
  rw [reSub2_fix _ hres]

/-- Full redactor on a string around one `[anon type="name"]...[/anon]`
span: the first rule wins and the span becomes `(NAME)`. -/
theorem anonymize_anonNameSpan (pre Z post : List Char)
    (hpre : NoOpen pre) (hZ : Clean Z) (hpost : NoOpen post) :
    anonymize_text
        (pre ++ ('[' :: (anonNameOpn ++ (Z ++ ('[' :: (anonFin' ++ post)))))) =
      pre ++ (nameRepl ++ post) := by
  have hres : NoOpen (pre ++ (nameRepl ++ post)) :=
    hpre.append (NoOpen.append (by decide) hpost)
  have h1 : sub1
      (pre ++ ('[' :: (anonNameOpn ++ (Z ++ ('[' :: (anonFin' ++ post)))))) =
      pre ++ (nameRepl ++ post) :=
    reSub2_matchSpan1 pre Z post hpre hZ hpost
  show sub4 (sub3 (sub2 (sub1 _))) = _
  rw [h1]
  show sub4 (sub3 (reSub2 '[' nameTagOpn [] nameTagFin nameRepl
    (pre ++ (nameRepl ++ post)))) = _
  rw [reSub2_fix _ hres]
  show sub4 (reSub2 '[' anonAnyOpn anonMid anonFin sensRepl
    (pre ++ (nameRepl ++ post))) = _
  rw [reSub2_fix _ hres]
  show reSub2 '[' sensTagOpn [] sensTagFin sensRepl
    (pre ++ (nameRepl ++ post)) = _
  rw [reSub2_fix _ hres]

/-- C1: for every input string containing a well-formed `[name]X[/name]`
span (respectively `[anon type="topic"]Y[/anon]`), the redactor's output
contains the literal `(NAME)` (respectively `(SENSITIVE)`): the whole
span is replaced by the placeholder and the captured content is
discarded, so the content never reaches the output (witnessed by any
character of `X` that occurs nowhere else). -/
theorem claim_C1 (pre X post pre2 Y post2 : List Char)
    (hpre : NoOpen pre) (hX : Clean X) (hpost : NoOpen post)
    (hpre2 : NoOpen pre2) (hY : Clean Y) (hpost2 : NoOpen post2) :
    (anonymize_text (pre ++ "[name]".toList ++ X ++ "[/name]".toList ++ post) =
        pre ++ "(NAME)".toList ++ post
      ∧ "(NAME)".toList <:+:
          anonymize_text
            (pre ++ "[name]".toList ++ X ++ "[/name]".toList ++ post)
      ∧ ((∃ c ∈ X, c ∉ pre ∧ c ∉ post ∧ c ∉ "(NAME)".toList) →
          ¬ X <:+:
            anonymize_text
              (pre ++ "[name]".toList ++ X ++ "[/name]".toList ++ post)))
    ∧ (anonymize_text (pre2 ++ "[anon type=\"topic\"]".toList ++ Y ++
          "[/anon]".toList ++ post2) =
        pre2 ++ "(SENSITIVE)".toList ++ post2
      ∧ "(SENSITIVE)".toList <:+:
          anonymize_text (pre2 ++ "[anon type=\"topic\"]".toList ++ Y ++
            "[/anon]".toList ++ post2)
      ∧ ((∃ c ∈ Y, c ∉ pre2 ∧ c ∉ post2 ∧ c ∉ "(SENSITIVE)".toList) →
          ¬ Y <:+:
            anonymize_text (pre2 ++ "[anon type=\"topic\"]".toList ++ Y ++
              "[/anon]".toList ++ post2))) := by
  have ename : pre ++ "[name]".toList ++ X ++ "[/name]".toList ++ post =
      pre ++ ('[' :: (nameTagOpn ++ (X ++ ('[' :: (nameTagFin' ++ post))))) := by
    rw [show "[name]".toList = '[' :: nameTagOpn from rfl,
      show "[/name]".toList = '[' :: nameTagFin' from rfl]
    simp only [List.append_assoc, List.cons_append]
  have etop : pre2 ++ "[anon type=\"topic\"]".toList ++ Y ++
        "[/anon]".toList ++ post2 =
      pre2 ++ ('[' :: (anonAnyOpn ++
        (topicTy ++ (anonMid ++ (Y ++ ('[' :: (anonFin' ++ post2))))))) := by
    rw [show "[anon type=\"topic\"]".toList =
        ('[' :: anonAnyOpn) ++ (topicTy ++ anonMid) from rfl,
      show "[/anon]".toList = '[' :: anonFin' from rfl]
    simp only [List.append_assoc, List.cons_append]
  rw [ename, etop, anonymize_nameSpan pre X post hpre hX hpost,
    anonymize_topicSpan pre2 Y post2 hpre2 hY hpost2,
    show "(NAME)".toList = nameRepl from rfl,
    show "(SENSITIVE)".toList = sensRepl from rfl]
  refine ⟨⟨by simp only [List.append_assoc],
      ⟨pre, post, by simp only [List.append_assoc]⟩, ?_⟩,
    by simp only [List.append_assoc],
    ⟨pre2, post2, by simp only [List.append_assoc]⟩, ?_⟩
  · rintro ⟨c, hcX, hcpre, hcpost, hcn⟩ hinf
    have hmem := hinf.subset hcX
    rcases List.mem_append.1 hmem with h | h
    · exact hcpre h
    rcases List.mem_append.1 h with h2 | h2
    · exact hcn h2
    · exact hcpost h2
  · rintro ⟨c, hcY, hcpre, hcpost, hcn⟩ hinf
    have hmem := hinf.subset hcY
    rcases List.mem_append.1 hmem with h | h
    · exact hcpre h
    rcases List.mem_append.1 h with h2 | h2
    · exact hcn h2
    · exact hcpost h2

theorem claim_C1_witness :
    (NoOpen ("a ".toList) ∧ Clean ("bob".toList) ∧ NoOpen (" c".toList)) ∧
    anonymize_text ("a [name]bob[/name] c".toList) = "a (NAME) c".toList ∧
    anonymize_text ("d [anon type=\"topic\"]tax[/anon] e".toList) =
      "d (SENSITIVE) e".toList := by
  have h := claim_C1 ("a ".toList) ("bob".toList) (" c".toList)
    ("d ".toList) ("tax".toList) (" e".toList)
    (by decide) (by decide) (by decide) (by decide) (by decide) (by decide)
  exact ⟨⟨by decide, by decide, by decide⟩, h.1.1, h.2.1⟩

/-- C6: a well-formed `[anon type="name"]Z[/anon]` span is replaced by
the literal `(NAME)` — the first rule of the grammar wins — and not by
`(SENSITIVE)`, although the generic `[anon type="..."]` rule would also
match it. -/
theorem claim_C6 (pre Z post : List Char)
    (hpre : NoOpen pre) (hZ : Clean Z) (hpost : NoOpen post) :
    anonymize_text (pre ++ "[anon type=\"name\"]".toList ++ Z ++
        "[/anon]".toList ++ post) =
      pre ++ "(NAME)".toList ++ post
    ∧ "(NAME)".toList <:+:
        anonymize_text (pre ++ "[anon type=\"name\"]".toList ++ Z ++
          "[/anon]".toList ++ post)
    ∧ ('V' ∉ pre → 'V' ∉ post →
        ¬ "(SENSITIVE)".toList <:+:
          anonymize_text (pre ++ "[anon type=\"name\"]".toList ++ Z ++
            "[/anon]".toList ++ post)) := by
  have e : pre ++ "[anon type=\"name\"]".toList ++ Z ++
        "[/anon]".toList ++ post =
      pre ++ ('[' :: (anonNameOpn ++ (Z ++ ('[' :: (anonFin' ++ post))))) := by
    rw [show "[anon type=\"name\"]".toList = '[' :: anonNameOpn from rfl,
      show "[/anon]".toList = '[' :: anonFin' from rfl]
    simp only [List.append_assoc, List.cons_append]
  rw [e, anonymize_anonNameSpan pre Z post hpre hZ hpost,
    show "(NAME)".toList = nameRepl from rfl]
  refine ⟨by simp only [List.append_assoc],
    ⟨pre, post, by simp only [List.append_assoc]⟩, ?_⟩
  intro hv1 hv2 hinf
  have hmem := hinf.subset (show 'V' ∈ "(SENSITIVE)".toList by decide)
  rcases List.mem_append.1 hmem with h | h
  · exact hv1 h
  rcases List.mem_append.1 h with h2 | h2
  · exact absurd h2 (by decide)
  · exact hv2 h2

theorem claim_C6_witness :
    (NoOpen ("a ".toList) ∧ Clean ("bob".toList) ∧ NoOpen (" c".toList)) ∧
    anonymize_text ("a [anon type=\"name\"]bob[/anon] c".toList) =
      "a (NAME) c".toList := by
  have h := claim_C6 ("a ".toList) ("bob".toList) (" c".toList)
    (by decide) (by decide) (by decide)
  exact ⟨⟨by decide, by decide, by decide⟩, h.1⟩

/-! Machinery for idempotence of the redactor.  A pass of `reSub2`
leaves a string unchanged iff it contains no match (`patOcc`), a pass
never has a match of its own pattern in its output, and a pass whose
replacement text shares no character with another pattern's literals
cannot create a match of that pattern.  Together these give that a
second run of the four passes is the identity. -/
theorem isPre_eq_nil {p : List Char} (h : isPre p [] = true) : p = [] := by
  cases p with
  | nil => rfl
  | cons a as => simp at h

theorem findClose_split {cls : List Char} :
    ∀ {s u : List Char}, findClose cls s = some u →
      ∃ w, s = w ++ (cls ++ u) ∧ '\n' ∉ w := by
  intro s
  induction s with
  | nil =>
    intro u h
    rw [findClose] at h
    split at h
    next hp =>
      cases h
      have hc := isPre_eq_nil hp
      subst hc
      exact ⟨[], rfl, by simp⟩
    next => cases h
  | cons c rest ih =>
    intro u h
    rw [findClose] at h
    split at h
    next hp =>
      cases h
      obtain ⟨r, hr⟩ := (isPre_iff_append cls _).1 hp
      refine ⟨[], ?_, by simp⟩
      rw [List.nil_append, hr, List.drop_left]
    next =>
      split at h
      next => cases h
      next hc =>
        obtain ⟨w, hw, hnw⟩ := ih h
        refine ⟨c :: w, by rw [List.cons_append, hw], ?_⟩
        intro hm
        rcases List.mem_cons.1 hm with he | he
        · exact hc he.symm
        · exact hnw he

theorem findMid_split {mid cls : List Char} :
    ∀ {s u : List Char}, findMid mid cls s = some u →
      ∃ v w, s = v ++ (mid ++ (w ++ (cls ++ u))) ∧ '\n' ∉ v ∧ '\n' ∉ w := by
  intro s
  induction s with
  | nil =>
    intro u h
    rw [findMid] at h
    split at h
    next hp =>
      have hm := isPre_eq_nil hp
      subst hm
      obtain ⟨w, hw, hnw⟩ := findClose_split h
      exact ⟨[], w, by simpa using hw, by simp, hnw⟩
    next => cases h
  | cons c rest ih =>
    intro u h
    rw [findMid] at h
    split at h
    next x heq =>
      cases h
      split at heq
      next hp =>
        obtain ⟨r, hr⟩ := (isPre_iff_append mid _).1 hp
        rw [hr, List.drop_left] at heq
        obtain ⟨w, hw, hnw⟩ := findClose_split heq
        exact ⟨[], w, by rw [List.nil_append, hr, hw], by simp, hnw⟩
      next => cases heq
    next =>
      split at h
      next => cases h
      next hc =>
        obtain ⟨v, w, hvw, hnv, hnw⟩ := ih h
        refine ⟨c :: v, w, by rw [List.cons_append, hvw], ?_, hnw⟩
        intro hm
        rcases List.mem_cons.1 hm with he | he
        · exact hc he.symm
        · exact hnv he

theorem findClose_isSome {cls u : List Char} :
    ∀ w : List Char, '\n' ∉ w →
      (findClose cls (w ++ (cls ++ u))).isSome = true := by
  intro w
  induction w with
  | nil =>
    intro _
    rw [List.nil_append]
    cases hcu : cls ++ u with
    | nil =>
      obtain ⟨hc, hu⟩ := List.append_eq_nil.1 hcu
      subst hc
      subst hu
      rfl
    | cons d r =>
      rw [findClose,
        if_pos (by rw [← hcu]; exact isPre_append_self _ _)]
      rfl
  | cons c w' ih =>
    intro hn
    have hc : c ≠ '\n' := fun he => hn (by rw [← he]; exact List.mem_cons_self _ _)
    rw [List.cons_append, findClose]
    cases hp : isPre cls (c :: (w' ++ (cls ++ u))) with
    | true => simp
    | false =>
      simp only [Bool.false_eq_true, if_false, if_neg hc]
      exact ih (fun hm => hn (List.mem_cons_of_mem _ hm))

theorem findMid_isSome {mid cls u : List Char} :
    ∀ v w : List Char, '\n' ∉ v → '\n' ∉ w →
      (findMid mid cls (v ++ (mid ++ (w ++ (cls ++ u))))).isSome = true := by
  intro v
  induction v with
  | nil =>
    intro w _ hnw
    rw [List.nil_append]
    cases hs : mid ++ (w ++ (cls ++ u)) with
    | nil =>
      obtain ⟨hm, hrest⟩ := List.append_eq_nil.1 hs
      obtain ⟨hw, hcu⟩ := List.append_eq_nil.1 hrest
      obtain ⟨hc, hu⟩ := List.append_eq_nil.1 hcu
      subst hm
      subst hw
      subst hc
      subst hu
      rfl
    | cons d r =>
      have hpre : isPre mid (d :: r) = true := by
        rw [← hs]
        exact isPre_append_self _ _
      have hdrop : (d :: r).drop mid.length = w ++ (cls ++ u) := by
        rw [← hs, List.drop_left]
      obtain ⟨val, hval⟩ :=
        Option.isSome_iff_exists.1 (@findClose_isSome cls u w hnw)
      rw [findMid, if_pos hpre, hdrop, hval]
      rfl
  | cons c v' ih =>
    intro w hnv hnw
    have hc : c ≠ '\n' := fun he => hnv (by rw [← he]; exact List.mem_cons_self _ _)
    have hv' : '\n' ∉ v' := fun hm => hnv (List.mem_cons_of_mem _ hm)
    rw [List.cons_append, findMid]
    split
    next => rfl
    next =>
      rw [if_neg hc]
      exact ih w hv' hnw

theorem GOcc_prepend {x t : List Char} {b : Bool} {T : List Char}
    {Ts : List (Bool × List Char)} (h : GOcc t ((b, T) :: Ts))
    (hx : b = true → '\n' ∉ x) : GOcc (x ++ t) ((b, T) :: Ts) := by
  obtain ⟨u, r, ht, hu, hrest⟩ := h
  refine ⟨x ++ u, r, ?_, ?_, hrest⟩
  · rw [ht, List.append_assoc]
  · intro hb hm
    rcases List.mem_append.1 hm with h1 | h1
    · exact hx hb h1
    · exact hu hb h1

theorem chunk_past {a : Char} {T' r : List Char} :
    ∀ {U u0 : List Char}, ∀ {V : List Char},
      U ++ V = u0 ++ ((a :: T') ++ r) → a ∉ U →
      ∃ u0', u0 = U ++ u0' ∧ V = u0' ++ ((a :: T') ++ r) := by
  intro U
  induction U with
  | nil =>
    intro u0 V h _
    exact ⟨u0, by simp, by simpa using h⟩
  | cons b U' ih =>
    intro u0 V h ha
    cases u0 with
    | nil =>
      rw [List.nil_append, List.cons_append, List.cons_append] at h
      injection h with h1 _
      exact absurd (by rw [← h1]; exact List.mem_cons_self _ _ : a ∈ b :: U')
        ha
    | cons d u0'' =>
      rw [List.cons_append, List.cons_append] at h
      injection h with h1 h2
      obtain ⟨u0', hu, hv⟩ := ih h2 (fun hm => ha (List.mem_cons_of_mem _ hm))
      subst h1
      exact ⟨u0', by rw [List.cons_append, hu], hv⟩

theorem reSub2_anchor {o : Char} {opn mid fin repl : List Char}
    (hrepl : repl ≠ []) :
    ∀ T : List Char, (∀ a ∈ T, a ∉ repl) →
      ∀ s w : List Char, reSub2 o opn mid fin repl s = T ++ w →
        ∃ s₂, s = T ++ s₂ ∧ reSub2 o opn mid fin repl s₂ = w ∧
          s₂.length + T.length ≤ s.length := by
  intro T
  induction T with
  | nil =>
    intro _ s w h
    exact ⟨s, rfl, by simpa using h, by simp⟩
  | cons a T' ih =>
    intro hT s w h
    cases s with
    | nil =>
      rw [reSub2_nil, List.cons_append] at h
      cases h
    | cons c rest =>
      cases hb : isPre (o :: opn) (c :: rest) with
      | true =>
        cases hfm : findMid mid fin (rest.drop opn.length) with
        | some after =>
          rw [reSub2_cons_match hb hfm] at h
          exfalso
          cases hrp : repl with
          | nil => exact hrepl hrp
          | cons p ps =>
            rw [hrp, List.cons_append, List.cons_append] at h
            injection h with h1 _
            exact hT a (List.mem_cons_self _ _)
              (by rw [hrp, h1]; exact List.mem_cons_self _ _)
        | none =>
          rw [reSub2_cons_noMid hfm, List.cons_append] at h
          injection h with h1 h2
          obtain ⟨s₂, hs₂, hw, hlen⟩ :=
            ih (fun d hd => hT d (List.mem_cons_of_mem _ hd)) rest w h2
          subst h1
          refine ⟨s₂, by rw [List.cons_append, hs₂], hw, ?_⟩
          simp only [List.length_cons]
          omega
      | false =>
        rw [reSub2_cons_noPre hb, List.cons_append] at h
        injection h with h1 h2
        obtain ⟨s₂, hs₂, hw, hlen⟩ :=
          ih (fun d hd => hT d (List.mem_cons_of_mem _ hd)) rest w h2
        subst h1
        refine ⟨s₂, by rw [List.cons_append, hs₂], hw, ?_⟩
        simp only [List.length_cons]
        omega

theorem match_consumed {o : Char} {opn mid fin : List Char}
    {c : Char} {rest after : List Char}
    (hpre : isPre (o :: opn) (c :: rest) = true)
    (hfm : findMid mid fin (rest.drop opn.length) = some after) :
    ∃ D, c :: rest = D ++ after ∧
      ('\n' ∉ o :: opn → '\n' ∉ mid → '\n' ∉ fin → '\n' ∉ D) := by
  obtain ⟨r, hr⟩ := (isPre_iff_append _ _).1 hpre
  rw [List.cons_append] at hr
  have hr' := hr
  injection hr' with hco hrest
  have hdrop : rest.drop opn.length = r := by
    rw [hrest, List.drop_left]
  rw [hdrop] at hfm
  obtain ⟨v, w, hsplit, hnv, hnw⟩ := findMid_split hfm
  refine ⟨o :: (opn ++ (v ++ (mid ++ (w ++ fin)))), ?_, ?_⟩
  · rw [hco, hrest, hsplit, List.cons_append]
    simp only [List.append_assoc]
  · intro h1 h2 h3 hm
    rcases List.mem_cons.1 hm with he | he
    · exact h1 (by rw [he]; exact List.mem_cons_self _ _)
    rcases List.mem_append.1 he with he2 | he2
    · exact h1 (List.mem_cons_of_mem _ he2)
    rcases List.mem_append.1 he2 with he3 | he3
    · exact hnv he3
    rcases List.mem_append.1 he3 with he4 | he4
    · exact h2 he4
    rcases List.mem_append.1 he4 with he5 | he5
    · exact hnw he5
    · exact h3 he5

theorem patOcc_of_matchAtHead {o : Char} {opn mid fin : List Char}
    {c : Char} {rest after : List Char}
    (hpre : isPre (o :: opn) (c :: rest) = true)
    (hfm : findMid mid fin (rest.drop opn.length) = some after) :
    patOcc o opn mid fin (c :: rest) := by
  obtain ⟨r, hr⟩ := (isPre_iff_append _ _).1 hpre
  have hr2 : c :: rest = o :: (opn ++ r) := by
    rw [hr, List.cons_append]
  have hr3 := hr2
  injection hr3 with hco hrest
  have hdrop : rest.drop opn.length = r := by
    rw [hrest, List.drop_left]
  rw [hdrop] at hfm
  obtain ⟨v, w, hv, hnv, hnw⟩ := findMid_split hfm
  refine ⟨[], r, by simpa using hr2,
    fun hb => absurd hb Bool.false_ne_true, ?_⟩
  by_cases hmid : mid = []
  · subst hmid
    have ht : tailChunks ([] : List Char) fin = [(true, fin)] := by
      simp [tailChunks]
    rw [ht]
    refine ⟨v ++ w, after, ?_, ?_, trivial⟩
    · rw [hv]
      simp only [List.nil_append, List.append_assoc]
    · intro _ hm
      rcases List.mem_append.1 hm with h1 | h1
      · exact hnv h1
      · exact hnw h1
  · have ht : tailChunks mid fin = [(true, mid), (true, fin)] := by
      simp only [tailChunks, if_neg hmid]
    rw [ht]
    exact ⟨v, w ++ (fin ++ after), hv, fun _ => hnv,
      ⟨w, after, rfl, fun _ => hnw, trivial⟩⟩

theorem findMid_isSome_of_tailOcc {mid fin s₂ : List Char}
    (h : GOcc s₂ (tailChunks mid fin)) :
    (findMid mid fin s₂).isSome = true := by
  by_cases hmid : mid = []
  · subst hmid
    have ht : tailChunks ([] : List Char) fin = [(true, fin)] := by
      simp [tailChunks]
    rw [ht] at h
    obtain ⟨w, r, hw, hnw, _⟩ := h
    rw [hw]
    have h2 := @findMid_isSome [] fin r [] w (by simp) (hnw rfl)
    simpa using h2
  · have ht : tailChunks mid fin = [(true, mid), (true, fin)] := by
      simp only [tailChunks, if_neg hmid]
    rw [ht] at h
    obtain ⟨v, r1, hv, hnv, w, r2, hw, hnw, _⟩ := h
    rw [hv, hw]
    exact findMid_isSome v w (hnv rfl) (hnw rfl)

theorem reSub2_cons_cases (o : Char) (opn mid fin repl : List Char)
    (c : Char) (rest : List Char) :
    (∃ after, isPre (o :: opn) (c :: rest) = true ∧
      findMid mid fin (rest.drop opn.length) = some after ∧
      reSub2 o opn mid fin repl (c :: rest) =
        repl ++ reSub2 o opn mid fin repl after ∧
      after.length ≤ rest.length) ∨
    ((isPre (o :: opn) (c :: rest) = false ∨
        findMid mid fin (rest.drop opn.length) = none) ∧
      reSub2 o opn mid fin repl (c :: rest) =
        c :: reSub2 o opn mid fin repl rest) := by
  cases hb : isPre (o :: opn) (c :: rest) with
  | false => exact Or.inr ⟨Or.inl rfl, reSub2_cons_noPre hb⟩
  | true =>
    cases hfm : findMid mid fin (rest.drop opn.length) with
    | none => exact Or.inr ⟨Or.inr rfl, reSub2_cons_noMid hfm⟩
    | some after =>
      exact Or.inl ⟨after, rfl, rfl, reSub2_cons_match hb hfm,
        le_trans (findMid_length hfm)
          (by rw [List.length_drop]; exact Nat.sub_le _ _)⟩

theorem not_patOcc_nil {o : Char} {opn mid fin : List Char} :
    ¬ patOcc o opn mid fin [] := by
  rintro ⟨u, r, hu, _, _⟩
  obtain ⟨_, h2⟩ := List.append_eq_nil.1 hu.symm
  exact absurd (List.append_eq_nil.1 h2).1 (by simp)

theorem reSub2_fix_of_not_patOcc {o : Char} {opn mid fin repl : List Char} :
    ∀ s : List Char, ¬ patOcc o opn mid fin s →
      reSub2 o opn mid fin repl s = s := by
  intro s
  induction s with
  | nil =>
    intro _
    exact reSub2_nil _ _ _ _ _
  | cons c rest ih =>
    intro h
    have hrest : ¬ patOcc o opn mid fin rest := by
      rintro ⟨u, r, hu, _, htail⟩
      exact h ⟨c :: u, r, by rw [List.cons_append, hu],
        fun hb => absurd hb Bool.false_ne_true, htail⟩
    cases hb : isPre (o :: opn) (c :: rest) with
    | false => rw [reSub2_cons_noPre hb, ih hrest]
    | true =>
      cases hfm : findMid mid fin (rest.drop opn.length) with
      | some after => exact absurd (patOcc_of_matchAtHead hb hfm) h
      | none => rw [reSub2_cons_noMid hfm, ih hrest]

/-- Transfer: a pass of `reSub2` whose replacement text is non-empty and
shares no character with the chunks of `Ts` cannot create an ordered
occurrence of those chunks — any occurrence in the output was already
present in the input. -/
theorem GOcc_transfer {o : Char} {opn mid fin repl : List Char}
    (hrepl : repl ≠ []) (hno : '\n' ∉ o :: opn) (hnm : '\n' ∉ mid)
    (hnf : '\n' ∉ fin) :
    ∀ n : Nat, ∀ s : List Char, s.length ≤ n →
      ∀ Ts : List (Bool × List Char),
        (∀ p ∈ Ts, p.2 ≠ [] ∧ ∀ a ∈ p.2, a ∉ repl) →
        GOcc (reSub2 o opn mid fin repl s) Ts → GOcc s Ts := by
  intro n
  induction n with
  | zero =>
    intro s hs Ts _ hocc
    have hnil : s = [] := List.length_eq_zero.1 (Nat.le_zero.1 hs)
    subst hnil
    rwa [reSub2_nil] at hocc
  | succ n ih =>
    intro s hs Ts hTs hocc
    cases s with
    | nil => rwa [reSub2_nil] at hocc
    | cons c rest =>
      have hrest_le : rest.length ≤ n := by
        rw [List.length_cons] at hs
        omega
      cases Ts with
      | nil => trivial
      | cons p Ts' =>
        obtain ⟨b, T⟩ := p
        obtain ⟨hTne, hTfree⟩ := hTs (b, T) (List.mem_cons_self _ _)
        rcases reSub2_cons_cases o opn mid fin repl c rest with
          ⟨after, hb, hfm, hstep, hlen⟩ | ⟨_, hstep⟩
        · rw [hstep] at hocc
          obtain ⟨u0, r, hu0, hflag, htail⟩ := hocc
          cases T with
          | nil => exact absurd rfl hTne
          | cons a T' =>
            obtain ⟨u0', hu0', hVeq⟩ :=
              chunk_past hu0 (hTfree a (List.mem_cons_self _ _))
            have hocc_after : GOcc after ((b, a :: T') :: Ts') :=
              ih after (le_trans hlen hrest_le) _ hTs
                ⟨u0', r, hVeq,
                  fun hb2 hm =>
                    hflag hb2 (by rw [hu0']; exact List.mem_append_right _ hm),
                  htail⟩
            obtain ⟨D, hD, hDnl⟩ := match_consumed hb hfm
            have hres := GOcc_prepend hocc_after
              (fun _ => hDnl hno hnm hnf)
            rw [← hD] at hres
            exact hres
        · rw [hstep] at hocc
          obtain ⟨u0, r, hu0, hflag, htail⟩ := hocc
          cases u0 with
          | nil =>
            rw [List.nil_append] at hu0
            cases T with
            | nil => exact absurd rfl hTne
            | cons a T' =>
              rw [List.cons_append] at hu0
              injection hu0 with hca hrest_eq
              obtain ⟨s₂, hs₂, hr2, hlen2⟩ := reSub2_anchor hrepl T'
                (fun d hd => hTfree d (List.mem_cons_of_mem _ hd)) rest r
                hrest_eq
              have hs₂_le : s₂.length ≤ n := by
                have hr3 : rest.length ≤ n := hrest_le
                omega
              have htail₂ : GOcc s₂ Ts' :=
                ih s₂ hs₂_le Ts'
                  (fun q hq => hTs q (List.mem_cons_of_mem _ hq))
                  (by rw [hr2]; exact htail)
              exact ⟨[], s₂,
                by rw [List.nil_append, List.cons_append, hca, hs₂],
                fun _ => List.not_mem_nil _, htail₂⟩
          | cons d u0' =>
            rw [List.cons_append] at hu0
            injection hu0 with hcd hrest_eq
            have htail' : GOcc rest ((b, T) :: Ts') :=
              ih rest hrest_le _ hTs
                ⟨u0', r, hrest_eq,
                  fun hb2 hm => hflag hb2 (List.mem_cons_of_mem _ hm), htail⟩
            have hcnd : b = true → '\n' ∉ [c] := by
              intro hb2 hm
              have he := List.mem_singleton.1 hm
              exact hflag hb2 (by rw [he, hcd]; exact List.mem_cons_self _ _)
            exact @GOcc_prepend [c] rest b T Ts' htail' hcnd

/-- Self-elimination: after one pass of `reSub2`, the output contains no
match of the pass's own pattern, provided the replacement text is
non-empty and shares no character with the pattern's literals, and the
literals are newline-free with a non-empty closing literal. -/
theorem not_patOcc_reSub2 {o : Char} {opn mid fin repl : List Char}
    (hrepl : repl ≠ [])
    (hopn : ∀ a ∈ o :: opn, a ∉ repl)
    (hmidf : ∀ a ∈ mid, a ∉ repl) (hfinf : ∀ a ∈ fin, a ∉ repl)
    (hfinne : fin ≠ [])
    (hno : '\n' ∉ o :: opn) (hnm : '\n' ∉ mid) (hnf : '\n' ∉ fin) :
    ∀ n : Nat, ∀ s : List Char, s.length ≤ n →
      ¬ patOcc o opn mid fin (reSub2 o opn mid fin repl s) := by
  have htailChunks : ∀ p ∈ tailChunks mid fin,
      p.2 ≠ [] ∧ ∀ a ∈ p.2, a ∉ repl := by
    intro p hp
    by_cases hmid : mid = []
    · subst hmid
      have ht : tailChunks ([] : List Char) fin = [(true, fin)] := by
        simp [tailChunks]
      rw [ht] at hp
      rcases List.mem_singleton.1 hp with rfl
      exact ⟨hfinne, hfinf⟩
    · have ht : tailChunks mid fin = [(true, mid), (true, fin)] := by
        simp only [tailChunks, if_neg hmid]
      rw [ht] at hp
      rcases List.mem_cons.1 hp with rfl | hp2
      · exact ⟨hmid, hmidf⟩
      · rcases List.mem_singleton.1 hp2 with rfl
        exact ⟨hfinne, hfinf⟩
  intro n
  induction n with
  | zero =>
    intro s hs
    have hnil : s = [] := List.length_eq_zero.1 (Nat.le_zero.1 hs)
    subst hnil
    rw [reSub2_nil]
    exact not_patOcc_nil
  | succ n ih =>
    intro s hs
    cases s with
    | nil =>
      rw [reSub2_nil]
      exact not_patOcc_nil
    | cons c rest =>
      have hrest_le : rest.length ≤ n := by
        rw [List.length_cons] at hs
        omega
      rcases reSub2_cons_cases o opn mid fin repl c rest with
        ⟨after, hb, hfm, hstep, hlen⟩ | ⟨hneg, hstep⟩
      · rw [hstep]
        rintro ⟨u0, r, hu0, _, htail⟩
        obtain ⟨u0', hu0', hVeq⟩ :=
          chunk_past hu0 (hopn o (List.mem_cons_self _ _))
        exact ih after (le_trans hlen hrest_le)
          ⟨u0', r, hVeq, fun hb2 => absurd hb2 Bool.false_ne_true, htail⟩
      · rw [hstep]
        rintro ⟨u0, r, hu0, _, htail⟩
        cases u0 with
        | nil =>
          rw [List.nil_append, List.cons_append] at hu0
          injection hu0 with hco hrest_eq
          obtain ⟨s₂, hs₂, hr2, hlen2⟩ := reSub2_anchor hrepl opn
            (fun d hd => hopn d (List.mem_cons_of_mem _ hd)) rest r hrest_eq
          have hb : isPre (o :: opn) (c :: rest) = true := by
            rw [hco, hs₂]
            have hself := isPre_append_self (o :: opn) s₂
            rw [List.cons_append] at hself
            exact hself
          rcases hneg with hb' | hfm'
          · rw [hb] at hb'
            cases hb'
          · have hdrop : rest.drop opn.length = s₂ := by
              rw [hs₂, List.drop_left]
            rw [hdrop] at hfm'
            have hs₂_le : s₂.length ≤ n := by
              have hr3 : rest.length ≤ n := hrest_le
              omega
            have htocc : GOcc s₂ (tailChunks mid fin) :=
              GOcc_transfer hrepl hno hnm hnf n s₂ hs₂_le _ htailChunks
                (by rw [hr2]; exact htail)
            have hsome := findMid_isSome_of_tailOcc htocc
            rw [hfm'] at hsome
            cases hsome
        | cons d u0' =>
          rw [List.cons_append] at hu0
          injection hu0 with hcd hrest_eq
          exact ih rest hrest_le
            ⟨u0', r, hrest_eq, fun hb2 => absurd hb2 Bool.false_ne_true,
              htail⟩

/-- Idempotence of the four-substitution redactor: running
`anonymize_text` on its own output changes nothing, for every input. -/
theorem anonymize_text_idem (t : List Char) :
    anonymize_text (anonymize_text t) = anonymize_text t := by
  have hS1 : ∀ x : List Char,
      ¬ patOcc '[' anonNameOpn [] anonFin
        (reSub2 '[' anonNameOpn [] anonFin nameRepl x) :=
    fun x => @not_patOcc_reSub2 '[' anonNameOpn [] anonFin nameRepl
      (by decide) (by decide) (by decide) (by decide) (by decide)
      (by decide) (by decide) (by decide) x.length x (le_refl _)
  have hS2 : ∀ x : List Char,
      ¬ patOcc '[' nameTagOpn [] nameTagFin
        (reSub2 '[' nameTagOpn [] nameTagFin nameRepl x) :=
    fun x => @not_patOcc_reSub2 '[' nameTagOpn [] nameTagFin nameRepl
      (by decide) (by decide) (by decide) (by decide) (by decide)
      (by decide) (by decide) (by decide) x.length x (le_refl _)
  have hS3 : ∀ x : List Char,
      ¬ patOcc '[' anonAnyOpn anonMid anonFin
        (reSub2 '[' anonAnyOpn anonMid anonFin sensRepl x) :=
    fun x => @not_patOcc_reSub2 '[' anonAnyOpn anonMid anonFin sensRepl
      (by decide) (by decide) (by decide) (by decide) (by decide)
      (by decide) (by decide) (by decide) x.length x (le_refl _)
  have hS4 : ∀ x : List Char,
      ¬ patOcc '[' sensTagOpn [] sensTagFin
        (reSub2 '[' sensTagOpn [] sensTagFin sensRepl x) :=
    fun x => @not_patOcc_reSub2 '[' sensTagOpn [] sensTagFin sensRepl
      (by decide) (by decide) (by decide) (by decide) (by decide)
      (by decide) (by decide) (by decide) x.length x (le_refl _)
  have tr2 : ∀ x : List Char, ∀ Ts,
      (∀ p ∈ Ts, p.2 ≠ [] ∧ ∀ a ∈ p.2, a ∉ nameRepl) →
      GOcc (sub2 x) Ts → GOcc x Ts :=
    fun x Ts h hg => @GOcc_transfer '[' nameTagOpn [] nameTagFin nameRepl
      (by decide) (by decide) (by decide) (by decide)
      x.length x (le_refl _) Ts h hg
  have tr3 : ∀ x : List Char, ∀ Ts,
      (∀ p ∈ Ts, p.2 ≠ [] ∧ ∀ a ∈ p.2, a ∉ sensRepl) →
      GOcc (sub3 x) Ts → GOcc x Ts :=
    fun x Ts h hg => @GOcc_transfer '[' anonAnyOpn anonMid anonFin sensRepl
      (by decide) (by decide) (by decide) (by decide)
      x.length x (le_refl _) Ts h hg
  have tr4 : ∀ x : List Char, ∀ Ts,
      (∀ p ∈ Ts, p.2 ≠ [] ∧ ∀ a ∈ p.2, a ∉ sensRepl) →
      GOcc (sub4 x) Ts → GOcc x Ts :=
    fun x Ts h hg => @GOcc_transfer '[' sensTagOpn [] sensTagFin sensRepl
      (by decide) (by decide) (by decide) (by decide)
      x.length x (le_refl _) Ts h hg
  have hny4 : ¬ patOcc '[' sensTagOpn [] sensTagFin
      (sub4 (sub3 (sub2 (sub1 t)))) := hS4 _
  have hny3 : ¬ patOcc '[' anonAnyOpn anonMid anonFin
      (sub4 (sub3 (sub2 (sub1 t)))) :=
    fun hg => hS3 _ (tr4 _ _ (by decide) hg)
  have hny2 : ¬ patOcc '[' nameTagOpn [] nameTagFin
      (sub4 (sub3 (sub2 (sub1 t)))) :=
    fun hg => hS2 _ (tr3 _ _ (by decide) (tr4 _ _ (by decide) hg))
  have hny1 : ¬ patOcc '[' anonNameOpn [] anonFin
      (sub4 (sub3 (sub2 (sub1 t)))) :=
    fun hg => hS1 _
      (tr2 _ _ (by decide) (tr3 _ _ (by decide) (tr4 _ _ (by decide) hg)))
  have f1 : sub1 (sub4 (sub3 (sub2 (sub1 t)))) =
      sub4 (sub3 (sub2 (sub1 t))) := reSub2_fix_of_not_patOcc _ hny1
  have f2 : sub2 (sub4 (sub3 (sub2 (sub1 t)))) =
      sub4 (sub3 (sub2 (sub1 t))) := reSub2_fix_of_not_patOcc _ hny2
  have f3 : sub3 (sub4 (sub3 (sub2 (sub1 t)))) =
      sub4 (sub3 (sub2 (sub1 t))) := reSub2_fix_of_not_patOcc _ hny3
  have f4 : sub4 (sub4 (sub3 (sub2 (sub1 t)))) =
      sub4 (sub3 (sub2 (sub1 t))) := reSub2_fix_of_not_patOcc _ hny4
  show sub4 (sub3 (sub2 (sub1 (sub4 (sub3 (sub2 (sub1 t))))))) =
    sub4 (sub3 (sub2 (sub1 t)))
  rw [f1, f2, f3, f4]

/-- C5: the Markup Redactor is idempotent — for every string `s`,
redacting the redacted output again returns it unchanged, and the
change-reporting variant `anonymize` applied to an already-redacted
string reports that no replacement occurred (flag `false`). -/
theorem claim_C5 (s : List Char) :
    anonymize_text (anonymize_text s) = anonymize_text s ∧
    anonymize (anonymize s).1 = ((anonymize s).1, false) := by
  refine ⟨anonymize_text_idem s, ?_⟩
  show anonymize (anonymize_text s) = (anonymize_text s, false)
  unfold anonymize
  rw [anonymize_text_idem s]
  simp

/-! The annotation-store setters: frame conditions for claim C4. -/
theorem look_updTier_self {k : String} {t : Tier} :
    ∀ l : List (String × Tier), (∃ t0, look k l = some t0) →
      look k (updTier k t l) = some t := by
  intro l
  induction l with
  | nil => rintro ⟨t0, h⟩; cases h
  | cons p rest ih =>
    rintro ⟨t0, h⟩
    obtain ⟨k', t'⟩ := p
    rw [updTier]
    by_cases hk : k' = k
    · rw [if_pos hk, look, if_pos hk]
    · rw [if_neg hk, look, if_neg hk]
      rw [look, if_neg hk] at h
      exact ih ⟨t0, h⟩

theorem look_updTier_other {k k' : String} {t : Tier} (hne : k' ≠ k) :
    ∀ l : List (String × Tier), look k' (updTier k t l) = look k' l := by
  intro l
  induction l with
  | nil => rfl
  | cons p rest ih =>
    obtain ⟨k'', t''⟩ := p
    rw [updTier]
    by_cases hk : k'' = k
    · rw [if_pos hk, look, look,
        if_neg (by rw [hk]; exact fun he => hne he.symm),
        if_neg (by rw [hk]; exact fun he => hne he.symm)]
    · rw [if_neg hk, look, look]
      by_cases hk2 : k'' = k'
      · rw [if_pos hk2, if_pos hk2]
      · rw [if_neg hk2, if_neg hk2]
        exact ih

theorem updTier_self {k : String} {t : Tier} :
    ∀ l : List (String × Tier), look k l = some t → updTier k t l = l := by
  intro l
  induction l with
  | nil => intro h; cases h
  | cons p rest ih =>
    intro h
    obtain ⟨k', t'⟩ := p
    rw [look] at h
    rw [updTier]
    by_cases hk : k' = k
    · rw [if_pos hk] at h ⊢
      cases h
      rfl
    · rw [if_neg hk] at h ⊢
      rw [ih h]

theorem updAligned_spec {ts : List (String × Nat)} {s e : Nat}
    {v : List Char} :
    ∀ {l l' : List (String × AlignedAnn)}, updAligned ts s e v l = some l' →
      ((∀ p ∈ l, ¬ spanIs ts p.2 s e) ∧ l' = l) ∨
      (∃ pre aid a post, l = pre ++ (aid, a) :: post ∧
        l' = pre ++ (aid, { a with value := v }) :: post ∧
        spanIs ts a s e ∧ ∀ p ∈ pre, ¬ spanIs ts p.2 s e) := by
  intro l
  induction l with
  | nil =>
    intro l' h
    rw [updAligned] at h
    cases h
    exact Or.inl ⟨by simp, rfl⟩
  | cons p rest ih =>
    intro l' h
    obtain ⟨aid, a⟩ := p
    rw [updAligned] at h
    split at h
    next => cases h
    next m1 hm1 =>
      split at h
      next hs =>
        split at h
        next => cases h
        next m2 hm2 =>
          split at h
          next he =>
            cases h
            exact Or.inr ⟨[], aid, a, rest, by simp, by simp,
              ⟨by rw [hm1, hs], by rw [hm2, he]⟩, by simp⟩
          next he =>
            obtain ⟨rl, hrl, hl'⟩ := Option.map_eq_some'.1 h
            have hhead : ¬ spanIs ts a s e := by
              rintro ⟨h1, h2⟩
              rw [hm2] at h2
              cases h2
              exact he rfl
            rcases ih hrl with ⟨hall, rfl⟩ | ⟨pre, aid2, a2, post, h1, h2, h3, h4⟩
            · refine Or.inl ⟨?_, hl'.symm⟩
              intro q hq
              rcases List.mem_cons.1 hq with rfl | hq2
              · exact hhead
              · exact hall q hq2
            · refine Or.inr ⟨(aid, a) :: pre, aid2, a2, post,
                by rw [h1, List.cons_append],
                by rw [← hl', h2, List.cons_append], h3, ?_⟩
              intro q hq
              rcases List.mem_cons.1 hq with rfl | hq2
              · exact hhead
              · exact h4 q hq2
      next hs =>
        obtain ⟨rl, hrl, hl'⟩ := Option.map_eq_some'.1 h
        have hhead : ¬ spanIs ts a s e := by
          rintro ⟨h1, _⟩
          rw [hm1] at h1
          cases h1
          exact hs rfl
        rcases ih hrl with ⟨hall, rfl⟩ | ⟨pre, aid2, a2, post, h1, h2, h3, h4⟩
        · refine Or.inl ⟨?_, hl'.symm⟩
          intro q hq
          rcases List.mem_cons.1 hq with rfl | hq2
          · exact hhead
          · exact hall q hq2
        · refine Or.inr ⟨(aid, a) :: pre, aid2, a2, post,
            by rw [h1, List.cons_append],
            by rw [← hl', h2, List.cons_append], h3, ?_⟩
          intro q hq
          rcases List.mem_cons.1 hq with rfl | hq2
          · exact hhead
          · exact h4 q hq2

theorem updRef_spec {tiers : List (String × Tier)} {ts : List (String × Nat)}
    {pt : String} {s e : Nat} {v : List Char} :
    ∀ {l l' : List (String × RefAnn)}, updRef tiers ts pt s e v l = some l' →
      ((∀ p ∈ l, ¬ refSpanIs tiers ts pt p.2 s e) ∧ l' = l) ∨
      (∃ pre rid r post, l = pre ++ (rid, r) :: post ∧
        l' = pre ++ (rid, { r with value := v }) :: post ∧
        refSpanIs tiers ts pt r s e ∧
        ∀ p ∈ pre, ¬ refSpanIs tiers ts pt p.2 s e) := by
  intro l
  induction l with
  | nil =>
    intro l' h
    rw [updRef] at h
    cases h
    exact Or.inl ⟨by simp, rfl⟩
  | cons p rest ih =>
    intro l' h
    obtain ⟨rid, r⟩ := p
    rw [updRef] at h
    split at h
    next => cases h
    next PT hPT =>
      split at h
      next => cases h
      next pa hpa =>
        split at h
        next => cases h
        next m1 hm1 =>
          split at h
          next hs =>
            split at h
            next => cases h
            next m2 hm2 =>
              split at h
              next he =>
                cases h
                exact Or.inr ⟨[], rid, r, rest, by simp, by simp,
                  ⟨PT, pa, hPT, hpa, by rw [hm1, hs], by rw [hm2, he]⟩,
                  by simp⟩
              next he =>
                obtain ⟨rl, hrl, hl'⟩ := Option.map_eq_some'.1 h
                have hhead : ¬ refSpanIs tiers ts pt r s e := by
                  rintro ⟨PT', pa', hPT', hpa', h1, h2⟩
                  rw [hPT] at hPT'
                  cases hPT'
                  rw [hpa] at hpa'
                  cases hpa'
                  rw [hm2] at h2
                  cases h2
                  exact he rfl
                rcases ih hrl with ⟨hall, rfl⟩ |
                  ⟨pre, rid2, r2, post, h1, h2, h3, h4⟩
                · refine Or.inl ⟨?_, hl'.symm⟩
                  intro q hq
                  rcases List.mem_cons.1 hq with rfl | hq2
                  · exact hhead
                  · exact hall q hq2
                · refine Or.inr ⟨(rid, r) :: pre, rid2, r2, post,
                    by rw [h1, List.cons_append],
                    by rw [← hl', h2, List.cons_append], h3, ?_⟩
                  intro q hq
                  rcases List.mem_cons.1 hq with rfl | hq2
                  · exact hhead
                  · exact h4 q hq2
          next hs =>
            obtain ⟨rl, hrl, hl'⟩ := Option.map_eq_some'.1 h
            have hhead : ¬ refSpanIs tiers ts pt r s e := by
              rintro ⟨PT', pa', hPT', hpa', h1, _⟩
              rw [hPT] at hPT'
              cases hPT'
              rw [hpa] at hpa'
              cases hpa'
              rw [hm1] at h1
              cases h1
              exact hs rfl
            rcases ih hrl with ⟨hall, rfl⟩ |
              ⟨pre, rid2, r2, post, h1, h2, h3, h4⟩
            · refine Or.inl ⟨?_, hl'.symm⟩
              intro q hq
              rcases List.mem_cons.1 hq with rfl | hq2
              · exact hhead
              · exact hall q hq2
            · refine Or.inr ⟨(rid, r) :: pre, rid2, r2, post,
                by rw [h1, List.cons_append],
                by rw [← hl', h2, List.cons_append], h3, ?_⟩
              intro q hq
              rcases List.mem_cons.1 hq with rfl | hq2
              · exact hhead
              · exact h4 q hq2

theorem setAlignedValue_spec {tr tr' : Transcript} {tier : String}
    {s e : Nat} {v : List Char}
    (h : setAlignedValue tr tier s e v = some tr') :
    tr'.timeslots = tr.timeslots ∧
    (∀ t', t' ≠ tier → look t' tr'.tiers = look t' tr.tiers) ∧
    ∃ T T', look tier tr.tiers = some T ∧ look tier tr'.tiers = some T' ∧
      T'.refs = T.refs ∧ T'.parentRef = T.parentRef ∧
      (((∀ p ∈ T.aligned, ¬ spanIs tr.timeslots p.2 s e) ∧ tr' = tr) ∨
        (∃ pre aid a post, T.aligned = pre ++ (aid, a) :: post ∧
          T'.aligned = pre ++ (aid, { a with value := v }) :: post ∧
          spanIs tr.timeslots a s e ∧
          ∀ p ∈ pre, ¬ spanIs tr.timeslots p.2 s e)) := by
  unfold setAlignedValue at h
  split at h
  next => cases h
  next T hT =>
    split at h
    next => cases h
    next al hal =>
      cases h
      refine ⟨rfl, ?_, T, { T with aligned := al },
        hT, look_updTier_self _ ⟨T, hT⟩, rfl, rfl, ?_⟩
      · intro t' hne
        exact look_updTier_other hne _
      · rcases updAligned_spec hal with ⟨hall, rfl⟩ |
          ⟨pre, aid, a, post, h1, h2, h3, h4⟩
        · refine Or.inl ⟨hall, ?_⟩
          show ({ tr with tiers := updTier tier T tr.tiers } : Transcript) = tr
          rw [updTier_self _ hT]
        · exact Or.inr ⟨pre, aid, a, post, h1, h2, h3, h4⟩

theorem setRefValue_spec {tr tr' : Transcript} {tier : String}
    {s e : Nat} {v : List Char}
    (h : setRefValue tr tier s e v = some tr') :
    tr'.timeslots = tr.timeslots ∧
    (∀ t', t' ≠ tier → look t' tr'.tiers = look t' tr.tiers) ∧
    ∃ T T' pt, look tier tr.tiers = some T ∧ T.parentRef = some pt ∧
      look tier tr'.tiers = some T' ∧
      T'.aligned = T.aligned ∧ T'.parentRef = T.parentRef ∧
      (((∀ p ∈ T.refs, ¬ refSpanIs tr.tiers tr.timeslots pt p.2 s e) ∧
          tr' = tr) ∨
        (∃ pre rid r post, T.refs = pre ++ (rid, r) :: post ∧
          T'.refs = pre ++ (rid, { r with value := v }) :: post ∧
          refSpanIs tr.tiers tr.timeslots pt r s e ∧
          ∀ p ∈ pre, ¬ refSpanIs tr.tiers tr.timeslots pt p.2 s e)) := by
  unfold setRefValue at h
  split at h
  next => cases h
  next T hT =>
    split at h
    next => cases h
    next pt hpt =>
      split at h
      next => cases h
      next rl hrl =>
        cases h
        refine ⟨rfl, ?_, T, { T with refs := rl }, pt,
          hT, hpt, look_updTier_self _ ⟨T, hT⟩, rfl, rfl, ?_⟩
        · intro t' hne
          exact look_updTier_other hne _
        · rcases updRef_spec hrl with ⟨hall, rfl⟩ |
            ⟨pre, rid, r, post, h1, h2, h3, h4⟩
          · refine Or.inl ⟨hall, ?_⟩
            show ({ tr with tiers := updTier tier T tr.tiers } : Transcript) = tr
            rw [updTier_self _ hT]
          · exact Or.inr ⟨pre, rid, r, post, h1, h2, h3, h4⟩

/-- C4: for every annotation store, tier, span `(start_ms, end_ms)` and new
value, each setter (`set_aligned_annotation` on time-aligned tiers,
`set_ref_annotation` on referential tiers, the latter resolving effective
spans through the parent tier) replaces only the value of the first
annotation whose effective span equals the requested span: the store's
timeslots are untouched, every other tier is untouched, the target tier
keeps its other dictionary and its `PARENT_REF`, the sequence of annotation
identifiers is unchanged (so no annotation is created or deleted), the
replaced annotation keeps its identifier, its timeslot references
(resp. its parent-annotation link and previous-annotation link) and its SVG
reference, and when no annotation's effective span matches, the store is
left entirely unchanged. -/
theorem claim_C4 (tr trA trR : Transcript) (tierA tierR : String)
    (s e : Nat) (v : List Char) :
    (setAlignedValue tr tierA s e v = some trA →
      trA.timeslots = tr.timeslots ∧
      (∀ t2, t2 ≠ tierA → look t2 trA.tiers = look t2 tr.tiers) ∧
      ∃ T T', look tierA tr.tiers = some T ∧ look tierA trA.tiers = some T' ∧
        T'.refs = T.refs ∧ T'.parentRef = T.parentRef ∧
        T'.aligned.map Prod.fst = T.aligned.map Prod.fst ∧
        (((∀ p ∈ T.aligned, ¬ spanIs tr.timeslots p.2 s e) ∧ trA = tr) ∨
          (∃ pre aid a post, T.aligned = pre ++ (aid, a) :: post ∧
            T'.aligned = pre ++
              (aid, { ts1 := a.ts1, ts2 := a.ts2, value := v,
                      svg := a.svg }) :: post ∧
            spanIs tr.timeslots a s e ∧
            ∀ p ∈ pre, ¬ spanIs tr.timeslots p.2 s e))) ∧
    (setRefValue tr tierR s e v = some trR →
      trR.timeslots = tr.timeslots ∧
      (∀ t2, t2 ≠ tierR → look t2 trR.tiers = look t2 tr.tiers) ∧
      ∃ T T' pt, look tierR tr.tiers = some T ∧ T.parentRef = some pt ∧
        look tierR trR.tiers = some T' ∧
        T'.aligned = T.aligned ∧ T'.parentRef = T.parentRef ∧
        T'.refs.map Prod.fst = T.refs.map Prod.fst ∧
        (((∀ p ∈ T.refs, ¬ refSpanIs tr.tiers tr.timeslots pt p.2 s e) ∧
            trR = tr) ∨
          (∃ pre rid r post, T.refs = pre ++ (rid, r) :: post ∧
            T'.refs = pre ++
              (rid, { parentAnn := r.parentAnn, value := v,
                      previous := r.previous, svg := r.svg }) :: post ∧
            refSpanIs tr.tiers tr.timeslots pt r s e ∧
            ∀ p ∈ pre, ¬ refSpanIs tr.tiers tr.timeslots pt p.2 s e))) := by
  constructor
  · intro h
    obtain ⟨h1, h2, T, T', hT, hT', hrefs, hpar, hdi⟩ := setAlignedValue_spec h
    refine ⟨h1, h2, T, T', hT, hT', hrefs, hpar, ?_, ?_⟩
    · rcases hdi with ⟨_, rfl⟩ | ⟨pre, aid, a, post, ha, ha', _, _⟩
      · rw [hT] at hT'
        cases hT'
        rfl
      · rw [ha, ha']
        simp
    · rcases hdi with ⟨hno, heq⟩ | ⟨pre, aid, a, post, ha, ha', hsp, hpre⟩
      · exact Or.inl ⟨hno, heq⟩
      · exact Or.inr ⟨pre, aid, a, post, ha, ha', hsp, hpre⟩
  · intro h
    obtain ⟨h1, h2, T, T', pt, hT, hpt, hT', hal, hpar, hdi⟩ :=
      setRefValue_spec h
    refine ⟨h1, h2, T, T', pt, hT, hpt, hT', hal, hpar, ?_, ?_⟩
    · rcases hdi with ⟨_, rfl⟩ | ⟨pre, rid, r, post, ha, ha', _, _⟩
      · rw [hT] at hT'
        cases hT'
        rfl
      · rw [ha, ha']
        simp
    · rcases hdi with ⟨hno, heq⟩ | ⟨pre, rid, r, post, ha, ha', hsp, hpre⟩
      · exact Or.inl ⟨hno, heq⟩
      · exact Or.inr ⟨pre, rid, r, post, ha, ha', hsp, hpre⟩

/-- Witness for C4 at a concrete two-tier store: both setters succeed and
the claimed frame conditions follow by applying `claim_C4`. -/
theorem claim_C4_witness :
    demoTrA.timeslots = demoTr.timeslots ∧
    demoTrR.timeslots = demoTr.timeslots ∧
    look "T" demoTrR.tiers = look "T" demoTr.tiers := by
  have h := claim_C4 demoTr demoTrA demoTrR "T" "R" 0 5 ("new".toList)
  have hA := h.1 (by decide)
  have hR := h.2 (by decide)
  exact ⟨hA.1, hR.1, hR.2.1 "T" (by decide)⟩

/-! The filter compiler: counting enable-clauses for claim C2. -/
theorem isPre_append_of_isPre {p s : List Char} (h : isPre p s = true)
    (r : List Char) : isPre p (s ++ r) = true := by
  obtain ⟨u, rfl⟩ := (isPre_iff_append p s).1 h
  rw [List.append_assoc]
  exact isPre_append_self p (u ++ r)

theorem isPre_append_false {p : List Char} :
    ∀ {s : List Char}, isPre p s = false → isPre s p = false →
      ∀ r, isPre p (s ++ r) = false := by
  induction p with
  | nil =>
    intro s hps _ r
    rw [isPre_nil] at hps
    cases hps
  | cons a as ih =>
    intro s hps hsp r
    cases s with
    | nil =>
      rw [isPre_nil] at hsp
      cases hsp
    | cons b bs =>
      have hps2 : (a == b && isPre as bs) = false := hps
      have hsp2 : (b == a && isPre bs as) = false := hsp
      show (a == b && isPre as (bs ++ r)) = false
      by_cases hab : a = b
      · subst hab
        simp only [beq_self_eq_true, Bool.true_and] at hps2 hsp2 ⊢
        exact ih hps2 hsp2 r
      · rw [beq_eq_false_iff_ne.2 hab, Bool.false_and]

/-- If every nonempty suffix of `A` either starts a full occurrence of `P`
inside `A` or disagrees with `P` within `A`, then occurrences of `P` in
`A ++ r` split into those inside `A` and those inside `r`. -/
theorem countOcc_chunk (P A : List Char)
    (hA : ∀ s ∈ A.tails, s ≠ [] → (isPre P s || !(isPre s P)) = true) :
    ∀ r, countOcc P (A ++ r) = countOcc P A + countOcc P r := by
  induction A with
  | nil =>
    intro r
    rw [List.nil_append]
    show countOcc P r = countOcc P [] + countOcc P r
    rw [countOcc, Nat.zero_add]
  | cons c A' ih =>
    intro r
    have hA' : ∀ s ∈ A'.tails, s ≠ [] → (isPre P s || !(isPre s P)) = true := by
      intro s hs hne
      exact hA s ((List.mem_tails _ _).2 (((List.mem_tails _ _).1 hs).trans
        (List.suffix_cons c A'))) hne
    have hself := hA (c :: A') ((List.mem_tails _ _).2 (List.suffix_refl _))
      (by simp)
    have hhead : isPre P (c :: (A' ++ r)) = isPre P (c :: A') := by
      rw [Bool.or_eq_true] at hself
      rcases hself with htrue | hfalse
      · have h2 := isPre_append_of_isPre htrue r
        rw [List.cons_append] at h2
        rw [h2, htrue]
      · have hsp : isPre (c :: A') P = false := by
          rw [Bool.not_eq_true'] at hfalse
          exact hfalse
        cases hv : isPre P (c :: A') with
        | true =>
          have h2 := isPre_append_of_isPre hv r
          rw [List.cons_append] at h2
          rw [h2]
        | false =>
          have h2 := isPre_append_false hv hsp r
          rw [List.cons_append] at h2
          rw [h2]
    show (if isPre P (c :: (A' ++ r)) = true then 1 else 0) +
        countOcc P (A' ++ r) =
      ((if isPre P (c :: A') = true then 1 else 0) + countOcc P A') +
        countOcc P r
    rw [hhead, ih hA' r, Nat.add_assoc]

/-- Occurrences of a pattern beginning with `c0` skip over any block free
of `c0`. -/
theorem countOcc_skip (P : List Char) (c0 : Char)
    (hP : isPre [c0] P = true) :
    ∀ d, (∀ c ∈ d, c ≠ c0) → ∀ r, countOcc P (d ++ r) = countOcc P r := by
  obtain ⟨q, rfl⟩ := (isPre_iff_append [c0] P).1 hP
  intro d
  induction d with
  | nil => intro _ r; rw [List.nil_append]
  | cons c d' ih =>
    intro hd r
    show (if isPre ([c0] ++ q) (c :: (d' ++ r)) = true then 1 else 0) +
        countOcc ([c0] ++ q) (d' ++ r) = countOcc ([c0] ++ q) r
    have hc : (c0 == c) = false :=
      beq_eq_false_iff_ne.2 fun he => hd c (List.mem_cons_self c d') he.symm
    have hfalse : isPre ([c0] ++ q) (c :: (d' ++ r)) = false := by
      show (c0 == c && isPre q (d' ++ r)) = false
      rw [hc, Bool.false_and]
    rw [hfalse, if_neg (fun h => Bool.false_ne_true h), Nat.zero_add,
      ih (fun x hx => hd x (List.mem_cons_of_mem c hx)) r]

theorem digitChar_mem (n : Nat) : digitChar n ∈ digitSet := by
  unfold digitChar
  split <;> decide

theorem natCharsGo_mem : ∀ f n, ∀ c ∈ natCharsGo f n, c ∈ digitSet := by
  intro f
  induction f with
  | zero =>
    intro n c hc
    rw [natCharsGo] at hc
    cases hc
  | succ f ih =>
    intro n c hc
    rw [natCharsGo] at hc
    by_cases h : n < 10
    · rw [if_pos h] at hc
      rcases List.mem_singleton.1 hc with rfl
      exact digitChar_mem n
    · rw [if_neg h] at hc
      rcases List.mem_append.1 hc with h1 | h2
      · exact ih _ c h1
      · rcases List.mem_singleton.1 h2 with rfl
        exact digitChar_mem n

theorem fmt3_mem (ms : Nat) : ∀ c ∈ fmt3 ms, c ∈ digitSet := by
  intro c hc
  rw [fmt3] at hc
  rcases List.mem_append.1 hc with h1 | h2
  · exact natCharsGo_mem _ _ c h1
  · rcases List.mem_cons.1 h2 with rfl | h3
    · decide
    · simp only [pad3, List.mem_cons, List.not_mem_nil, or_false] at h3
      rcases h3 with rfl | rfl | rfl <;> exact digitChar_mem _

theorem fmt3_ne (c0 : Char) (h : c0 ∉ digitSet) (ms : Nat) :
    ∀ c ∈ fmt3 ms, c ≠ c0 :=
  fun c hc he => h (he ▸ fmt3_mem ms c hc)

theorem countOcc_M_volumeClause (s e : Nat) (r : List Char) :
    countOcc muteHead (volumeClause s e ++ r) = 1 + countOcc muteHead r := by
  rw [volumeClause]
  simp only [List.append_assoc]
  rw [countOcc_chunk muteHead volLit1 (by decide),
    countOcc_skip muteHead 'v' (by decide) (fmt3 s)
      (fmt3_ne 'v' (by decide) s),
    countOcc_chunk muteHead escComma (by decide),
    countOcc_skip muteHead 'v' (by decide) (fmt3 e)
      (fmt3_ne 'v' (by decide) e),
    countOcc_chunk muteHead volLit3 (by decide)]
  have h1 : countOcc muteHead volLit1 = 1 := by decide
  have h2 : countOcc muteHead escComma = 0 := by decide
  have h3 : countOcc muteHead volLit3 = 0 := by decide
  rw [h1, h2, h3]
  omega

theorem countOcc_B_volumeClause (s e : Nat) (r : List Char) :
    countOcc blurHead (volumeClause s e ++ r) = countOcc blurHead r := by
  rw [volumeClause]
  simp only [List.append_assoc]
  rw [countOcc_chunk blurHead volLit1 (by decide),
    countOcc_skip blurHead 'b' (by decide) (fmt3 s)
      (fmt3_ne 'b' (by decide) s),
    countOcc_chunk blurHead escComma (by decide),
    countOcc_skip blurHead 'b' (by decide) (fmt3 e)
      (fmt3_ne 'b' (by decide) e),
    countOcc_chunk blurHead volLit3 (by decide)]
  have h1 : countOcc blurHead volLit1 = 0 := by decide
  have h2 : countOcc blurHead escComma = 0 := by decide
  have h3 : countOcc blurHead volLit3 = 0 := by decide
  rw [h1, h2, h3]
  omega

theorem countOcc_B_blurClause (s e : Nat) (r : List Char) :
    countOcc blurHead (blurClause s e ++ r) = 1 + countOcc blurHead r := by
  rw [blurClause]
  simp only [List.append_assoc]
  rw [countOcc_chunk blurHead blurLit1 (by decide),
    countOcc_skip blurHead 'b' (by decide) (fmt3 s)
      (fmt3_ne 'b' (by decide) s),
    countOcc_chunk blurHead escComma (by decide),
    countOcc_skip blurHead 'b' (by decide) (fmt3 e)
      (fmt3_ne 'b' (by decide) e),
    countOcc_chunk blurHead blurLit3 (by decide)]
  have h1 : countOcc blurHead blurLit1 = 1 := by decide
  have h2 : countOcc blurHead escComma = 0 := by decide
  have h3 : countOcc blurHead blurLit3 = 0 := by decide
  rw [h1, h2, h3]
  omega

theorem countOcc_M_blurClause (s e : Nat) (r : List Char) :
    countOcc muteHead (blurClause s e ++ r) = countOcc muteHead r := by
  rw [blurClause]
  simp only [List.append_assoc]
  rw [countOcc_chunk muteHead blurLit1 (by decide),
    countOcc_skip muteHead 'v' (by decide) (fmt3 s)
      (fmt3_ne 'v' (by decide) s),
    countOcc_chunk muteHead escComma (by decide),
    countOcc_skip muteHead 'v' (by decide) (fmt3 e)
      (fmt3_ne 'v' (by decide) e),
    countOcc_chunk muteHead blurLit3 (by decide)]
  have h1 : countOcc muteHead blurLit1 = 0 := by decide
  have h2 : countOcc muteHead escComma = 0 := by decide
  have h3 : countOcc muteHead blurLit3 = 0 := by decide
  rw [h1, h2, h3]
  omega

theorem joinSep_cons (sep x : List Char) (xs : List (List Char))
    (h : xs ≠ []) : joinSep sep (x :: xs) = x ++ sep ++ joinSep sep xs := by
  cases xs with
  | nil => exact absurd rfl h
  | cons y ys => rfl

theorem countOcc_M_joinVol (segs : List (Nat × Nat × List Char)) :
    ∀ r, countOcc muteHead
        (joinSep sepCS (segs.map fun p => volumeClause p.1 p.2.1) ++ r) =
      segs.length + countOcc muteHead r := by
  induction segs with
  | nil =>
    intro r
    rw [List.map_nil]
    show countOcc muteHead ([] ++ r) = 0 + countOcc muteHead r
    rw [List.nil_append, Nat.zero_add]
  | cons p rest ih =>
    cases rest with
    | nil =>
      intro r
      show countOcc muteHead (volumeClause p.1 p.2.1 ++ r) =
        1 + countOcc muteHead r
      rw [countOcc_M_volumeClause]
    | cons q rest' =>
      intro r
      rw [List.map_cons,
        joinSep_cons _ _ _ (by simp), List.append_assoc, List.append_assoc,
        countOcc_M_volumeClause,
        countOcc_chunk muteHead sepCS (by decide), ih r]
      have h2 : countOcc muteHead sepCS = 0 := by decide
      rw [h2]
      simp only [List.length_cons]
      omega

theorem countOcc_B_joinVol (segs : List (Nat × Nat × List Char)) :
    ∀ r, countOcc blurHead
        (joinSep sepCS (segs.map fun p => volumeClause p.1 p.2.1) ++ r) =
      countOcc blurHead r := by
  induction segs with
  | nil =>
    intro r
    rw [List.map_nil]
    show countOcc blurHead ([] ++ r) = countOcc blurHead r
    rw [List.nil_append]
  | cons p rest ih =>
    cases rest with
    | nil =>
      intro r
      show countOcc blurHead (volumeClause p.1 p.2.1 ++ r) =
        countOcc blurHead r
      rw [countOcc_B_volumeClause]
    | cons q rest' =>
      intro r
      rw [List.map_cons,
        joinSep_cons _ _ _ (by simp), List.append_assoc, List.append_assoc,
        countOcc_B_volumeClause,
        countOcc_chunk blurHead sepCS (by decide), ih r]
      have h2 : countOcc blurHead sepCS = 0 := by decide
      rw [h2, Nat.zero_add]

theorem countOcc_B_joinBlur (segs : List (Nat × Nat × List Char)) :
    ∀ r, countOcc blurHead
        (joinSep sepCS (segs.map fun p => blurClause p.1 p.2.1) ++ r) =
      segs.length + countOcc blurHead r := by
  induction segs with
  | nil =>
    intro r
    rw [List.map_nil]
    show countOcc blurHead ([] ++ r) = 0 + countOcc blurHead r
    rw [List.nil_append, Nat.zero_add]
  | cons p rest ih =>
    cases rest with
    | nil =>
      intro r
      show countOcc blurHead (blurClause p.1 p.2.1 ++ r) =
        1 + countOcc blurHead r
      rw [countOcc_B_blurClause]
    | cons q rest' =>
      intro r
      rw [List.map_cons,
        joinSep_cons _ _ _ (by simp), List.append_assoc, List.append_assoc,
        countOcc_B_blurClause,
        countOcc_chunk blurHead sepCS (by decide), ih r]
      have h2 : countOcc blurHead sepCS = 0 := by decide
      rw [h2]
      simp only [List.length_cons]
      omega

theorem countOcc_M_joinBlur (segs : List (Nat × Nat × List Char)) :
    ∀ r, countOcc muteHead
        (joinSep sepCS (segs.map fun p => blurClause p.1 p.2.1) ++ r) =
      countOcc muteHead r := by
  induction segs with
  | nil =>
    intro r
    rw [List.map_nil]
    show countOcc muteHead ([] ++ r) = countOcc muteHead r
    rw [List.nil_append]
  | cons p rest ih =>
    cases rest with
    | nil =>
      intro r
      show countOcc muteHead (blurClause p.1 p.2.1 ++ r) =
        countOcc muteHead r
      rw [countOcc_M_blurClause]
    | cons q rest' =>
      intro r
      rw [List.map_cons,
        joinSep_cons _ _ _ (by simp), List.append_assoc, List.append_assoc,
        countOcc_M_blurClause,
        countOcc_chunk muteHead sepCS (by decide), ih r]
      have h2 : countOcc muteHead sepCS = 0 := by decide
      rw [h2, Nat.zero_add]

theorem volume_filter_order (p : Nat × Nat × List Char) :
    ∀ pre post : List (Nat × Nat × List Char), ∃ a b,
      volume_filter (pre ++ p :: post) = a ++ (volumeClause p.1 p.2.1 ++ b) ∧
      countOcc muteHead a = pre.length := by
  intro pre
  induction pre with
  | nil =>
    intro post
    cases post with
    | nil =>
      refine ⟨[], [], ?_, rfl⟩
      show volumeClause p.1 p.2.1 = [] ++ (volumeClause p.1 p.2.1 ++ [])
      rw [List.nil_append, List.append_nil]
    | cons q post' =>
      refine ⟨[], sepCS ++
        joinSep sepCS ((q :: post').map fun x => volumeClause x.1 x.2.1),
        ?_, rfl⟩
      show volumeClause p.1 p.2.1 ++ sepCS ++
          joinSep sepCS ((q :: post').map fun x => volumeClause x.1 x.2.1) =
        [] ++ (volumeClause p.1 p.2.1 ++ (sepCS ++
          joinSep sepCS ((q :: post').map fun x => volumeClause x.1 x.2.1)))
      rw [List.nil_append, List.append_assoc]
  | cons q pre' ih =>
    intro post
    obtain ⟨a, b, hab, hcnt⟩ := ih post
    refine ⟨volumeClause q.1 q.2.1 ++ (sepCS ++ a), b, ?_, ?_⟩
    · rw [List.cons_append, volume_filter, List.map_cons,
        joinSep_cons _ _ _ (by simp),
        show joinSep sepCS ((pre' ++ p :: post).map
            fun x => volumeClause x.1 x.2.1) =
          volume_filter (pre' ++ p :: post) from rfl, hab]
      simp only [List.append_assoc]
    · rw [countOcc_M_volumeClause, countOcc_chunk muteHead sepCS (by decide),
        hcnt]
      have h2 : countOcc muteHead sepCS = 0 := by decide
      rw [h2]
      simp only [List.length_cons]
      omega

/-- C2 (amended: the compiled clauses escape the commas of `between` as
`\,`, so the interval (216670, 219193) ms yields
`between(t\,216.670\,219.193)`): for every list of input segments, the
compiled audio filter holds exactly one mute (`volume=0`) enable-clause
per segment; the compiled video filter holds exactly one blur and one mute
enable-clause per segment, all the blur clauses before the `; ` separator
and all the mute clauses after it; the clauses appear in input-list order
(the clause of the segment at position `i` is preceded by exactly `i`
clause heads); and each clause renders its endpoints in seconds with
exactly three decimal digits, as in the escaped example above. -/
theorem claim_C2 (segs : List (Nat × Nat × List Char)) :
    countOcc muteHead (volume_filter segs) = segs.length ∧
    countOcc blurHead (video_filter segs) = segs.length ∧
    countOcc muteHead (video_filter segs) = segs.length ∧
    (∃ a b, video_filter segs = a ++ sepSemi ++ b ∧
      countOcc blurHead a = segs.length ∧ countOcc muteHead a = 0 ∧
      countOcc blurHead b = 0 ∧ countOcc muteHead b = segs.length) ∧
    (∀ pre p post, segs = pre ++ p :: post →
      ∃ a b, volume_filter segs = a ++ (volumeClause p.1 p.2.1 ++ b) ∧
        countOcc muteHead a = pre.length) ∧
    fmt3 216670 = "216.670".toList ∧
    hasSub ("between(t\\,216.670\\,219.193)".toList)
      (volume_filter [(216670, 219193, [])]) = true := by
  have hM0 : countOcc muteHead [] = 0 := rfl
  have hB0 : countOcc blurHead [] = 0 := rfl
  refine ⟨?_, ?_, ?_, ?_, ?_, by decide, by decide⟩
  · have h := countOcc_M_joinVol segs []
    rw [List.append_nil, hM0] at h
    rw [volume_filter, h]
    omega
  · rw [video_filter, countOcc_chunk blurHead fmtHdr (by decide),
      countOcc_B_joinBlur, countOcc_chunk blurHead sepSemi (by decide)]
    have h := countOcc_B_joinVol segs []
    rw [List.append_nil, hB0] at h
    rw [h]
    have h1 : countOcc blurHead fmtHdr = 0 := by decide
    have h2 : countOcc blurHead sepSemi = 0 := by decide
    rw [h1, h2]
    omega
  · rw [video_filter, countOcc_chunk muteHead fmtHdr (by decide),
      countOcc_M_joinBlur, countOcc_chunk muteHead sepSemi (by decide)]
    have h := countOcc_M_joinVol segs []
    rw [List.append_nil, hM0] at h
    rw [h]
    have h1 : countOcc muteHead fmtHdr = 0 := by decide
    have h2 : countOcc muteHead sepSemi = 0 := by decide
    rw [h1, h2]
    omega
  · refine ⟨fmtHdr ++ joinSep sepCS (segs.map fun p => blurClause p.1 p.2.1),
      joinSep sepCS (segs.map fun p => volumeClause p.1 p.2.1),
      by rw [video_filter]; simp only [List.append_assoc], ?_, ?_, ?_, ?_⟩
    · rw [countOcc_chunk blurHead fmtHdr (by decide)]
      have h := countOcc_B_joinBlur segs []
      rw [List.append_nil, hB0] at h
      have h1 : countOcc blurHead fmtHdr = 0 := by decide
      rw [h, h1]
      omega
    · rw [countOcc_chunk muteHead fmtHdr (by decide)]
      have h := countOcc_M_joinBlur segs []
      rw [List.append_nil, hM0] at h
      have h1 : countOcc muteHead fmtHdr = 0 := by decide
      rw [h, h1]
    · have h := countOcc_B_joinVol segs []
      rw [List.append_nil, hB0] at h
      exact h
    · have h := countOcc_M_joinVol segs []
      rw [List.append_nil, hM0] at h
      rw [h]
      omega
  · intro pre p post hsegs
    subst hsegs
    exact volume_filter_order p pre post

/-- Witness for C2 on a two-segment list: two mute clauses are compiled,
and the second segment's clause is preceded by exactly one clause head. -/
theorem claim_C2_witness :
    countOcc muteHead (volume_filter [(216670, 219193, []), (1, 2, [])]) = 2 ∧
    ∃ a b, volume_filter [(216670, 219193, []), (1, 2, [])] =
        a ++ (volumeClause 1 2 ++ b) ∧
      countOcc muteHead a = 1 := by
  have h := claim_C2 [(216670, 219193, []), (1, 2, [])]
  exact ⟨h.1, h.2.2.2.2.1 [(216670, 219193, [])] (1, 2, []) [] rfl⟩

/-- Refuting the claim's literal example: the compiled audio filter for the
interval (216670, 219193) ms does not contain `between(t,216.670,219.193)`
— the commas are escaped, so it contains `between(t\,216.670\,219.193)`
instead.  The same holds for the video filter. -/
theorem claim_C2_counterexample :
    hasSub ("between(t,216.670,219.193)".toList)
        (volume_filter [(216670, 219193, [])]) = false ∧
    hasSub ("between(t,216.670,219.193)".toList)
        (video_filter [(216670, 219193, [])]) = false ∧
    hasSub ("between(t\\,216.670\\,219.193)".toList)
        (volume_filter [(216670, 219193, [])]) = true := by
  refine ⟨by decide, by decide, by decide⟩

/-! The timeline merger: counters, timeslots and annotation ids
(claims C3 and C7). -/
theorem natRun_split (m : Nat) : ∀ s n,
    natRun s (m + n) = natRun s m ++ natRun (s + m) n := by
  induction m with
  | zero =>
    intro s n
    rw [Nat.zero_add, Nat.add_zero]
    rfl
  | succ m ih =>
    intro s n
    have h1 : m + 1 + n = (m + n) + 1 := by omega
    rw [h1, natRun, natRun, ih (s + 1) n, List.cons_append]
    have h2 : s + 1 + m = s + (m + 1) := by omega
    rw [h2]

theorem mem_natRun : ∀ n s a, a ∈ natRun s n ↔ s ≤ a ∧ a < s + n := by
  intro n
  induction n with
  | zero =>
    intro s a
    rw [natRun]
    simp only [List.not_mem_nil, false_iff]
    omega
  | succ n ih =>
    intro s a
    rw [natRun, List.mem_cons, ih (s + 1) a]
    omega

theorem count_natRun : ∀ n s a,
    (natRun s n).count a = if s ≤ a ∧ a < s + n then 1 else 0 := by
  intro n
  induction n with
  | zero =>
    intro s a
    rw [natRun]
    rw [if_neg (by omega)]
    rfl
  | succ n ih =>
    intro s a
    rw [natRun, List.count_cons, ih (s + 1) a]
    simp only [beq_iff_eq]
    split_ifs <;> omega

theorem nodup_natRun : ∀ n s, (natRun s n).Nodup := by
  intro n
  induction n with
  | zero => intro s; rw [natRun]; exact List.nodup_nil
  | succ n ih =>
    intro s
    rw [natRun, List.nodup_cons]
    refine ⟨fun hm => ?_, ih (s + 1)⟩
    have := (mem_natRun n (s + 1) s).1 hm
    omega

theorem cntR_cons (u : Utt) (us : List Utt) :
    cntR (u :: us) = (if u.rep.isSome then 1 else 0) + cntR us := by
  rw [cntR, cntR, List.filter_cons]
  by_cases h : u.rep.isSome
  · rw [if_pos h, if_pos h, List.length_cons]
    omega
  · rw [if_neg h, if_neg (by rw [Bool.not_eq_true] at h; rw [h]; exact
      Bool.false_ne_true)]
    omega

theorem cntT_cons (u : Utt) (us : List Utt) :
    cntT (u :: us) = (if u.trans.isSome then 1 else 0) + cntT us := by
  rw [cntT, cntT, List.filter_cons]
  by_cases h : u.trans.isSome
  · rw [if_pos h, if_pos h, List.length_cons]
    omega
  · rw [if_neg h, if_neg (by rw [Bool.not_eq_true] at h; rw [h]; exact
      Bool.false_ne_true)]
    omega

/-- One loop iteration: the state advances by `uttCnt u` annotation ids
and `2 * uttCnt u` timeslot ids, and the placed clips use exactly those
runs of ids. -/
theorem processUtt_spec (off aid ts : Nat) (u : Utt) :
    ∃ off2 O, processUtt (off, aid, ts) u =
        ((off2, aid + uttCnt u, ts + 2 * uttCnt u), O) ∧
      uttTsIds O = natRun ts (2 * uttCnt u) ∧
      uttAids O = natRun aid (uttCnt u) := by
  rcases hr : u.rep with _ | rc <;> rcases ht : u.trans with _ | tc
  · refine ⟨off + u.origClip.length,
      ⟨⟨off, ts, off + u.origClip.length, ts + 1, aid, u.origClip⟩,
        none, none⟩, ?_, ?_, ?_⟩
    · rw [processUtt]
      simp only [hr, ht]
      rw [show uttCnt u = 1 from by rw [uttCnt, hr, ht]; rfl]
    · show [ts, ts + 1] ++ ([] ++ []) = _
      rw [show uttCnt u = 1 from by rw [uttCnt, hr, ht]; rfl]
      rfl
    · show [aid] ++ ([] ++ []) = _
      rw [show uttCnt u = 1 from by rw [uttCnt, hr, ht]; rfl]
      rfl
  · refine ⟨off + u.origClip.length + tc.length,
      ⟨⟨off, ts, off + u.origClip.length, ts + 1, aid, u.origClip⟩, none,
        some ⟨off + u.origClip.length, ts + 2,
          off + u.origClip.length + tc.length, ts + 3, aid + 1, tc⟩⟩,
      ?_, ?_, ?_⟩
    · rw [processUtt]
      simp only [hr, ht]
      rw [show uttCnt u = 2 from by rw [uttCnt, hr, ht]; rfl]
    · show [ts, ts + 1] ++ ([] ++ [ts + 2, ts + 3]) = _
      rw [show uttCnt u = 2 from by rw [uttCnt, hr, ht]; rfl]
      show _ = ts :: (ts + 1) :: (ts + 1 + 1) :: (ts + 1 + 1 + 1) :: []
      rw [show ts + 1 + 1 = ts + 2 from by omega,
        show ts + 2 + 1 = ts + 3 from by omega]
      rfl
    · show [aid] ++ ([] ++ [aid + 1]) = _
      rw [show uttCnt u = 2 from by rw [uttCnt, hr, ht]; rfl]
      rfl
  · refine ⟨off + u.origClip.length + rc.length,
      ⟨⟨off, ts, off + u.origClip.length, ts + 1, aid, u.origClip⟩,
        some ⟨off + u.origClip.length, ts + 2,
          off + u.origClip.length + rc.length, ts + 3, aid + 1, rc⟩,
        none⟩, ?_, ?_, ?_⟩
    · rw [processUtt]
      simp only [hr, ht]
      rw [show uttCnt u = 2 from by rw [uttCnt, hr, ht]; rfl]
    · show [ts, ts + 1] ++ ([ts + 2, ts + 3] ++ []) = _
      rw [show uttCnt u = 2 from by rw [uttCnt, hr, ht]; rfl]
      show _ = ts :: (ts + 1) :: (ts + 1 + 1) :: (ts + 1 + 1 + 1) :: []
      rw [show ts + 1 + 1 = ts + 2 from by omega,
        show ts + 2 + 1 = ts + 3 from by omega]
      rfl
    · show [aid] ++ ([aid + 1] ++ []) = _
      rw [show uttCnt u = 2 from by rw [uttCnt, hr, ht]; rfl]
      rfl
  · refine ⟨off + u.origClip.length + rc.length + tc.length,
      ⟨⟨off, ts, off + u.origClip.length, ts + 1, aid, u.origClip⟩,
        some ⟨off + u.origClip.length, ts + 2,
          off + u.origClip.length + rc.length, ts + 3, aid + 1, rc⟩,
        some ⟨off + u.origClip.length + rc.length, ts + 4,
          off + u.origClip.length + rc.length + tc.length, ts + 5,
          aid + 2, tc⟩⟩, ?_, ?_, ?_⟩
    · rw [processUtt]
      simp only [hr, ht]
      rw [show uttCnt u = 3 from by rw [uttCnt, hr, ht]; rfl]
    · show [ts, ts + 1] ++ ([ts + 2, ts + 3] ++ [ts + 4, ts + 5]) = _
      rw [show uttCnt u = 3 from by rw [uttCnt, hr, ht]; rfl]
      show _ = ts :: (ts + 1) :: (ts + 1 + 1) :: (ts + 1 + 1 + 1) ::
        (ts + 1 + 1 + 1 + 1) :: (ts + 1 + 1 + 1 + 1 + 1) :: []
      rw [show ts + 1 + 1 = ts + 2 from by omega,
        show ts + 2 + 1 = ts + 3 from by omega,
        show ts + 3 + 1 = ts + 4 from by omega,
        show ts + 4 + 1 = ts + 5 from by omega]
      rfl
    · show [aid] ++ ([aid + 1] ++ [aid + 2]) = _
      rw [show uttCnt u = 3 from by rw [uttCnt, hr, ht]; rfl]
      show _ = aid :: (aid + 1) :: (aid + 1 + 1) :: []
      rw [show aid + 1 + 1 = aid + 2 from by omega]
      rfl

/-- The merge loop's counters and id layout: starting from
`(off, aid, ts)`, the loop allocates annotation ids `aid, aid+1, …` and
timeslot ids `ts, ts+1, …` contiguously, two timeslots per placed clip. -/
theorem processUtts_spec (us : List Utt) : ∀ off aid ts,
    (processUtts (off, aid, ts) us).1.2.1 =
      aid + (us.length + cntR us + cntT us) ∧
    (processUtts (off, aid, ts) us).1.2.2 =
      ts + 2 * (us.length + cntR us + cntT us) ∧
    tsIds (processUtts (off, aid, ts) us).2 =
      natRun ts (2 * (us.length + cntR us + cntT us)) ∧
    allAids (processUtts (off, aid, ts) us).2 =
      natRun aid (us.length + cntR us + cntT us) := by
  induction us with
  | nil =>
    intro off aid ts
    refine ⟨by simp [processUtts, cntR, cntT],
      by simp [processUtts, cntR, cntT], ?_, ?_⟩
    · simp only [cntR, cntT, List.filter_nil, List.length_nil, Nat.add_zero,
        Nat.mul_zero]
      rfl
    · simp only [cntR, cntT, List.filter_nil, List.length_nil, Nat.add_zero]
      rfl
  | cons u us ih =>
    intro off aid ts
    obtain ⟨off2, O, hp, hts, haid⟩ := processUtt_spec off aid ts u
    have hq : processUtts (off, aid, ts) (u :: us) =
        ((processUtts (off2, aid + uttCnt u, ts + 2 * uttCnt u) us).1,
          O :: (processUtts (off2, aid + uttCnt u, ts + 2 * uttCnt u) us).2) := by
      show ((processUtts (processUtt (off, aid, ts) u).1 us).1,
        (processUtt (off, aid, ts) u).2 ::
          (processUtts (processUtt (off, aid, ts) u).1 us).2) = _
      rw [hp]
    obtain ⟨ih1, ih2, ih3, ih4⟩ :=
      ih off2 (aid + uttCnt u) (ts + 2 * uttCnt u)
    have hcnt : (u :: us).length + cntR (u :: us) + cntT (u :: us) =
        uttCnt u + (us.length + cntR us + cntT us) := by
      rw [cntR_cons, cntT_cons, List.length_cons, uttCnt]
      omega
    refine ⟨?_, ?_, ?_, ?_⟩
    · rw [hq]
      show (processUtts (off2, aid + uttCnt u, ts + 2 * uttCnt u) us).1.2.1 = _
      rw [ih1, hcnt]
      omega
    · rw [hq]
      show (processUtts (off2, aid + uttCnt u, ts + 2 * uttCnt u) us).1.2.2 = _
      rw [ih2, hcnt]
      omega
    · rw [hq]
      show uttTsIds O ++
        tsIds (processUtts (off2, aid + uttCnt u, ts + 2 * uttCnt u) us).2 = _
      rw [hcnt, Nat.mul_add, natRun_split, hts, ih3]
    · rw [hq]
      show uttAids O ++
        allAids (processUtts (off2, aid + uttCnt u, ts + 2 * uttCnt u) us).2 = _
      rw [hcnt, natRun_split, haid, ih4]

theorem length_natRun : ∀ n s, (natRun s n).length = n := by
  intro n
  induction n with
  | zero => intro s; rfl
  | succ n ih =>
    intro s
    rw [natRun, List.length_cons, ih (s + 1)]

theorem genAudio_len (us : List Utt) :
    (genAudio us).1.length = (genAudio us).2.1.length ∧
    (genAudio us).2.1.length = (genAudio us).2.2.length := by
  induction us with
  | nil => exact ⟨rfl, rfl⟩
  | cons u us ih =>
    obtain ⟨ih1, ih2⟩ := ih
    rcases hr : u.rep with _ | rc <;> rcases ht : u.trans with _ | tc <;>
      simp only [genAudio, hr, ht, silentClip, List.length_append,
        List.length_replicate] <;>
      exact ⟨by omega, by omega⟩

/-- C3: for every utterance sequence, the three `generate_audio` output
tracks have equal total duration, and the merge loop allocates exactly
`2 × (number of original clips + number of repetition clips + number of
translation clips)` timeslot ids (the counter starts at 1, and that many
`TIME_SLOT` entries are emitted). -/
theorem claim_C3 (us : List Utt) :
    (genAudio us).1.length = (genAudio us).2.1.length ∧
    (genAudio us).2.1.length = (genAudio us).2.2.length ∧
    (mergeOut us).1.2.2 - 1 =
      2 * (us.length + cntR us + cntT us) ∧
    (tsIds (mergeOut us).2).length =
      2 * (us.length + cntR us + cntT us) := by
  obtain ⟨g1, g2⟩ := genAudio_len us
  obtain ⟨_, h2, h3, _⟩ := processUtts_spec us 0 1 1
  refine ⟨g1, g2, ?_, ?_⟩
  · show (processUtts (0, 1, 1) us).1.2.2 - 1 = _
    rw [h2]
    omega
  · show (tsIds (processUtts (0, 1, 1) us).2).length = _
    rw [h3, length_natRun]

theorem tierTsRefs_count (n : Nat) :
    ∀ outs, (tierTsRefs outs).count n = (tsIds outs).count n := by
  intro outs
  induction outs with
  | nil => rfl
  | cons o os ih =>
    simp only [tierTsRefs, origTsRefs, repTsRefs, transTsRefs, tsIds,
      uttTsIds, List.map_cons, List.flatten_cons,
      List.count_append] at ih ⊢
    omega

theorem tierAids_count (n : Nat) :
    ∀ outs, (tierAids outs).count n = (allAids outs).count n := by
  intro outs
  induction outs with
  | nil => rfl
  | cons o os ih =>
    rcases hr : o.rep with _ | r <;> rcases ht : o.trans with _ | t <;>
      simp only [tierAids, origAids, repAids, transAids, allAids, uttAids,
        hr, ht, Option.map_none', Option.map_some', List.map_cons,
        List.flatten_cons, List.filterMap_cons, List.count_append,
        List.count_cons, List.cons_append, List.nil_append,
        List.count_nil] at ih ⊢ <;>
      omega

theorem numberRefs_map_fst :
    ∀ (l : List Nat) (s : Nat), (numberRefs s l).map Prod.fst = natRun s l.length := by
  intro l
  induction l with
  | nil => intro s; rfl
  | cons a as ih =>
    intro s
    rw [numberRefs, List.map_cons, List.length_cons, natRun, ih (s + 1)]

theorem numberRefs_map_snd :
    ∀ (l : List Nat) (s : Nat), (numberRefs s l).map Prod.snd = l := by
  intro l
  induction l with
  | nil => intro s; rfl
  | cons a as ih =>
    intro s
    rw [numberRefs, List.map_cons, ih (s + 1)]

theorem refTiers_ids (outs : List UttOut) (L : Nat) :
    (refTiers outs L).map Prod.fst =
      natRun L (2 * (origAids outs).length + (repAids outs).length +
        (transAids outs).length) := by
  rw [refTiers]
  simp only [List.map_append]
  rw [numberRefs_map_fst, numberRefs_map_fst, numberRefs_map_fst,
    numberRefs_map_fst]
  have h : 2 * (origAids outs).length + (repAids outs).length +
      (transAids outs).length =
    (origAids outs).length + ((origAids outs).length +
      ((repAids outs).length + (transAids outs).length)) := by omega
  rw [h, natRun_split, natRun_split, natRun_split]
  have e1 : L + (origAids outs).length + (origAids outs).length =
      L + 2 * (origAids outs).length := by omega
  rw [e1]

theorem refTiers_targets (outs : List UttOut) (L : Nat) :
    (refTiers outs L).map Prod.snd = annRefs outs := by
  rw [refTiers, annRefs]
  simp only [List.map_append]
  rw [numberRefs_map_snd, numberRefs_map_snd, numberRefs_map_snd,
    numberRefs_map_snd]

/-- C7 (amended: aligned annotation ids of the `Original` tier are
referenced twice — once by `Original-ID`, once by `Original-Source` — and
the referential annotations' own ids are never referenced): after a merge
run, the timeslot ids are the contiguous run starting at 1, pairwise
distinct, and each is referenced by exactly one aligned annotation; the
aligned annotation ids are a permutation of the contiguous run starting at
1; all annotation ids of the document (aligned and referential, the latter
continuing from the `last_annotation_id` template variable, which skips
one id) are pairwise distinct; and each `Repetition`/`Translation` aligned
id is referenced exactly once, each `Original` aligned id exactly twice,
and each referential id never. -/
theorem claim_C7 (us : List Utt) :
    tsIds (mergeOut us).2 =
      natRun 1 (2 * (us.length + cntR us + cntT us)) ∧
    List.Perm (tierTsRefs (mergeOut us).2) (tsIds (mergeOut us).2) ∧
    (tsIds (mergeOut us).2).Nodup ∧
    (∀ t ∈ tsIds (mergeOut us).2,
      (tierTsRefs (mergeOut us).2).count t = 1) ∧
    List.Perm (tierAids (mergeOut us).2)
      (natRun 1 (us.length + cntR us + cntT us)) ∧
    (tierAids (mergeOut us).2 ++
      (refTiers (mergeOut us).2 ((mergeOut us).1.2.1 + 1)).map
        Prod.fst).Nodup ∧
    (refTiers (mergeOut us).2 ((mergeOut us).1.2.1 + 1)).map Prod.snd =
      annRefs (mergeOut us).2 ∧
    (∀ a ∈ origAids (mergeOut us).2, (annRefs (mergeOut us).2).count a = 2) ∧
    (∀ a ∈ repAids (mergeOut us).2, (annRefs (mergeOut us).2).count a = 1) ∧
    (∀ a ∈ transAids (mergeOut us).2,
      (annRefs (mergeOut us).2).count a = 1) ∧
    (∀ a ∈ (refTiers (mergeOut us).2 ((mergeOut us).1.2.1 + 1)).map Prod.fst,
      (annRefs (mergeOut us).2).count a = 0) := by
  obtain ⟨h1, _, h3, h4⟩ := processUtts_spec us 0 1 1
  have hts : tsIds (mergeOut us).2 =
      natRun 1 (2 * (us.length + cntR us + cntT us)) := h3
  have haid : allAids (mergeOut us).2 =
      natRun 1 (us.length + cntR us + cntT us) := h4
  have haidF : (mergeOut us).1.2.1 = 1 + (us.length + cntR us + cntT us) := h1
  have hpermTs : List.Perm (tierTsRefs (mergeOut us).2)
      (tsIds (mergeOut us).2) :=
    List.perm_iff_count.mpr fun n => tierTsRefs_count n (mergeOut us).2
  have hpermA : List.Perm (tierAids (mergeOut us).2)
      (natRun 1 (us.length + cntR us + cntT us)) := by
    rw [← haid]
    exact List.perm_iff_count.mpr fun n => tierAids_count n (mergeOut us).2
  have hnodupA : (tierAids (mergeOut us).2).Nodup :=
    (List.Perm.nodup_iff hpermA).mpr (nodup_natRun _ _)
  have hcountA : ∀ a, (tierAids (mergeOut us).2).count a ≤ 1 :=
    List.nodup_iff_count_le_one.mp hnodupA
  have hcountSplit : ∀ a, (tierAids (mergeOut us).2).count a =
      (origAids (mergeOut us).2).count a +
      (repAids (mergeOut us).2).count a +
      (transAids (mergeOut us).2).count a := by
    intro a
    rw [tierAids, List.count_append, List.count_append]
  have hannRefs : ∀ a, (annRefs (mergeOut us).2).count a =
      2 * (origAids (mergeOut us).2).count a +
      (repAids (mergeOut us).2).count a +
      (transAids (mergeOut us).2).count a := by
    intro a
    rw [annRefs, List.count_append, List.count_append, List.count_append]
    omega
  refine ⟨hts, hpermTs, hts ▸ nodup_natRun _ _, ?_, hpermA, ?_,
    refTiers_targets _ _, ?_, ?_, ?_, ?_⟩
  · intro t htmem
    rw [tierTsRefs_count t, hts, count_natRun]
    rw [hts, mem_natRun] at htmem
    rw [if_pos htmem]
  · rw [refTiers_ids]
    refine List.Nodup.append hnodupA (nodup_natRun _ _) ?_
    intro a hmem hmem2
    have hb1 := (mem_natRun _ _ _).1 ((hpermA.mem_iff).1 hmem)
    have hb2 := (mem_natRun _ _ _).1 hmem2
    omega
  · intro a hmem
    have hpos := List.count_pos_iff.mpr hmem
    have := hcountA a
    rw [hcountSplit a] at this
    rw [hannRefs a]
    omega
  · intro a hmem
    have hpos := List.count_pos_iff.mpr hmem
    have := hcountA a
    rw [hcountSplit a] at this
    rw [hannRefs a]
    omega
  · intro a hmem
    have hpos := List.count_pos_iff.mpr hmem
    have := hcountA a
    rw [hcountSplit a] at this
    rw [hannRefs a]
    omega
  · intro a hmem
    rw [refTiers_ids] at hmem
    have hb := (mem_natRun _ _ _).1 hmem
    have hnm : a ∉ tierAids (mergeOut us).2 := by
      intro hin
      have := (mem_natRun _ _ _).1 ((hpermA.mem_iff).1 hin)
      omega
    have h0 : (tierAids (mergeOut us).2).count a = 0 :=
      List.count_eq_zero_of_not_mem hnm
    rw [hcountSplit a] at h0
    rw [hannRefs a]
    omega

/-- Witness for C7 on one utterance with a repetition clip: timeslot 1 is
referenced once, and the original aligned annotation id 1 twice. -/
theorem claim_C7_witness :
    (tierTsRefs (mergeOut [⟨[0, 0], some [0], none⟩]).2).count 1 = 1 ∧
    (annRefs (mergeOut [⟨[0, 0], some [0], none⟩]).2).count 1 = 2 := by
  have h := claim_C7 [⟨[0, 0], some [0], none⟩]
  exact ⟨h.2.2.2.1 1 (by decide), h.2.2.2.2.2.2.2.1 1 (by decide)⟩

/-- Refuting the claim's "each is referenced exactly once": in a
single-utterance merge, the original aligned annotation (id 1) is the
`ANNOTATION_REF` target of both the `Original-ID` and the
`Original-Source` referential annotation, hence referenced twice. -/
theorem claim_C7_counterexample :
    origAids (mergeOut [⟨[0], none, none⟩]).2 = [1] ∧
    ¬ (annRefs (mergeOut [⟨[0], none, none⟩]).2).count 1 = 1 ∧
    (annRefs (mergeOut [⟨[0], none, none⟩]).2).count 1 = 2 := by
  refine ⟨by decide, by decide, by decide⟩

/-- C8: the failure half of the claim holds — a failed probe yields the
sentinel `-1` instead of raising — but the review window is *not* left
unclamped: for the segment (216670, 219193) ms the code computes
`end_ms = min(219193 + 1000, -1) = -1`, not the claimed unclamped
`220193`; the resulting clip bounds are `(215670, -1)`. -/
theorem claim_C8 :
    get_duration_ms none = -1 ∧
    reviewClipBounds 216670 219193 (get_duration_ms none) = (215670, -1) ∧
    ¬ reviewClipBounds 216670 219193 (get_duration_ms none) =
      (215670, 220193) ∧
    reviewClipBounds 216670 219193 (get_duration_ms (some (3547776, 16000)))
      = (215670, 220193) := by
  refine ⟨by decide, by decide, by decide, by decide⟩

/-- C9 (amended: there are four child tiers, not three — the three `-ID`
tiers and `Original-Source`): every merged document declares exactly four
top-level tiers, `Original`, `Repetition`, `Translation` and
`Postprocess`, plus exactly four child tiers: `Original-ID`,
`Repetition-ID` and `Translation-ID` of linguistic type
`oral-annotation-id`, and `Original-Source` of linguistic type
`oral-annotation-source`. -/
theorem claim_C9 :
    (templateTiers.filter fun t => t.2.1.isNone).map (fun t => t.1) =
      ["Original", "Repetition", "Translation", "Postprocess"] ∧
    (templateTiers.filter fun t => t.2.1.isSome).length = 4 ∧
    (templateTiers.filter fun t => t.2.2 == "oral-annotation-id").map
        (fun t => t.1) =
      ["Original-ID", "Repetition-ID", "Translation-ID"] ∧
    (templateTiers.filter fun t => t.2.2 == "oral-annotation-source").map
        (fun t => t.1) =
      ["Original-Source"] := by
  refine ⟨by decide, by decide, by decide, by decide⟩

/-- Refuting "exactly three ID/Source child tiers": the template declares
four tiers with a `PARENT_REF`. -/
theorem claim_C9_counterexample :
    ¬ (templateTiers.filter fun t => t.2.1.isSome).length = 3 ∧
    (templateTiers.filter fun t => t.2.1.isSome).map (fun t => t.1) =
      ["Original-ID", "Original-Source", "Repetition-ID",
        "Translation-ID"] := by
  refine ⟨by decide, by decide⟩

/-! The pre-check and the redaction orchestrator (claim C10). -/
theorem precheck_cons (c : Char) (t : List Char) :
    precheck (c :: t) =
      ((c == '[' && (wordAfter t ||
        (match t with
         | '/' :: r => wordAfter r
         | _ => false))) || precheck t) := rfl

theorem precheck_mono : ∀ u v, precheck v = true → precheck (u ++ v) = true := by
  intro u
  induction u with
  | nil => intro v h; exact h
  | cons c u' ih =>
    intro v h
    rw [List.cons_append, precheck_cons, ih v h, Bool.or_true]

theorem precheck_head (v : List Char) (hv : wordAfter v = true) :
    precheck ('[' :: v) = true := by
  rw [precheck_cons, hv]
  simp

theorem wordAfter_append (w r : List Char) (h : wordAfter w = true) :
    wordAfter (w ++ r) = true := by
  rw [wordAfter] at h
  rw [wordAfter]
  rw [Bool.or_eq_true, Bool.or_eq_true] at h
  rcases h with (h | h) | h
  · rw [isPre_append_of_isPre h r]
    simp
  · rw [isPre_append_of_isPre h r]
    simp
  · rw [isPre_append_of_isPre h r]
    simp

theorem precheck_of_patOcc {opn mid fin : List Char} {s : List Char}
    (hw : wordAfter opn = true) (h : patOcc '[' opn mid fin s) :
    precheck s = true := by
  obtain ⟨u, r, hs, _, _⟩ := h
  rw [hs, List.cons_append]
  exact precheck_mono u _ (precheck_head _ (wordAfter_append opn r hw))

/-- Pre-check soundness: a string the pre-check regex does not match is
a fixpoint of every redaction pass, hence of `anonymize_text`. -/
theorem anonymize_text_fix (s : List Char) (h : precheck s = false) :
    anonymize_text s = s := by
  have h1 : ¬ patOcc '[' anonNameOpn [] anonFin s := fun hp => by
    have := precheck_of_patOcc (by decide) hp
    rw [h] at this
    cases this
  have h2 : ¬ patOcc '[' nameTagOpn [] nameTagFin s := fun hp => by
    have := precheck_of_patOcc (by decide) hp
    rw [h] at this
    cases this
  have h3 : ¬ patOcc '[' anonAnyOpn anonMid anonFin s := fun hp => by
    have := precheck_of_patOcc (by decide) hp
    rw [h] at this
    cases this
  have h4 : ¬ patOcc '[' sensTagOpn [] sensTagFin s := fun hp => by
    have := precheck_of_patOcc (by decide) hp
    rw [h] at this
    cases this
  show sub4 (sub3 (sub2 (sub1 s))) = s
  rw [sub1, reSub2_fix_of_not_patOcc s h1, sub2,
    reSub2_fix_of_not_patOcc s h2, sub3, reSub2_fix_of_not_patOcc s h3,
    sub4, reSub2_fix_of_not_patOcc s h4]

theorem look_mem {α : Type} {k : String} {v : α} :
    ∀ {l : List (String × α)}, look k l = some v → (k, v) ∈ l := by
  intro l
  induction l with
  | nil => intro h; cases h
  | cons p rest ih =>
    intro h
    obtain ⟨k', v'⟩ := p
    rw [look] at h
    by_cases hk : k' = k
    · rw [if_pos hk] at h
      cases h
      subst hk
      exact List.mem_cons_self _ _
    · rw [if_neg hk] at h
      exact List.mem_cons_of_mem _ (ih h)

/-- Whether `updAligned` succeeds does not depend on the written value. -/
theorem updAligned_isSome {ts : List (String × Nat)} {s e : Nat}
    {v w : List Char} :
    ∀ {l l2 : List (String × AlignedAnn)}, updAligned ts s e v l = some l2 →
      ∃ l3, updAligned ts s e w l = some l3 := by
  intro l
  induction l with
  | nil => intro l2 _; exact ⟨[], rfl⟩
  | cons p rest ih =>
    intro l2 h
    obtain ⟨aid, a⟩ := p
    rw [updAligned] at h ⊢
    split at h
    next => cases h
    next m1 hm1 =>
      split at h
      next hs =>
        rw [if_pos hs]
        split at h
        next => cases h
        next m2 hm2 =>
          split at h
          next he =>
            rw [if_pos he]
            exact ⟨_, rfl⟩
          next he =>
            rw [if_neg he]
            obtain ⟨rl, hrl, _⟩ := Option.map_eq_some'.1 h
            obtain ⟨l3, hl3⟩ := ih hrl
            rw [hl3]
            exact ⟨_, rfl⟩
      next hs =>
        rw [if_neg hs]
        obtain ⟨rl, hrl, _⟩ := Option.map_eq_some'.1 h
        obtain ⟨l3, hl3⟩ := ih hrl
        rw [hl3]
        exact ⟨_, rfl⟩

/-- A no-op scan stays a no-op after rewriting the value of an annotation
whose effective span differs from the scanned one. -/
theorem updAligned_stable {ts : List (String × Nat)} {s e sq eq2 : Nat}
    {vq w : List Char} (hne : ¬ (s = sq ∧ e = eq2)) {a : AlignedAnn}
    (hsp1 : look a.ts1 ts = some s) (hsp2 : look a.ts2 ts = some e) :
    ∀ (pre post : List (String × AlignedAnn)) (aid : String),
      updAligned ts sq eq2 vq (pre ++ (aid, a) :: post) =
        some (pre ++ (aid, a) :: post) →
      updAligned ts sq eq2 vq (pre ++ (aid, { a with value := w }) :: post) =
        some (pre ++ (aid, { a with value := w }) :: post) := by
  intro pre
  induction pre with
  | nil =>
    intro post aid h
    rw [List.nil_append] at h ⊢
    rw [updAligned] at h ⊢
    have e1 : ({ a with value := w } : AlignedAnn).ts1 = a.ts1 := rfl
    have e2 : ({ a with value := w } : AlignedAnn).ts2 = a.ts2 := rfl
    rw [e1, e2]
    split at h
    next hm1 =>
      rw [hsp1] at hm1
      cases hm1
    next m1 hm1 =>
      have hm1s : m1 = s := by
        rw [hsp1] at hm1
        exact (Option.some.inj hm1).symm
      subst hm1s
      by_cases hs : m1 = sq
      · rw [if_pos hs] at h ⊢
        split at h
        next hm2 =>
          rw [hsp2] at hm2
          cases hm2
        next m2 hm2 =>
          have hm2e : m2 = e := by
            rw [hsp2] at hm2
            exact (Option.some.inj hm2).symm
          subst hm2e
          have he : ¬ m2 = eq2 := fun he2 => hne ⟨hs, he2⟩
          rw [if_neg he] at h ⊢
          obtain ⟨rl, hrl, hl⟩ := Option.map_eq_some'.1 h
          injection hl with _ hl2
          subst hl2
          rw [hrl]
          rfl
      · rw [if_neg hs] at h ⊢
        obtain ⟨rl, hrl, hl⟩ := Option.map_eq_some'.1 h
        injection hl with _ hl2
        subst hl2
        rw [hrl]
        rfl
  | cons q pre' ih =>
    intro post aid h
    obtain ⟨qid, qa⟩ := q
    rw [List.cons_append] at h ⊢
    rw [updAligned] at h ⊢
    split at h
    next => cases h
    next m1 hm1 =>
      split at h
      next hs =>
        rw [if_pos hs]
        split at h
        next => cases h
        next m2 hm2 =>
          split at h
          next he2 =>
            rw [if_pos he2]
            have hq := Option.some.inj h
            injection hq with hq1 _
            rw [hq1]
          next he2 =>
            rw [if_neg he2]
            obtain ⟨rl, hrl, hl⟩ := Option.map_eq_some'.1 h
            injection hl with _ hl2
            subst hl2
            rw [ih post aid hrl]
            rfl
      next hs =>
        rw [if_neg hs]
        obtain ⟨rl, hrl, hl⟩ := Option.map_eq_some'.1 h
        injection hl with _ hl2
        subst hl2
        rw [ih post aid hrl]
        rfl

/-- On a tier whose resolved spans are pairwise distinct, writing each
annotation's own (snapshot) value back is a no-op scan. -/
theorem resolveAligned_noop {ts : List (String × Nat)} :
    ∀ {l : List (String × AlignedAnn)} {anns},
      resolveAligned ts l = some anns →
      (anns.map fun q => (q.1, q.2.1)).Nodup →
      ∀ p ∈ anns, updAligned ts p.1 p.2.1 p.2.2 l = some l := by
  intro l
  induction l with
  | nil =>
    intro anns h _ p hp
    rw [resolveAligned] at h
    cases h
    cases hp
  | cons q rest ih =>
    intro anns h hnd p hp
    obtain ⟨qid, qa⟩ := q
    rw [resolveAligned] at h
    cases hl1 : look qa.ts1 ts with
    | none =>
      rw [hl1] at h
      cases h
    | some s0 =>
      cases hl2 : look qa.ts2 ts with
      | none =>
        rw [hl1, hl2] at h
        cases h
      | some e0 =>
        rw [hl1, hl2] at h
        obtain ⟨anns', hres, hanns⟩ := Option.map_eq_some'.1 h
        subst hanns
        rw [List.map_cons, List.nodup_cons] at hnd
        obtain ⟨hnotmem, hnd'⟩ := hnd
        rcases List.mem_cons.1 hp with rfl | hp2
        · simp only [updAligned, hl1, hl2, if_pos]
        · have hneq : ¬ ((s0, e0) : Nat × Nat) = (p.1, p.2.1) := fun heq =>
            hnotmem (heq ▸ List.mem_map_of_mem _ hp2)
          by_cases hps : s0 = p.1
          · have hpe : ¬ e0 = p.2.1 := fun he => hneq (by rw [hps, he])
            simp only [updAligned, hl1, hl2]
            rw [if_pos hps, if_neg hpe, ih hres hnd' p hp2]
            rfl
          · simp only [updAligned, hl1, hl2]
            rw [if_neg hps, ih hres hnd' p hp2]
            rfl

/-- A no-op scan makes `set_aligned_annotation` leave the store exactly
unchanged. -/
theorem setAlignedValue_id {tr : Transcript} {tier : String} {T : Tier}
    (hT : look tier tr.tiers = some T) {s e : Nat} {v : List Char}
    (hno : updAligned tr.timeslots s e v T.aligned = some T.aligned) :
    setAlignedValue tr tier s e v = some tr := by
  simp only [setAlignedValue, hT, hno]
  rw [show ({ T with aligned := T.aligned } : Tier) = T from rfl,
    updTier_self _ hT]

theorem map_shape_updTier {tier : String} {T T' : Tier}
    (hsh : tierShape T' = tierShape T) :
    ∀ l : List (String × Tier), look tier l = some T →
      (updTier tier T' l).map (fun p => (p.1, tierShape p.2)) =
        l.map (fun p => (p.1, tierShape p.2)) := by
  intro l
  induction l with
  | nil => intro h; cases h
  | cons q rest ih =>
    intro h
    obtain ⟨k, Tk⟩ := q
    rw [look] at h
    rw [updTier]
    by_cases hk : k = tier
    · rw [if_pos hk] at h ⊢
      cases h
      rw [List.map_cons, List.map_cons, hsh]
    · rw [if_neg hk] at h ⊢
      rw [List.map_cons, List.map_cons, ih h]

theorem docShape_updTier {tr : Transcript} {tier : String} {T T' : Tier}
    (hT : look tier tr.tiers = some T) (hsh : tierShape T' = tierShape T) :
    docShape { tr with tiers := updTier tier T' tr.tiers } = docShape tr := by
  rw [docShape, docShape]
  rw [show ({ tr with tiers := updTier tier T' tr.tiers } : Transcript).tiers
    = updTier tier T' tr.tiers from rfl]
  rw [map_shape_updTier hsh tr.tiers hT]

/-- The guarded and the unconditional inner loop agree on a time-alignable
tier whose snapshot spans are pairwise distinct and no-op-scannable, and
both only rewrite values. -/
theorem runAligned_eq (tier : String) :
    ∀ (anns : List (Nat × Nat × List Char)) (tr : Transcript) (T : Tier),
      look tier tr.tiers = some T →
      (∀ p ∈ anns, updAligned tr.timeslots p.1 p.2.1 p.2.2 T.aligned =
        some T.aligned) →
      (anns.map fun p => (p.1, p.2.1)).Nodup →
      runAligned true tier tr anns = runAligned false tier tr anns ∧
      ∃ tr2, runAligned false tier tr anns = some tr2 ∧
        docShape tr2 = docShape tr := by
  intro anns
  induction anns with
  | nil =>
    intro tr T hT hno hnd
    exact ⟨rfl, tr, rfl, rfl⟩
  | cons p rest ih =>
    intro tr T hT hno hnd
    obtain ⟨s, e, v⟩ := p
    have hnoHead := hno (s, e, v) (List.mem_cons_self _ _)
    have hnoRest : ∀ q ∈ rest,
        updAligned tr.timeslots q.1 q.2.1 q.2.2 T.aligned = some T.aligned :=
      fun q hq => hno q (List.mem_cons_of_mem _ hq)
    rw [List.map_cons, List.nodup_cons] at hnd
    obtain ⟨hnotmem, hnd'⟩ := hnd
    cases hpc : precheck v with
    | false =>
      have hanon : anonymize_text v = v := anonymize_text_fix v hpc
      have hcondT : (true && !precheck v) = true := by rw [hpc]; rfl
      have hcondF : ¬ ((false && !precheck v) = true) := by simp
      have hsetid : setAlignedValue tr tier s e (anonymize_text v) =
          some tr := by
        rw [hanon]
        exact setAlignedValue_id hT hnoHead
      have hL : runAligned true tier tr ((s, e, v) :: rest) =
          runAligned true tier tr rest := by
        rw [runAligned, if_pos hcondT]
      have hR : runAligned false tier tr ((s, e, v) :: rest) =
          runAligned false tier tr rest := by
        rw [runAligned, if_neg hcondF, hsetid]
      obtain ⟨heq, tr2, hrun2, hsh2⟩ := ih tr T hT hnoRest hnd'
      refine ⟨by rw [hL, hR, heq], tr2, by rw [hR, hrun2], hsh2⟩
    | true =>
      have hcondT : ¬ ((true && !precheck v) = true) := by
        rw [hpc]
        simp
      have hcondF : ¬ ((false && !precheck v) = true) := by simp
      obtain ⟨l2, hl2⟩ := @updAligned_isSome tr.timeslots s e v
        (anonymize_text v) T.aligned T.aligned hnoHead
      have hex : ∃ tr2, setAlignedValue tr tier s e (anonymize_text v) =
          some tr2 ∧
          tr2.tiers = updTier tier ({ T with aligned := l2 }) tr.tiers ∧
          tr2.timeslots = tr.timeslots :=
        ⟨{ tr with tiers := updTier tier ({ T with aligned := l2 }) tr.tiers },
          by simp only [setAlignedValue, hT, hl2], rfl, rfl⟩
      obtain ⟨tr2, hset, htiers2, hts2⟩ := hex
      have hT2 : look tier tr2.tiers = some ({ T with aligned := l2 }) := by
        rw [htiers2]
        exact look_updTier_self _ ⟨T, hT⟩
      have hshape : alShape l2 = alShape T.aligned := by
        rcases updAligned_spec hl2 with ⟨_, rfl⟩ |
          ⟨pre, aid, a, post, hTa, hl2d, _, _⟩
        · rfl
        · rw [hl2d, hTa, alShape, alShape, List.map_append, List.map_append,
            List.map_cons, List.map_cons]
      have hno2 : ∀ q ∈ rest,
          updAligned tr2.timeslots q.1 q.2.1 q.2.2
            ({ T with aligned := l2 } : Tier).aligned =
          some ({ T with aligned := l2 } : Tier).aligned := by
        intro q hq
        rw [hts2]
        show updAligned tr.timeslots q.1 q.2.1 q.2.2 l2 = some l2
        rcases updAligned_spec hl2 with ⟨_, rfl⟩ |
          ⟨pre, aid, a, post, hTa, hl2d, hspan, _⟩
        · exact hnoRest q hq
        · have hne : ¬ (s = q.1 ∧ e = q.2.1) := fun hh =>
            hnotmem (show ((s, e) : Nat × Nat) ∈ rest.map fun p =>
              (p.1, p.2.1) from by
                rw [hh.1, hh.2]
                exact List.mem_map_of_mem _ hq)
          have hq0 := hnoRest q hq
          rw [hTa] at hq0
          rw [hl2d]
          exact updAligned_stable hne hspan.1 hspan.2 pre post aid hq0
      have hdoc : docShape tr2 = docShape tr := by
        have h2 : tr2 = { tr with tiers := updTier tier ({ T with aligned := l2 }) tr.tiers } := by
          cases tr2
          cases htiers2
          cases hts2
          rfl
        rw [h2]
        refine docShape_updTier hT ?_
        show (alShape l2, refShape T.refs, T.parentRef) =
          (alShape T.aligned, refShape T.refs, T.parentRef)
        rw [hshape]
      have hL : runAligned true tier tr ((s, e, v) :: rest) =
          runAligned true tier tr2 rest := by
        rw [runAligned, if_neg hcondT, hset]
      have hR : runAligned false tier tr ((s, e, v) :: rest) =
          runAligned false tier tr2 rest := by
        rw [runAligned, if_neg hcondF, hset]
      obtain ⟨heq, tr3, hrun3, hsh3⟩ := ih _ _ hT2 hno2 hnd'
      refine ⟨by rw [hL, hR, heq], tr3, by rw [hR, hrun3], ?_⟩
      rw [hsh3, hdoc]

theorem updRef_cons {tiers : List (String × Tier)} {ts : List (String × Nat)}
    {pt : String} {s e : Nat} {v : List Char} {PT : Tier}
    (h1 : look pt tiers = some PT) (rid : String) (r : RefAnn)
    (rest : List (String × RefAnn)) :
    updRef tiers ts pt s e v ((rid, r) :: rest) =
      updRefStep PT.aligned ts s e v rid r rest
        (updRef tiers ts pt s e v rest) := by
  rw [updRef, h1]
  rfl

theorem updRef_congr {tiers1 tiers2 : List (String × Tier)}
    {ts : List (String × Nat)} {pt : String} {s e : Nat} {v : List Char}
    (hV : (look pt tiers1).map (fun T => T.aligned) =
      (look pt tiers2).map (fun T => T.aligned)) :
    ∀ l, updRef tiers1 ts pt s e v l = updRef tiers2 ts pt s e v l := by
  intro l
  induction l with
  | nil => rfl
  | cons q rest ih =>
    obtain ⟨rid, r⟩ := q
    cases h1 : look pt tiers1 with
    | none =>
      have h2 : look pt tiers2 = none := by
        rw [h1] at hV
        cases hl : look pt tiers2 with
        | none => rfl
        | some PT2 =>
          rw [hl] at hV
          cases hV
      rw [updRef, updRef, h1, h2]
    | some PT1 =>
      have h2 : ∃ PT2, look pt tiers2 = some PT2 ∧
          PT2.aligned = PT1.aligned := by
        rw [h1] at hV
        cases hl : look pt tiers2 with
        | none =>
          rw [hl] at hV
          cases hV
        | some PT2 =>
          rw [hl] at hV
          exact ⟨PT2, rfl, (Option.some.inj hV).symm⟩
      obtain ⟨PT2, h2, hal⟩ := h2
      rw [updRef_cons h1, updRef_cons h2, hal, ih]

/-- Whether `updRef` succeeds does not depend on the written value. -/
theorem updRef_isSome {tiers : List (String × Tier)}
    {ts : List (String × Nat)} {pt : String} {s e : Nat}
    {v w : List Char} :
    ∀ {l l2 : List (String × RefAnn)},
      updRef tiers ts pt s e v l = some l2 →
      ∃ l3, updRef tiers ts pt s e w l = some l3 := by
  intro l
  induction l with
  | nil => intro l2 _; exact ⟨[], rfl⟩
  | cons p rest ih =>
    intro l2 h
    obtain ⟨rid, r⟩ := p
    rw [updRef] at h ⊢
    split at h
    next => cases h
    next PT hPT =>
      split at h
      next => cases h
      next pa hpa =>
        split at h
        next => cases h
        next m1 hm1 =>
          split at h
          next hs =>
            rw [if_pos hs]
            split at h
            next => cases h
            next m2 hm2 =>
              split at h
              next he =>
                rw [if_pos he]
                exact ⟨_, rfl⟩
              next he =>
                rw [if_neg he]
                obtain ⟨rl, hrl, _⟩ := Option.map_eq_some'.1 h
                obtain ⟨l3, hl3⟩ := ih hrl
                rw [hl3]
                exact ⟨_, rfl⟩
          next hs =>
            rw [if_neg hs]
            obtain ⟨rl, hrl, _⟩ := Option.map_eq_some'.1 h
            obtain ⟨l3, hl3⟩ := ih hrl
            rw [hl3]
            exact ⟨_, rfl⟩

/-- A no-op referential scan stays a no-op after rewriting the value of a
referential annotation whose effective (parent) span differs from the
scanned one. -/
theorem updRef_stable {tiers : List (String × Tier)}
    {ts : List (String × Nat)} {pt : String} {s e sq eq2 : Nat}
    {vq w : List Char} (hne : ¬ (s = sq ∧ e = eq2)) {r : RefAnn}
    {PT : Tier} {pa : AlignedAnn} (hPT : look pt tiers = some PT)
    (hpa : look r.parentAnn PT.aligned = some pa)
    (hsp1 : look pa.ts1 ts = some s) (hsp2 : look pa.ts2 ts = some e) :
    ∀ (pre post : List (String × RefAnn)) (rid : String),
      updRef tiers ts pt sq eq2 vq (pre ++ (rid, r) :: post) =
        some (pre ++ (rid, r) :: post) →
      updRef tiers ts pt sq eq2 vq
          (pre ++ (rid, { r with value := w }) :: post) =
        some (pre ++ (rid, { r with value := w }) :: post) := by
  intro pre
  induction pre with
  | nil =>
    intro post rid h
    rw [List.nil_append] at h ⊢
    rw [updRef] at h ⊢
    have e1 : ({ r with value := w } : RefAnn).parentAnn = r.parentAnn := rfl
    rw [e1]
    split at h
    next hPT2 =>
      rw [hPT] at hPT2
      cases hPT2
    next PT2 hPT2 =>
      have hPT2e : PT2 = PT := by
        rw [hPT] at hPT2
        exact (Option.some.inj hPT2).symm
      subst hPT2e
      split at h
      next hpa2 =>
        rw [hpa] at hpa2
        cases hpa2
      next pa2 hpa2 =>
        have hpa2e : pa2 = pa := by
          rw [hpa] at hpa2
          exact (Option.some.inj hpa2).symm
        subst hpa2e
        split at h
        next hm1 =>
          rw [hsp1] at hm1
          cases hm1
        next m1 hm1 =>
          have hm1s : m1 = s := by
            rw [hsp1] at hm1
            exact (Option.some.inj hm1).symm
          subst hm1s
          by_cases hs : m1 = sq
          · rw [if_pos hs] at h ⊢
            split at h
            next hm2 =>
              rw [hsp2] at hm2
              cases hm2
            next m2 hm2 =>
              have hm2e : m2 = e := by
                rw [hsp2] at hm2
                exact (Option.some.inj hm2).symm
              subst hm2e
              have he : ¬ m2 = eq2 := fun he2 => hne ⟨hs, he2⟩
              rw [if_neg he] at h ⊢
              obtain ⟨rl, hrl, hl⟩ := Option.map_eq_some'.1 h
              injection hl with _ hl2
              subst hl2
              rw [hrl]
              rfl
          · rw [if_neg hs] at h ⊢
            obtain ⟨rl, hrl, hl⟩ := Option.map_eq_some'.1 h
            injection hl with _ hl2
            subst hl2
            rw [hrl]
            rfl
  | cons q pre' ih =>
    intro post rid h
    obtain ⟨qid, qr⟩ := q
    rw [List.cons_append] at h ⊢
    rw [updRef] at h ⊢
    split at h
    next => cases h
    next PT2 hPT2 =>
      split at h
      next => cases h
      next pa2 hpa2 =>
        split at h
        next => cases h
        next m1 hm1 =>
          split at h
          next hs =>
            rw [if_pos hs]
            split at h
            next => cases h
            next m2 hm2 =>
              split at h
              next he2 =>
                rw [if_pos he2]
                have hq := Option.some.inj h
                injection hq with hq1 _
                rw [hq1]
              next he2 =>
                rw [if_neg he2]
                obtain ⟨rl, hrl, hl⟩ := Option.map_eq_some'.1 h
                injection hl with _ hl2
                subst hl2
                rw [ih post rid hrl]
                rfl
          next hs =>
            rw [if_neg hs]
            obtain ⟨rl, hrl, hl⟩ := Option.map_eq_some'.1 h
            injection hl with _ hl2
            subst hl2
            rw [ih post rid hrl]
            rfl

/-- On a referential tier whose resolved spans are pairwise distinct,
writing each annotation's own (snapshot) value back is a no-op scan. -/
theorem resolveRef_noop {tiers : List (String × Tier)}
    {ts : List (String × Nat)} {pt : String} :
    ∀ {l : List (String × RefAnn)} {anns},
      resolveRef tiers ts pt l = some anns →
      (anns.map fun q => (q.1, q.2.1)).Nodup →
      ∀ p ∈ anns, updRef tiers ts pt p.1 p.2.1 p.2.2 l = some l := by
  intro l
  induction l with
  | nil =>
    intro anns h _ p hp
    rw [resolveRef] at h
    cases h
    cases hp
  | cons q rest ih =>
    intro anns h hnd p hp
    obtain ⟨qid, qr⟩ := q
    rw [resolveRef] at h
    split at h
    next => cases h
    next PT hPT =>
      split at h
      next => cases h
      next pa hpa =>
        cases hl1 : look pa.ts1 ts with
        | none =>
          rw [hl1] at h
          cases h
        | some s0 =>
          cases hl2 : look pa.ts2 ts with
          | none =>
            rw [hl1, hl2] at h
            cases h
          | some e0 =>
            rw [hl1, hl2] at h
            obtain ⟨anns', hres, hanns⟩ := Option.map_eq_some'.1 h
            subst hanns
            rw [List.map_cons, List.nodup_cons] at hnd
            obtain ⟨hnotmem, hnd'⟩ := hnd
            rcases List.mem_cons.1 hp with rfl | hp2
            · simp only [updRef, hPT, hpa, hl1, hl2, if_pos]
            · have hneq : ¬ ((s0, e0) : Nat × Nat) = (p.1, p.2.1) :=
                fun heq => hnotmem (heq ▸ List.mem_map_of_mem _ hp2)
              by_cases hps : s0 = p.1
              · have hpe : ¬ e0 = p.2.1 := fun he =>
                  hneq (by rw [hps, he])
                simp only [updRef, hPT, hpa, hl1, hl2]
                rw [if_pos hps, if_neg hpe, ih hres hnd' p hp2]
                rfl
              · simp only [updRef, hPT, hpa, hl1, hl2]
                rw [if_neg hps, ih hres hnd' p hp2]
                rfl

/-- A no-op referential scan makes `set_ref_annotation` leave the store
exactly unchanged. -/
theorem setRefValue_id {tr : Transcript} {tier : String} {T : Tier}
    {pt : String} (hT : look tier tr.tiers = some T)
    (hpt : T.parentRef = some pt) {s e : Nat} {v : List Char}
    (hno : updRef tr.tiers tr.timeslots pt s e v T.refs = some T.refs) :
    setRefValue tr tier s e v = some tr := by
  simp only [setRefValue, hT, hpt, hno]
  rw [← hpt]
  rw [show ({ aligned := T.aligned, refs := T.refs, parentRef := T.parentRef } : Tier) = T from rfl]
  rw [updTier_self _ hT]

/-- Updating a tier without touching its aligned dictionary leaves every
parent-tier aligned view unchanged. -/
theorem alignedView_updTier {tier : String} {T T' : Tier}
    (hal : T'.aligned = T.aligned) :
    ∀ (l : List (String × Tier)), look tier l = some T → ∀ pt,
      (look pt (updTier tier T' l)).map (fun X => X.aligned) =
        (look pt l).map (fun X => X.aligned) := by
  intro l hT pt
  by_cases hpt : pt = tier
  · subst hpt
    rw [look_updTier_self l ⟨T, hT⟩, hT]
    rw [Option.map_some', Option.map_some', hal]
  · rw [look_updTier_other hpt l]

/-- The guarded and the unconditional inner loop agree on a referential
tier whose snapshot spans are pairwise distinct and no-op-scannable, and
both only rewrite values. -/
theorem runRef_eq (tier : String) :
    ∀ (anns : List (Nat × Nat × List Char)) (tr : Transcript) (T : Tier)
      (pt : String),
      look tier tr.tiers = some T →
      T.parentRef = some pt →
      (∀ p ∈ anns, updRef tr.tiers tr.timeslots pt p.1 p.2.1 p.2.2 T.refs =
        some T.refs) →
      (anns.map fun p => (p.1, p.2.1)).Nodup →
      runRef true tier tr anns = runRef false tier tr anns ∧
      ∃ tr2, runRef false tier tr anns = some tr2 ∧
        docShape tr2 = docShape tr := by
  intro anns
  induction anns with
  | nil =>
    intro tr T pt hT hpt hno hnd
    exact ⟨rfl, tr, rfl, rfl⟩
  | cons p rest ih =>
    intro tr T pt hT hpt hno hnd
    obtain ⟨s, e, v⟩ := p
    have hnoHead := hno (s, e, v) (List.mem_cons_self _ _)
    have hnoRest : ∀ q ∈ rest,
        updRef tr.tiers tr.timeslots pt q.1 q.2.1 q.2.2 T.refs =
          some T.refs :=
      fun q hq => hno q (List.mem_cons_of_mem _ hq)
    rw [List.map_cons, List.nodup_cons] at hnd
    obtain ⟨hnotmem, hnd'⟩ := hnd
    cases hpc : precheck v with
    | false =>
      have hanon : anonymize_text v = v := anonymize_text_fix v hpc
      have hcondT : (true && !precheck v) = true := by rw [hpc]; rfl
      have hcondF : ¬ ((false && !precheck v) = true) := by simp
      have hsetid : setRefValue tr tier s e (anonymize_text v) =
          some tr := by
        rw [hanon]
        exact setRefValue_id hT hpt hnoHead
      have hL : runRef true tier tr ((s, e, v) :: rest) =
          runRef true tier tr rest := by
        rw [runRef, if_pos hcondT]
      have hR : runRef false tier tr ((s, e, v) :: rest) =
          runRef false tier tr rest := by
        rw [runRef, if_neg hcondF, hsetid]
      obtain ⟨heq, tr2, hrun2, hsh2⟩ := ih tr T pt hT hpt hnoRest hnd'
      refine ⟨by rw [hL, hR, heq], tr2, by rw [hR, hrun2], hsh2⟩
    | true =>
      have hcondT : ¬ ((true && !precheck v) = true) := by
        rw [hpc]
        simp
      have hcondF : ¬ ((false && !precheck v) = true) := by simp
      obtain ⟨l2, hl2⟩ := @updRef_isSome tr.tiers tr.timeslots pt s e v
        (anonymize_text v) T.refs T.refs hnoHead
      have hex : ∃ tr2, setRefValue tr tier s e (anonymize_text v) =
          some tr2 ∧
          tr2.tiers =
            updTier tier (⟨T.aligned, l2, some pt⟩ : Tier) tr.tiers ∧
          tr2.timeslots = tr.timeslots :=
        ⟨{ tr with tiers := updTier tier (⟨T.aligned, l2, some pt⟩ : Tier) tr.tiers },
          by simp only [setRefValue, hT, hpt, hl2], rfl, rfl⟩
      obtain ⟨tr2, hset, htiers2, hts2⟩ := hex
      have hT2 : look tier tr2.tiers =
          some (⟨T.aligned, l2, some pt⟩ : Tier) := by
        rw [htiers2]
        exact look_updTier_self _ ⟨T, hT⟩
      have hview : (look pt tr2.tiers).map (fun X => X.aligned) =
          (look pt tr.tiers).map (fun X => X.aligned) := by
        rw [htiers2]
        exact @alignedView_updTier tier T (⟨T.aligned, l2, some pt⟩ : Tier)
          rfl tr.tiers hT pt
      have hrshape : refShape l2 = refShape T.refs := by
        rcases updRef_spec hl2 with ⟨_, rfl⟩ |
          ⟨pre, rid, r, post, hTr, hl2d, _, _⟩
        · rfl
        · rw [hl2d, hTr, refShape, refShape, List.map_append,
            List.map_append, List.map_cons, List.map_cons]
      have hno2 : ∀ q ∈ rest,
          updRef tr2.tiers tr2.timeslots pt q.1 q.2.1 q.2.2
            ((⟨T.aligned, l2, some pt⟩ : Tier)).refs =
          some ((⟨T.aligned, l2, some pt⟩ : Tier)).refs := by
        intro q hq
        rw [hts2]
        show updRef tr2.tiers tr.timeslots pt q.1 q.2.1 q.2.2 l2 = some l2
        rw [updRef_congr hview l2]
        rcases updRef_spec hl2 with ⟨_, rfl⟩ |
          ⟨pre, rid, r, post, hTr, hl2d, hspan, _⟩
        · exact hnoRest q hq
        · have hne : ¬ (s = q.1 ∧ e = q.2.1) := fun hh =>
            hnotmem (show ((s, e) : Nat × Nat) ∈ rest.map fun p =>
              (p.1, p.2.1) from by
                rw [hh.1, hh.2]
                exact List.mem_map_of_mem _ hq)
          obtain ⟨PT, pa, hPT, hpa, hsp⟩ := hspan
          have hq0 := hnoRest q hq
          rw [hTr] at hq0
          rw [hl2d]
          exact updRef_stable hne hPT hpa hsp.1 hsp.2 pre post rid hq0
      have hdoc : docShape tr2 = docShape tr := by
        have h2 : tr2 = { tr with tiers := updTier tier (⟨T.aligned, l2, some pt⟩ : Tier) tr.tiers } := by
          cases tr2
          cases htiers2
          cases hts2
          rfl
        rw [h2]
        refine docShape_updTier hT ?_
        show (alShape T.aligned, refShape l2, some pt) =
          (alShape T.aligned, refShape T.refs, T.parentRef)
        rw [hrshape, hpt]
      have hL : runRef true tier tr ((s, e, v) :: rest) =
          runRef true tier tr2 rest := by
        rw [runRef, if_neg hcondT, hset]
      have hR : runRef false tier tr ((s, e, v) :: rest) =
          runRef false tier tr2 rest := by
        rw [runRef, if_neg hcondF, hset]
      obtain ⟨heq, tr3, hrun3, hsh3⟩ := ih _ _ _ hT2 rfl hno2 hnd'
      refine ⟨by rw [hL, hR, heq], tr3, by rw [hR, hrun3], ?_⟩
      rw [hsh3, hdoc]

theorem look_tierShape :
    ∀ {l1 l2 : List (String × Tier)},
      l1.map (fun p => (p.1, tierShape p.2)) =
        l2.map (fun p => (p.1, tierShape p.2)) →
      ∀ k, (look k l1).map tierShape = (look k l2).map tierShape := by
  intro l1
  induction l1 with
  | nil =>
    intro l2 h k
    cases l2 with
    | nil => rfl
    | cons q r =>
      rw [List.map_nil, List.map_cons] at h
      cases h
  | cons p r1 ih =>
    intro l2 h k
    cases l2 with
    | nil =>
      rw [List.map_cons, List.map_nil] at h
      cases h
    | cons q r2 =>
      obtain ⟨pk, pT⟩ := p
      obtain ⟨qk, qT⟩ := q
      rw [List.map_cons, List.map_cons] at h
      injection h with h1 h2
      injection h1 with hk hsh
      subst hk
      rw [look, look]
      by_cases hpk : pk = k
      · rw [if_pos hpk, if_pos hpk, Option.map_some', Option.map_some', hsh]
      · rw [if_neg hpk, if_neg hpk]
        exact ih h2 k

theorem resolveAligned_shape {ts : List (String × Nat)} :
    ∀ {l1 l2 : List (String × AlignedAnn)}, alShape l1 = alShape l2 →
      (resolveAligned ts l1).map
          (fun anns => anns.map fun q => (q.1, q.2.1)) =
        (resolveAligned ts l2).map
          (fun anns => anns.map fun q => (q.1, q.2.1)) := by
  intro l1
  induction l1 with
  | nil =>
    intro l2 h
    cases l2 with
    | nil => rfl
    | cons q r =>
      rw [alShape, alShape, List.map_nil, List.map_cons] at h
      cases h
  | cons p r1 ih =>
    intro l2 h
    cases l2 with
    | nil =>
      rw [alShape, alShape, List.map_cons, List.map_nil] at h
      cases h
    | cons q r2 =>
      obtain ⟨pk, pa⟩ := p
      obtain ⟨qk, qa⟩ := q
      rw [alShape, alShape, List.map_cons, List.map_cons] at h
      injection h with h1 h2
      injection h1 with hk hrest
      injection hrest with hts1 hrest2
      injection hrest2 with hts2 _
      have ihr := ih (show alShape r1 = alShape r2 from h2)
      rw [resolveAligned, resolveAligned, hts1, hts2]
      cases hl1 : look qa.ts1 ts with
      | none => rfl
      | some s0 =>
        cases hl2 : look qa.ts2 ts with
        | none => rfl
        | some e0 =>
          cases hr1 : resolveAligned ts r1 with
          | none =>
            cases hr2 : resolveAligned ts r2 with
            | none => rfl
            | some a2 =>
              rw [hr1, hr2] at ihr
              cases ihr
          | some a1 =>
            cases hr2 : resolveAligned ts r2 with
            | none =>
              rw [hr1, hr2] at ihr
              cases ihr
            | some a2 =>
              rw [hr1, hr2] at ihr
              have hsp := Option.some.inj ihr
              have hsp2 : List.map (fun q => (q.1, q.2.1)) a1 =
                  List.map (fun q => (q.1, q.2.1)) a2 := hsp
              simp only [Option.map_some', List.map_cons]
              rw [hsp2]

theorem look_alShape :
    ∀ {l1 l2 : List (String × AlignedAnn)}, alShape l1 = alShape l2 →
      ∀ k, (look k l1).map (fun a => (a.ts1, a.ts2)) =
        (look k l2).map (fun a => (a.ts1, a.ts2)) := by
  intro l1
  induction l1 with
  | nil =>
    intro l2 h k
    cases l2 with
    | nil => rfl
    | cons q r =>
      rw [alShape, alShape, List.map_nil, List.map_cons] at h
      cases h
  | cons p r1 ih =>
    intro l2 h k
    cases l2 with
    | nil =>
      rw [alShape, alShape, List.map_cons, List.map_nil] at h
      cases h
    | cons q r2 =>
      obtain ⟨pk, pa⟩ := p
      obtain ⟨qk, qa⟩ := q
      rw [alShape, alShape, List.map_cons, List.map_cons] at h
      injection h with h1 h2
      injection h1 with hk hrest
      injection hrest with hts1 hrest2
      injection hrest2 with hts2 _
      subst hk
      rw [look, look]
      by_cases hpk : pk = k
      · rw [if_pos hpk, if_pos hpk, Option.map_some', Option.map_some',
          hts1, hts2]
      · rw [if_neg hpk, if_neg hpk]
        exact ih (show alShape r1 = alShape r2 from h2) k

theorem resolveRef_shape {ts : List (String × Nat)}
    {tiers1 tiers2 : List (String × Tier)} {pt : String}
    (hV : (look pt tiers1).map (fun T => alShape T.aligned) =
      (look pt tiers2).map (fun T => alShape T.aligned)) :
    ∀ {l1 l2 : List (String × RefAnn)}, refShape l1 = refShape l2 →
      (resolveRef tiers1 ts pt l1).map
          (fun anns => anns.map fun q => (q.1, q.2.1)) =
        (resolveRef tiers2 ts pt l2).map
          (fun anns => anns.map fun q => (q.1, q.2.1)) := by
  intro l1
  induction l1 with
  | nil =>
    intro l2 h
    cases l2 with
    | nil => rfl
    | cons q r =>
      rw [refShape, refShape, List.map_nil, List.map_cons] at h
      cases h
  | cons p r1 ih =>
    intro l2 h
    cases l2 with
    | nil =>
      rw [refShape, refShape, List.map_cons, List.map_nil] at h
      cases h
    | cons q r2 =>
      obtain ⟨pk, pr⟩ := p
      obtain ⟨qk, qr⟩ := q
      rw [refShape, refShape, List.map_cons, List.map_cons] at h
      injection h with h1 h2
      injection h1 with hk hrest
      injection hrest with hpan _
      have ihr := ih (show refShape r1 = refShape r2 from h2)
      cases hPT1 : look pt tiers1 with
      | none =>
        have hPT2 : look pt tiers2 = none := by
          rw [hPT1] at hV
          cases hl : look pt tiers2 with
          | none => rfl
          | some PT2 =>
            rw [hl] at hV
            cases hV
        simp only [resolveRef, hPT1, hPT2]
      | some PT1 =>
        have hex : ∃ PT2, look pt tiers2 = some PT2 ∧
            alShape PT1.aligned = alShape PT2.aligned := by
          rw [hPT1] at hV
          cases hl : look pt tiers2 with
          | none =>
            rw [hl] at hV
            cases hV
          | some PT2 =>
            rw [hl] at hV
            exact ⟨PT2, rfl, Option.some.inj hV⟩
        obtain ⟨PT2, hPT2, halsh⟩ := hex
        have hparent := look_alShape halsh pr.parentAnn
        cases hpa1 : look pr.parentAnn PT1.aligned with
        | none =>
          have hpa2 : look qr.parentAnn PT2.aligned = none := by
            rw [hpa1] at hparent
            rw [← hpan]
            cases hl : look pr.parentAnn PT2.aligned with
            | none => rfl
            | some pa2 =>
              rw [hl] at hparent
              cases hparent
          simp only [resolveRef, hPT1, hPT2, hpa1, hpa2]
        | some pa1 =>
          have hex2 : ∃ pa2, look qr.parentAnn PT2.aligned = some pa2 ∧
              pa1.ts1 = pa2.ts1 ∧ pa1.ts2 = pa2.ts2 := by
            rw [hpa1] at hparent
            rw [← hpan]
            cases hl : look pr.parentAnn PT2.aligned with
            | none =>
              rw [hl] at hparent
              cases hparent
            | some pa2 =>
              rw [hl] at hparent
              have hp2 := Option.some.inj hparent
              injection hp2 with ha hb
              exact ⟨pa2, rfl, ha, hb⟩
          obtain ⟨pa2, hpa2, hts1, hts2⟩ := hex2
          cases hl1 : look pa1.ts1 ts with
          | none =>
            have hl1b : look pa2.ts1 ts = none := by
              rw [← hts1]
              exact hl1
            simp only [resolveRef, hPT1, hPT2, hpa1, hpa2, hl1, hl1b]
          | some s0 =>
            have hl1b : look pa2.ts1 ts = some s0 := by
              rw [← hts1]
              exact hl1
            cases hl2 : look pa1.ts2 ts with
            | none =>
              have hl2b : look pa2.ts2 ts = none := by
                rw [← hts2]
                exact hl2
              simp only [resolveRef, hPT1, hPT2, hpa1, hpa2, hl1, hl1b,
                hl2, hl2b]
            | some e0 =>
              have hl2b : look pa2.ts2 ts = some e0 := by
                rw [← hts2]
                exact hl2
              simp only [resolveRef, hPT1, hPT2, hpa1, hpa2, hl1, hl1b,
                hl2, hl2b]
              cases hr1 : resolveRef tiers1 ts pt r1 with
              | none =>
                cases hr2 : resolveRef tiers2 ts pt r2 with
                | none => rfl
                | some a2 =>
                  rw [hr1, hr2] at ihr
                  cases ihr
              | some a1 =>
                cases hr2 : resolveRef tiers2 ts pt r2 with
                | none =>
                  rw [hr1, hr2] at ihr
                  cases ihr
                | some a2 =>
                  rw [hr1, hr2] at ihr
                  have hsp := Option.some.inj ihr
                  have hsp2 : List.map (fun q => (q.1, q.2.1)) a1 =
                      List.map (fun q => (q.1, q.2.1)) a2 := hsp
                  simp only [Option.map_some', List.map_cons]
                  rw [hsp2]

theorem tierSpansOK_shape {tiers1 tiers2 : List (String × Tier)}
    {ts : List (String × Nat)}
    (hV : ∀ pt, (look pt tiers1).map (fun T => alShape T.aligned) =
      (look pt tiers2).map (fun T => alShape T.aligned))
    {T1 T2 : Tier} (hsh : tierShape T1 = tierShape T2) :
    tierSpansOK tiers1 ts T1 = tierSpansOK tiers2 ts T2 := by
  rw [tierShape, tierShape] at hsh
  injection hsh with hal hsh2
  injection hsh2 with href hpr
  rw [tierSpansOK, tierSpansOK]
  have hA : (match resolveAligned ts T1.aligned with
      | none => true
      | some anns =>
        decide (anns.map fun q : Nat × Nat × List Char => (q.1, q.2.1)).Nodup) =
      (match resolveAligned ts T2.aligned with
      | none => true
      | some anns =>
        decide (anns.map fun q : Nat × Nat × List Char => (q.1, q.2.1)).Nodup) := by
    have hopt := @resolveAligned_shape ts T1.aligned T2.aligned hal
    cases hr1 : resolveAligned ts T1.aligned with
    | none =>
      cases hr2 : resolveAligned ts T2.aligned with
      | none => rfl
      | some a2 =>
        rw [hr1, hr2] at hopt
        cases hopt
    | some a1 =>
      cases hr2 : resolveAligned ts T2.aligned with
      | none =>
        rw [hr1, hr2] at hopt
        cases hopt
      | some a2 =>
        rw [hr1, hr2] at hopt
        have hv : List.map (fun q : Nat × Nat × List Char => (q.1, q.2.1)) a1 =
            List.map (fun q : Nat × Nat × List Char => (q.1, q.2.1)) a2 := Option.some.inj hopt
        show decide (a1.map fun q : Nat × Nat × List Char => (q.1, q.2.1)).Nodup =
          decide (a2.map fun q : Nat × Nat × List Char => (q.1, q.2.1)).Nodup
        rw [hv]
  have hR : (match T1.parentRef with
      | none => true
      | some pt =>
        match resolveRef tiers1 ts pt T1.refs with
        | none => true
        | some anns =>
          decide (anns.map fun q : Nat × Nat × List Char => (q.1, q.2.1)).Nodup) =
      (match T2.parentRef with
      | none => true
      | some pt =>
        match resolveRef tiers2 ts pt T2.refs with
        | none => true
        | some anns =>
          decide (anns.map fun q : Nat × Nat × List Char => (q.1, q.2.1)).Nodup) := by
    rw [← hpr]
    cases hp : T1.parentRef with
    | none => rfl
    | some pt =>
      have hopt := @resolveRef_shape ts tiers1 tiers2 pt (hV pt)
        T1.refs T2.refs href
      show (match resolveRef tiers1 ts pt T1.refs with
        | none => true
        | some anns =>
          decide (anns.map fun q : Nat × Nat × List Char => (q.1, q.2.1)).Nodup) =
        (match resolveRef tiers2 ts pt T2.refs with
        | none => true
        | some anns =>
          decide (anns.map fun q : Nat × Nat × List Char => (q.1, q.2.1)).Nodup)
      cases hr1 : resolveRef tiers1 ts pt T1.refs with
      | none =>
        cases hr2 : resolveRef tiers2 ts pt T2.refs with
        | none => rfl
        | some a2 =>
          rw [hr1, hr2] at hopt
          cases hopt
      | some a1 =>
        cases hr2 : resolveRef tiers2 ts pt T2.refs with
        | none =>
          rw [hr1, hr2] at hopt
          cases hopt
        | some a2 =>
          rw [hr1, hr2] at hopt
          have hv : List.map (fun q : Nat × Nat × List Char => (q.1, q.2.1)) a1 =
              List.map (fun q : Nat × Nat × List Char => (q.1, q.2.1)) a2 := Option.some.inj hopt
          show decide (a1.map fun q : Nat × Nat × List Char => (q.1, q.2.1)).Nodup =
            decide (a2.map fun q : Nat × Nat × List Char => (q.1, q.2.1)).Nodup
          rw [hv]
  rw [hA, hR]

theorem all_tierSpansOK {tiers1 tiers2 : List (String × Tier)}
    {ts : List (String × Nat)}
    (hV : ∀ pt, (look pt tiers1).map (fun T => alShape T.aligned) =
      (look pt tiers2).map (fun T => alShape T.aligned)) :
    ∀ {l1 l2 : List (String × Tier)},
      l1.map (fun p => (p.1, tierShape p.2)) =
        l2.map (fun p => (p.1, tierShape p.2)) →
      (l1.all fun p => tierSpansOK tiers1 ts p.2) =
        (l2.all fun p => tierSpansOK tiers2 ts p.2) := by
  intro l1
  induction l1 with
  | nil =>
    intro l2 h
    cases l2 with
    | nil => rfl
    | cons q r =>
      rw [List.map_nil, List.map_cons] at h
      cases h
  | cons p r1 ih =>
    intro l2 h
    cases l2 with
    | nil =>
      rw [List.map_cons, List.map_nil] at h
      cases h
    | cons q r2 =>
      rw [List.map_cons, List.map_cons] at h
      injection h with h1 h2
      injection h1 with hk hsh
      rw [List.all_cons, List.all_cons, tierSpansOK_shape hV hsh, ih h2]

/-- `spansDistinctB` only looks at the value-free shape of a document. -/
theorem spansDistinctB_shape {tr1 tr2 : Transcript}
    (h : docShape tr1 = docShape tr2) :
    spansDistinctB tr1 = spansDistinctB tr2 := by
  rw [docShape, docShape] at h
  injection h with hmap hts
  have hV : ∀ pt, (look pt tr1.tiers).map (fun T => alShape T.aligned) =
      (look pt tr2.tiers).map (fun T => alShape T.aligned) := by
    intro pt
    have h1 := congrArg (Option.map Prod.fst) (look_tierShape hmap pt)
    rw [Option.map_map, Option.map_map] at h1
    exact h1
  rw [spansDistinctB, spansDistinctB, hts]
  exact all_tierSpansOK hV hmap

/-- The guarded and unconditional orchestrator agree tier by tier, and
each tier pass preserves the document's value-free shape. -/
theorem processTier_eq (tr : Transcript) (tier : String)
    (hsd : spansDistinctB tr = true) :
    processTier true tr tier = processTier false tr tier ∧
    ∀ tr2, processTier false tr tier = some tr2 →
      docShape tr2 = docShape tr := by
  cases hT : look tier tr.tiers with
  | none =>
    constructor
    · rw [processTier, processTier, hT]
    · intro tr2 h2
      rw [processTier, hT] at h2
      cases h2
  | some T =>
    have hcond : tierSpansOK tr.tiers tr.timeslots T = true := by
      have hall := hsd
      rw [spansDistinctB] at hall
      exact List.all_eq_true.1 hall (tier, T) (look_mem hT)
    rw [tierSpansOK, Bool.and_eq_true] at hcond
    obtain ⟨hcA, hcR⟩ := hcond
    have hA2 : ∀ anns, resolveAligned tr.timeslots T.aligned = some anns →
        (anns.map fun q => (q.1, q.2.1)).Nodup := by
      intro anns2 hres
      rw [hres] at hcA
      exact of_decide_eq_true hcA
    have hR2 : ∀ pt anns, T.parentRef = some pt →
        resolveRef tr.tiers tr.timeslots pt T.refs = some anns →
        (anns.map fun q => (q.1, q.2.1)).Nodup := by
      intro pt2 anns2 hp hres
      rw [hp] at hcR
      have hcR2 : (match resolveRef tr.tiers tr.timeslots pt2 T.refs with
        | none => true
        | some anns =>
          decide ((anns.map fun q => (q.1, q.2.1)).Nodup)) = true := hcR
      rw [hres] at hcR2
      exact of_decide_eq_true hcR2
    by_cases hae : T.aligned.isEmpty
    · cases hpr : T.parentRef with
      | none =>
        constructor
        · simp only [processTier, hT, if_pos hae, hpr]
        · intro tr2 h2
          simp only [processTier, hT, if_pos hae, hpr] at h2
          by_cases hre : T.refs.isEmpty
          · rw [if_pos hre] at h2
            injection h2 with h3
            rw [← h3]
          · rw [if_neg hre] at h2
            cases h2
      | some pt =>
        cases hres : resolveRef tr.tiers tr.timeslots pt T.refs with
        | none =>
          constructor
          · simp only [processTier, hT, if_pos hae, hpr, hres]
          · intro tr2 h2
            simp only [processTier, hT, if_pos hae, hpr, hres] at h2
            cases h2
        | some anns =>
          have hnd := hR2 pt anns hpr hres
          have hinv := resolveRef_noop hres hnd
          obtain ⟨heq, tr2, hrun, hsh⟩ :=
            runRef_eq tier anns tr T pt hT hpr hinv hnd
          constructor
          · simp only [processTier, hT, if_pos hae, hpr, hres]
            exact heq
          · intro tr3 h3
            simp only [processTier, hT, if_pos hae, hpr, hres] at h3
            rw [hrun] at h3
            injection h3 with h4
            rw [← h4]
            exact hsh
    · cases hres : resolveAligned tr.timeslots T.aligned with
      | none =>
        constructor
        · simp only [processTier, hT, if_neg hae, hres]
        · intro tr2 h2
          simp only [processTier, hT, if_neg hae, hres] at h2
          cases h2
      | some anns =>
        have hnd := hA2 anns hres
        have hinv := resolveAligned_noop hres hnd
        obtain ⟨heq, tr2, hrun, hsh⟩ :=
          runAligned_eq tier anns tr T hT hinv hnd
        constructor
        · simp only [processTier, hT, if_neg hae, hres]
          exact heq
        · intro tr3 h3
          simp only [processTier, hT, if_neg hae, hres] at h3
          rw [hrun] at h3
          injection h3 with h4
          rw [← h4]
          exact hsh

theorem runTiers_eq : ∀ (names : List String) (tr : Transcript),
    spansDistinctB tr = true →
    runTiers true names tr = runTiers false names tr ∧
    ∀ tr2, runTiers false names tr = some tr2 →
      docShape tr2 = docShape tr := by
  intro names
  induction names with
  | nil =>
    intro tr _
    refine ⟨rfl, fun tr2 h2 => ?_⟩
    injection h2 with h3
    rw [← h3]
  | cons t rest ih =>
    intro tr hsd
    obtain ⟨hpeq, hpres⟩ := processTier_eq tr t hsd
    cases hp : processTier false tr t with
    | none =>
      have hp2 : processTier true tr t = none := by rw [hpeq, hp]
      constructor
      · rw [runTiers, runTiers, hp, hp2]
      · intro tr2 h2
        rw [runTiers, hp] at h2
        cases h2
    | some trm =>
      have hp2 : processTier true tr t = some trm := by rw [hpeq, hp]
      have hshm : docShape trm = docShape tr := hpres trm hp
      have hsd2 : spansDistinctB trm = true := by
        rw [spansDistinctB_shape hshm]
        exact hsd
      obtain ⟨hreq, hrres⟩ := ih trm hsd2
      constructor
      · rw [runTiers, runTiers, hp, hp2]
        exact hreq
      · intro tr2 h2
        rw [runTiers, hp] at h2
        have h3 : runTiers false rest trm = some tr2 := h2
        rw [hrres tr2 h3, hshm]

/-- C10 (amended: the unconditional equivalence additionally requires
that, on every tier, resolvable effective spans are pairwise distinct —
with duplicate spans the unconditional variant can redirect a rewrite to
the first span match and change the document): the pre-check is sound for
skipping — a string the pre-check regex does not match is returned
unchanged by the Markup Redactor (and `anonymize` reports it unchanged) —
and, on documents whose tiers have pairwise-distinct resolvable effective
spans, the orchestrator that redacts only pre-check matches produces
exactly the same document as the orchestrator that redacts every
annotation value unconditionally. -/
theorem claim_C10 (s : List Char) (tr : Transcript) :
    (precheck s = false →
      anonymize_text s = s ∧ anonymize s = (s, false)) ∧
    (spansDistinctB tr = true →
      redactDoc true tr = redactDoc false tr) := by
  constructor
  · intro h
    have h1 := anonymize_text_fix s h
    refine ⟨h1, ?_⟩
    show (anonymize_text s, anonymize_text s != s) = (s, false)
    rw [h1, bne_self_eq_false]
  · intro h
    rw [redactDoc, redactDoc]
    exact (runTiers_eq (tr.tiers.map Prod.fst) tr h).1

/-- Witness for C10: a markup-free string passes through unchanged, and
on the two-tier demonstration store (distinct spans) the guarded and the
unconditional orchestrator agree. -/
theorem claim_C10_witness :
    anonymize_text ("hello".toList) = "hello".toList ∧
    redactDoc true demoTr = redactDoc false demoTr := by
  have h := claim_C10 ("hello".toList) demoTr
  exact ⟨(h.1 (by decide)).1, h.2 (by decide)⟩

/-- Refuting the unconditional orchestrator equivalence: on `trDup`, whose
two annotations share the span `[0 ms, 5 ms]` and carry no markup, the
guarded orchestrator changes nothing, but the unconditional one rewrites
the first annotation twice — the second (no-op) redaction of `"v"` lands
on the first span match — leaving `"v"` in both annotations. -/
theorem claim_C10_counterexample :
    ¬ redactDoc true trDup = redactDoc false trDup ∧
    redactDoc true trDup = some trDup := by
  refine ⟨by decide, by decide⟩

end AnonLangdoc
